import Mathlib

/-!
# mygit: object store, pack entry headers and delta resolution

A shallow embedding of `cmd/mygit/main.go`: `hashObject`, `readObject`, the
callers of `hashObject`, the entry-header loop of `unpackObjects` and its
delta-resolution loop.

Conventions of the embedding.

* A Go `[]byte` is a `List UInt8`; all arithmetic is done on `Nat` through
  `UInt8.toNat`, with an explicit `% 2 ^ w` wherever a Go integer of width
  `w` can overflow.  `int` is 64 bits wide.
* A Go function that can end the process returns `Except Failure _`:
  `Failure.fatal` is a call of `fatal` (exit status 128), `Failure.panic` a
  run-time panic (index or slice bounds out of range, `makeslice`).
* The object directory is a map from object paths to files.  A file is empty
  or holds a zlib stream, which is kept by what it inflates to:
  `compress/zlib` is taken to be a lossless codec.
* `hashObject` opens a new object file with `os.OpenFile(objPath, os.O_CREATE,
  0644)`.  Whether the zlib writer can write through that handle depends on
  the operating system, which is a parameter `goos` of `hashObject` and of
  its callers.
* `crypto/sha1` is the SHA-1 function of FIPS 180-4.
-/

namespace MyGit

/-- How a run of the program can end early. -/
inductive Failure where
  | fatal
  | panic
  deriving DecidableEq, Repr

deriving instance DecidableEq for Except

abbrev Bytes := List UInt8

/-- The bytes of an ASCII string literal. -/
def ascii (s : String) : Bytes := s.data.map (fun c => UInt8.ofNat c.toNat)

/-! ## SHA-1 (`crypto/sha1`) -/

def rotl32 (x n : Nat) : Nat := ((x <<< n) ||| (x >>> (32 - n))) % 2 ^ 32

/-- Big-endian bytes of the low `8 * k` bits of `n`. -/
def beBytes : Nat → Nat → Bytes
  | 0, _ => []
  | k + 1, n => UInt8.ofNat ((n >>> (8 * k)) % 256) :: beBytes k n

def beWord : Bytes → Nat
  | [] => 0
  | b :: bs => b.toNat * 256 ^ bs.length + beWord bs

def sha1Pad (msg : Bytes) : Bytes :=
  msg ++ [0x80] ++ List.replicate ((119 - msg.length % 64) % 64) 0 ++ beBytes 8 (8 * msg.length)

/-- The sixteen 32-bit words of a 64-byte block. -/
def blockWords : Nat → Bytes → List Nat
  | 0, _ => []
  | k + 1, bs => beWord (bs.take 4) :: blockWords k (bs.drop 4)

/-- Message schedule, newest word first: `w` holds `W[t-1], W[t-2], ...`. -/
def sha1Schedule : Nat → List Nat → List Nat
  | 0, w => w
  | k + 1, w =>
    sha1Schedule k
      (rotl32 (w.getD 2 0 ^^^ w.getD 7 0 ^^^ w.getD 13 0 ^^^ w.getD 15 0) 1 :: w)

structure Sha1State where
  a : Nat
  b : Nat
  c : Nat
  d : Nat
  e : Nat
  deriving DecidableEq, Repr

def sha1F (t b c d : Nat) : Nat :=
  if t < 20 then (b &&& c) ||| ((b ^^^ 0xFFFFFFFF) &&& d)
  else if t < 40 then b ^^^ c ^^^ d
  else if t < 60 then (b &&& c) ||| (b &&& d) ||| (c &&& d)
  else b ^^^ c ^^^ d

def sha1K (t : Nat) : Nat :=
  if t < 20 then 0x5A827999
  else if t < 40 then 0x6ED9EBA1
  else if t < 60 then 0x8F1BBCDC
  else 0xCA62C1D6

def sha1Round (s : Sha1State) (tw : Nat × Nat) : Sha1State :=
  { a := (rotl32 s.a 5 + sha1F tw.1 s.b s.c s.d + s.e + sha1K tw.1 + tw.2) % 2 ^ 32
    b := s.a
    c := rotl32 s.b 30
    d := s.c
    e := s.d }

def sha1Block (h : Sha1State) (block : Bytes) : Sha1State :=
  let w := (sha1Schedule 64 (blockWords 16 block).reverse).reverse
  let r := (List.enum w).foldl sha1Round h
  { a := (h.a + r.a) % 2 ^ 32
    b := (h.b + r.b) % 2 ^ 32
    c := (h.c + r.c) % 2 ^ 32
    d := (h.d + r.d) % 2 ^ 32
    e := (h.e + r.e) % 2 ^ 32 }

def sha1Blocks : Nat → Sha1State → Bytes → Sha1State
  | 0, h, _ => h
  | k + 1, h, bs => sha1Blocks k (sha1Block h (bs.take 64)) (bs.drop 64)

def sha1Init : Sha1State :=
  { a := 0x67452301, b := 0xEFCDAB89, c := 0x98BADCFE, d := 0x10325476, e := 0xC3D2E1F0 }

/-- Go `sha1.New(); Write(msg); Sum(nil)`: the 20-byte digest of `msg`. -/
def sha1 (msg : Bytes) : Bytes :=
  let p := sha1Pad msg
  let h := sha1Blocks (p.length / 64) sha1Init p
  beBytes 4 h.a ++ beBytes 4 h.b ++ beBytes 4 h.c ++ beBytes 4 h.d ++ beBytes 4 h.e

/-! ## Formatting and parsing (`fmt`, `strconv`) -/

def hexDigit (n : Nat) : Char :=
  if n < 10 then Char.ofNat (48 + n) else Char.ofNat (87 + n)

/-- Go `fmt.Sprintf("%x", b)` for a byte slice: two lower-case digits per byte. -/
def hex : Bytes → List Char
  | [] => []
  | b :: bs => hexDigit (b.toNat / 16) :: hexDigit (b.toNat % 16) :: hex bs

def decimalLoop : Nat → Nat → Bytes → Bytes
  | 0, _, acc => acc
  | fuel + 1, n, acc =>
    if n / 10 = 0 then UInt8.ofNat (48 + n % 10) :: acc
    else decimalLoop fuel (n / 10) (UInt8.ofNat (48 + n % 10) :: acc)

/-- The decimal digits of a natural number, most significant first. -/
def decimal (n : Nat) : Bytes := decimalLoop (n + 1) n []

/-- Go `fmt.Sprintf("%d", z)`. -/
def fmtInt (z : Int) : Bytes :=
  if z < 0 then 0x2D :: decimal z.natAbs else decimal z.toNat

/-- Go `fmt.Sprintf("%+05d", z)`: a sign, then the digits padded with zeros to four. -/
def fmtPlus05d (z : Int) : Bytes :=
  (if z < 0 then 0x2D else 0x2B) ::
    (List.replicate (4 - (decimal z.natAbs).length) 0x30 ++ decimal z.natAbs)

def parseUintLoop : Bytes → Nat → Nat
  | [], n => n
  | c :: cs, n =>
    if 48 ≤ c.toNat ∧ c.toNat ≤ 57 then
      if n * 10 + (c.toNat - 48) < 2 ^ 64 then parseUintLoop cs (n * 10 + (c.toNat - 48))
      else 2 ^ 64 - 1
    else 0

/-- The value of `strconv.ParseUint(s, 10, 64)` when its error is dropped: `0` on a
syntax error, `2^64 - 1` when the value is out of range. -/
def parseUint (s : Bytes) : Nat := parseUintLoop s 0

/-! ## The object directory -/

/-- A file of the object directory as `zlib.NewReader` finds it: a file of no bytes, on
which `zlib.NewReader` fails, or a zlib stream, kept by the bytes it inflates to. -/
inductive ObjFile where
  | empty
  | deflated (stream : Bytes)
  deriving DecidableEq, Repr

/-- Object files by path. -/
abbrev Store := List Char → Option ObjFile

def emptyStore : Store := fun _ => none

/-- The object directory with the zlib stream of `stream` in the file at `path`. -/
def Store.write (st : Store) (path : List Char) (stream : Bytes) : Store :=
  fun q => if q = path then some (.deflated stream) else st q

/-- The object directory with a file of no bytes at `path`. -/
def Store.create (st : Store) (path : List Char) : Store :=
  fun q => if q = path then some .empty else st q

/-- Go `filepath.Join(".git", "objects", dir, file)`, written with the separator `/`: the
name of the object file, the same in `hashObject` and in `readObject`. -/
def objectPath (dir file : List Char) : List Char :=
  ".git/objects/".data ++ dir ++ '/' :: file

/-- Go `fmt.Sprintf("%s %d\000", contentType, contentSize)`. -/
def objectHeader (contentType : Bytes) (contentSize : Int) : Bytes :=
  contentType ++ [0x20] ++ fmtInt contentSize ++ [0]

/-- The operating system the program runs on (`runtime.GOOS`), as far as `os.OpenFile`
tells systems apart: Windows, or a Unix system (Linux, macOS, the BSDs). -/
inductive GOOS where
  | unix
  | windows
  deriving DecidableEq, Repr

/-- Go `os.OpenFile(objPath, os.O_CREATE, 0644)` (main.go:216): whether the handle it
returns accepts a `Write`.  The flag word names no access mode, and the access mode
zero is `O_RDONLY`.  On a Unix system the call is `open(2)` with
`O_RDONLY|O_CREAT`: the file is created and opened for reading only, and a `Write`
on the handle fails (`EBADF`).  On Windows package `syscall` adds `GENERIC_WRITE` to
the access it asks for whenever `O_CREAT` is set, and a `Write` goes through. -/
def createOnlyWritable : GOOS → Bool
  | .unix => false
  | .windows => true

/-- Function `hashObject` (main.go:189): the hash it returns, unless it ends the program,
and the store it leaves.  When the object file does not exist `os.OpenFile` creates
it.  Where the handle refuses writes, `writer.Write(payload)` fails when it writes
the zlib header to the file, `writer.Write(content)` returns that error again,
`writer.Close()` returns it to the caller (main.go:224) and `fatal` ends the program:
the file stays as `os.OpenFile` created it, with no bytes. -/
def hashObject (goos : GOOS) (writeObject : Bool) (contentType : Bytes) (contentSize : Int)
    (content : Bytes) (st : Store) : Except Failure Bytes × Store :=
  let payload := objectHeader contentType contentSize
  let hash := sha1 (payload ++ content)
  let objName := hex hash
  if !writeObject then (.ok hash, st)
  else
    let objPath := objectPath (objName.take 2) (objName.drop 2)
    -- no need to rewrite if contents match (same hash)
    if (st objPath).isSome then (.ok hash, st)
    else if createOnlyWritable goos then (.ok hash, st.write objPath (payload ++ content))
    else (.error .fatal, st.create objPath)

/-- Go run-time limit on the size of one allocation (64-bit platforms). -/
def maxAlloc : Nat := 2 ^ 48

/-- Go `make([]byte, n)`. -/
def makeslice (n : Nat) : Except Failure Bytes :=
  if n ≤ maxAlloc then .ok (List.replicate n 0) else .error .panic

/-! ## `bufio.Reader` over the inflater -/

/-- Size of the buffer of `bufio.NewReader`. -/
def bufSize : Nat := 4096

/-- A `bufio.Reader`: `buf` is what is buffered and not yet consumed, `rest` what the
underlying reader has not handed over yet.  The underlying reader hands over as
many bytes as a `Read` asks for while it has them. -/
structure BufReader where
  buf : Bytes
  rest : Bytes
  deriving DecidableEq, Repr

/-- Go `(*Reader).fill`: one `Read` of the underlying reader into the free space. -/
def BufReader.fill (b : BufReader) : BufReader :=
  { buf := b.buf ++ b.rest.take (bufSize - b.buf.length)
    rest := b.rest.drop (bufSize - b.buf.length) }

/-- Go `bytes.IndexByte`: position of the first `delim`. -/
def indexByte (delim : UInt8) : Bytes → Option Nat
  | [] => none
  | b :: bs => if b = delim then some 0 else (indexByte delim bs).map (· + 1)

/-- Go `(*Reader).ReadString(delim)`: the bytes read (the delimiter included when it was
found), whether it was found (`err == nil`), and the reader afterwards. -/
def BufReader.readStringLoop (delim : UInt8) :
    Nat → BufReader → Bytes → Bytes × Bool × BufReader
  | 0, b, acc => (acc, false, b)
  | fuel + 1, b, acc =>
    match indexByte delim b.buf with
    | some k => (acc ++ b.buf.take (k + 1), true, { b with buf := b.buf.drop (k + 1) })
    | none =>
      if b.rest = [] then (acc ++ b.buf, false, { b with buf := [] })
      else if bufSize ≤ b.buf.length then
        BufReader.readStringLoop delim fuel { b with buf := [] } (acc ++ b.buf)
      else BufReader.readStringLoop delim fuel b.fill acc

def BufReader.readString (b : BufReader) (delim : UInt8) : Bytes × Bool × BufReader :=
  BufReader.readStringLoop delim (2 * b.rest.length + 2) b []

/-- Go `(*Reader).Read(p)` with `len(p) = n`: the bytes put at the start of `p`.  The
bytes come from the buffer when it holds any, otherwise from one `Read` of the
underlying reader. -/
def BufReader.read (b : BufReader) (n : Nat) : Bytes × BufReader :=
  if n = 0 then ([], b)
  else if b.buf = [] then
    if bufSize ≤ n then (b.rest.take n, { b with rest := b.rest.drop n })
    else (b.fill.buf.take n, { b.fill with buf := b.fill.buf.drop n })
  else (b.buf.take n, { b with buf := b.buf.drop n })

/-- Function `readObject` (main.go:863): type, declared size and content buffer. -/
def readObject (st : Store) (hash : Bytes) : Except Failure (Bytes × Nat × Bytes) :=
  if hash = [] then .error .panic
  else
    match st (objectPath (hex (hash.take 1)) (hex (hash.drop 1))) with
    | none => .error .fatal
    | some .empty => .error .fatal
    | some (.deflated stream) =>
      let r1 := BufReader.readString { buf := [], rest := stream } 0x20
      if r1.1 = [] then .error .panic
      else
        let objType := r1.1.dropLast
        let r2 := BufReader.readString r1.2.2 0
        if r2.1 = [] then .error .panic
        else if !r2.2.1 then .error .fatal
        else
          let objSize := parseUint r2.1.dropLast
          match makeslice objSize with
          | .error e => .error e
          | .ok content =>
            let got := (BufReader.read r2.2.2 objSize).1
            .ok (objType, objSize, got ++ content.drop got.length)

/-! ## Callers of `hashObject` outside the pack reader -/

/-- Function `hashFile` (main.go:164) on a regular file holding `data`: `fileSize` is the
length of the file and `content` a buffer of that length filled by `file.Read`. -/
def hashFile (goos : GOOS) (writeObject : Bool) (data : Bytes) (st : Store) :
    Except Failure Bytes × Store :=
  let fileSize : Int := data.length
  let content := data
  hashObject goos writeObject (ascii "blob") fileSize content st

structure treeEntry where
  name : Bytes
  mode : Bytes
  hash : Bytes
  deriving DecidableEq, Repr

/-- Go `cmp.Compare(a, b) <= 0` on strings: byte-wise lexicographic order. -/
def bytesLe : Bytes → Bytes → Bool
  | [], _ => true
  | _ :: _, [] => false
  | a :: as, b :: bs => a.toNat < b.toNat || (a == b && bytesLe as bs)

/-- The serialisation loop of `writeTree` (main.go:425). -/
def treeContent : List treeEntry → Bytes
  | [] => []
  | e :: es => e.mode ++ [0x20] ++ e.name ++ [0] ++ e.hash ++ treeContent es

/-- Function `writeTree` (main.go:421) from the entries collected for a directory: sort by
name, serialise, store. -/
def writeTree (goos : GOOS) (treeEntries : List treeEntry) (st : Store) :
    Except Failure Bytes × Store :=
  let sorted := treeEntries.insertionSort (fun a b => bytesLe a.name b.name = true)
  let content := treeContent sorted
  hashObject goos true (ascii "tree") (content.length : Nat) content st

/-- The commit text assembled by `gitCommitTree` (main.go:488). -/
def commitContent (treeHash parentHash username email : Bytes) (timestamp timezone : Int)
    (message : Bytes) : Bytes :=
  ascii "tree " ++ treeHash ++ [0x0A] ++
  (if parentHash ≠ [] then ascii "parent " ++ parentHash ++ [0x0A] else []) ++
  (ascii "author " ++ username ++ ascii " <" ++ email ++ ascii "> " ++ fmtInt timestamp ++
    [0x20] ++ fmtPlus05d timezone ++ [0x0A]) ++
  (ascii "committer " ++ username ++ ascii " <" ++ email ++ ascii "> " ++ fmtInt timestamp ++
    [0x20] ++ fmtPlus05d timezone ++ [0x0A]) ++
  ([0x0A] ++ message ++ [0x0A])

/-- The `hashObject` call of `gitCommitTree` (main.go:496). -/
def commitTree (goos : GOOS) (treeHash parentHash username email : Bytes)
    (timestamp timezone : Int) (message : Bytes) (st : Store) : Except Failure Bytes × Store :=
  let content := commitContent treeHash parentHash username email timestamp timezone message
  hashObject goos true (ascii "commit") (content.length : Nat) content st

/-! ## Pack entries (`unpackObjects`, first loop) -/

def OBJ_COMMIT : Nat := 1
def OBJ_TREE : Nat := 2
def OBJ_BLOB : Nat := 3
def OBJ_TAG : Nat := 4
def OBJ_OFS_DELTA : Nat := 6
def OBJ_REF_DELTA : Nat := 7

/-- A saved ref-delta.  `content` is a slice of the inflate buffer: `spare` holds the
bytes of that buffer after `len(content)`, which a re-slice up to `cap(content)`
can reach. -/
structure objDelta where
  source : Bytes
  content : Bytes
  spare : Bytes
  deriving DecidableEq, Repr

/-- The size loop of an entry header (main.go:693): `value` is the byte read last,
`stream` what the reader still holds; returns the size, the number of header bytes
read and the stream after the header. -/
def entrySizeLoop : UInt8 → Bytes → Nat → Nat → Nat → Except Failure (Nat × Nat × Bytes)
  | value, stream, informedSize, shift, lenghtBytesRead =>
    if value.toNat &&& 0x80 ≠ 0 then
      match stream with
      | [] => .error .fatal
      | v :: rest =>
        if v.toNat &&& 0x80 = 0 then
          .ok (informedSize ||| ((v.toNat &&& 0x7F) <<< shift) % 2 ^ 64, lenghtBytesRead + 1, rest)
        else
          entrySizeLoop v rest (informedSize ||| ((v.toNat &&& 0x7F) <<< shift) % 2 ^ 64)
            (shift + 7) (lenghtBytesRead + 1)
    else .ok (informedSize, lenghtBytesRead, stream)

/-- Entry header (main.go:684-704): object type, declared size, header bytes read and
the stream after the header. -/
def readEntryHeader (stream : Bytes) : Except Failure (Nat × Nat × Nat × Bytes) :=
  match stream with
  | [] => .error .fatal
  | value :: rest =>
    match entrySizeLoop value rest (value.toNat &&& 0x0F) 4 1 with
    | .error e => .error e
    | .ok (informedSize, n, rest) => .ok ((value.toNat >>> 4) &&& 0x07, informedSize, n, rest)

/-- Go `zreader.Read(uncompressedBuffer)`: one `Read` of the inflater, which has `produced`
to deliver; returns the count and the buffer afterwards. -/
def zlibRead (produced uncompressedBuffer : Bytes) : Nat × Bytes :=
  (min produced.length uncompressedBuffer.length,
    produced.take uncompressedBuffer.length ++ uncompressedBuffer.drop produced.length)

/-- A call `hashObject(true, ...)` whose result the caller drops (main.go:745-751) or only
prints (main.go:854): the store the call leaves and whether it returned. -/
def putObject (goos : GOOS) (contentType : Bytes) (contentSize : Int) (content : Bytes)
    (st : Store) : Store × Except Failure Unit :=
  match hashObject goos true contentType contentSize content st with
  | (.error e, st) => (st, .error e)
  | (.ok _, st) => (st, .ok ())

/-- The end of one iteration of the entry loop (main.go:714-716, 726-754): allocate the
inflate buffer, read into it once, then store a direct object or save a ref-delta.
The result is the store the iteration leaves and, unless it ended the program, the
saved deltas. -/
def storeEntry (goos : GOOS) (objType : Nat) (objRefDeltaHash : Bytes) (informedSize : Nat)
    (produced : Bytes) (st : Store) (savedObjDeltas : List objDelta) :
    Store × Except Failure (List objDelta) :=
  match makeslice (if informedSize < 1024 then 1024 else informedSize) with
  | .error e => (st, .error e)
  | .ok buffer =>
    let actualSize := (zlibRead produced buffer).1
    let uncompressedBuffer := (zlibRead produced buffer).2
    if objType = OBJ_BLOB then
      match putObject goos (ascii "blob") (actualSize : Nat) (uncompressedBuffer.take actualSize)
          st with
      | (st, .error e) => (st, .error e)
      | (st, .ok ()) => (st, .ok savedObjDeltas)
    else if objType = OBJ_TREE then
      match putObject goos (ascii "tree") (actualSize : Nat) (uncompressedBuffer.take actualSize)
          st with
      | (st, .error e) => (st, .error e)
      | (st, .ok ()) => (st, .ok savedObjDeltas)
    else if objType = OBJ_COMMIT then
      match putObject goos (ascii "commit") (actualSize : Nat)
          (uncompressedBuffer.take actualSize) st with
      | (st, .error e) => (st, .error e)
      | (st, .ok ()) => (st, .ok savedObjDeltas)
    else if objType = OBJ_TAG then
      match putObject goos (ascii "tag") (actualSize : Nat) (uncompressedBuffer.take actualSize)
          st with
      | (st, .error e) => (st, .error e)
      | (st, .ok ()) => (st, .ok savedObjDeltas)
    else if objType = OBJ_REF_DELTA then
      (st, .ok (savedObjDeltas ++
        [{ source := objRefDeltaHash, content := uncompressedBuffer.take actualSize,
           spare := uncompressedBuffer.drop actualSize }]))
    else (st, .ok savedObjDeltas)

/-! ## Delta resolution (`unpackObjects`, second loop) -/

/-- The loop of a delta size (main.go:770): `cur` is `content[i]`, `rest` is
`content[i+1:]`; returns the size and how far `i` moved. -/
def deltaSizeLoop : UInt8 → Bytes → Nat → Nat → Nat → Except Failure (Nat × Nat)
  | cur, rest, size, shift, moved =>
    if cur.toNat &&& 0x80 ≠ 0 then
      match rest with
      | [] => .error .panic
      | c :: rest => deltaSizeLoop c rest (size ||| ((c.toNat &&& 0x7F) <<< shift) % 2 ^ 64)
          (shift + 7) (moved + 1)
    else .ok (size, moved)

/-- One size of the delta header, read at index `i` (main.go:768-776): the size and
the index after it. -/
def readDeltaSize (content : Bytes) (i : Nat) : Except Failure (Nat × Nat) :=
  match content.drop i with
  | [] => .error .panic
  | cur :: rest =>
    match deltaSizeLoop cur rest (cur.toNat &&& 0x7F) 7 0 with
    | .error e => .error e
    | .ok (size, moved) => .ok (size, i + moved + 1)

inductive Instr where
  | copy (offset length : Nat)
  | insert (data : Bytes)
  deriving DecidableEq, Repr

/-- Number of bytes the instruction adds to the target. -/
def Instr.length : Instr → Nat
  | .copy _ length => length
  | .insert data => data.length

/-- One `if bitmap&bit != 0 { v |= uint32(content[i]) << shift; i++ }` of the copy
decoder; the state is `(v, i)`. -/
def selByte (content : Bytes) (bitmap bit shift : Nat) (s : Nat × Nat) :
    Except Failure (Nat × Nat) :=
  if bitmap &&& bit ≠ 0 then
    match content[s.2]? with
    | none => .error .panic
    | some b => .ok (s.1 ||| (b.toNat <<< shift), s.2 + 1)
  else .ok s

/-- The decoding half of one loop iteration (main.go:800-838, 845-846): the
instruction at index `i` and the index after it.  The literal of an insert is
`content[i+1 : i+1+length]`, a slice expression bounded by `cap(content)`. -/
def decodeInstr (content spare : Bytes) (i : Nat) : Except Failure (Instr × Nat) :=
  match content[i]? with
  | none => .error .panic
  | some opcode =>
    if opcode.toNat >>> 7 = 1 then
      let lengthBitmap := (opcode.toNat >>> 4) &&& 0b0000111
      let offsetBitmap := opcode.toNat &&& 0b00001111
      match selByte content offsetBitmap 0b0001 0 (0, i + 1) with
      | .error e => .error e
      | .ok s1 =>
      match selByte content offsetBitmap 0b0010 8 s1 with
      | .error e => .error e
      | .ok s2 =>
      match selByte content offsetBitmap 0b0100 16 s2 with
      | .error e => .error e
      | .ok s3 =>
      match selByte content offsetBitmap 0b1000 24 s3 with
      | .error e => .error e
      | .ok s4 =>
      match selByte content lengthBitmap 0b0001 0 (0, s4.2) with
      | .error e => .error e
      | .ok t1 =>
      match selByte content lengthBitmap 0b0010 8 t1 with
      | .error e => .error e
      | .ok t2 =>
      match selByte content lengthBitmap 0b0100 16 t2 with
      | .error e => .error e
      | .ok t3 => .ok (.copy s4.1 t3.1, t3.2)
    else
      if i + 1 + opcode.toNat ≤ content.length + spare.length then
        .ok (.insert (((content ++ spare).drop (i + 1)).take opcode.toNat), i + 1 + opcode.toNat)
      else .error .panic

/-- Go's `copy(dst, src)`: `dst` afterwards. -/
def goCopy (dst src : Bytes) : Bytes := src.take dst.length ++ dst.drop src.length

/-- The copying half of one loop iteration (main.go:840-843, 847-849): the slice
expressions on the target and on the source, `copy`, and `targetIndex += length`,
all in `uint32`. -/
def execInstr (sourceBuffer : Bytes) (ins : Instr) (targetIndex : Nat) (targetBuffer : Bytes) :
    Except Failure (Nat × Bytes) :=
  let hi := (targetIndex + ins.length) % 2 ^ 32
  if targetIndex ≤ hi ∧ hi ≤ targetBuffer.length then
    let dst := (targetBuffer.drop targetIndex).take (hi - targetIndex)
    match ins with
    | .copy offset length =>
      let srcHi := (offset + length) % 2 ^ 32
      if offset ≤ srcHi ∧ srcHi ≤ sourceBuffer.length then
        .ok (hi, targetBuffer.take targetIndex ++
          goCopy dst ((sourceBuffer.drop offset).take (srcHi - offset)) ++ targetBuffer.drop hi)
      else .error .panic
    | .insert data =>
      .ok (hi, targetBuffer.take targetIndex ++ goCopy dst data ++ targetBuffer.drop hi)
  else .error .panic

/-- At most `n` iterations of the instruction loop (main.go:799) from the state
`(i, targetIndex, targetBuffer)`. -/
def replaySteps (content spare sourceBuffer : Bytes) :
    Nat → Nat × Nat × Bytes → Except Failure (Nat × Nat × Bytes)
  | 0, s => .ok s
  | n + 1, (i, targetIndex, targetBuffer) =>
    if i < content.length then
      match decodeInstr content spare i with
      | .error e => .error e
      | .ok (ins, i') =>
        match execInstr sourceBuffer ins targetIndex targetBuffer with
        | .error e => .error e
        | .ok (targetIndex', targetBuffer') =>
          replaySteps content spare sourceBuffer n (i', targetIndex', targetBuffer')
    else .ok (i, targetIndex, targetBuffer)

/-- The instructions the loop decodes in at most `n` iterations from index `i`, and
the index it stops at. -/
def decodeSteps (content spare : Bytes) : Nat → Nat → Except Failure (List Instr × Nat)
  | 0, i => .ok ([], i)
  | n + 1, i =>
    if i < content.length then
      match decodeInstr content spare i with
      | .error e => .error e
      | .ok (ins, i') =>
        match decodeSteps content spare n i' with
        | .error e => .error e
        | .ok (rest, j) => .ok (ins :: rest, j)
    else .ok ([], i)

/-- The delta header (main.go:767-786): source size, target size and the index of the
first opcode. -/
def readDeltaHeader (content : Bytes) : Except Failure (Nat × Nat × Nat) :=
  match readDeltaSize content 0 with
  | .error e => .error e
  | .ok (sourceSize, i) =>
    match readDeltaSize content i with
    | .error e => .error e
    | .ok (targetSize, i) => .ok (sourceSize, targetSize, i)

/-- One iteration of the delta loop up to the call of `hashObject` (main.go:764-852):
the type, size and content handed to `hashObject`.  Every iteration of the
instruction loop moves `i` forward, so `len(content)` iterations exhaust it. -/
def deltaTarget (st : Store) (d : objDelta) : Except Failure (Bytes × Nat × Bytes) :=
  match readDeltaHeader d.content with
  | .error e => .error e
  | .ok (sourceSize, targetSize, i) =>
    match makeslice targetSize with
    | .error e => .error e
    | .ok targetBuffer =>
      match readObject st d.source with
      | .error e => .error e
      | .ok (sourceType, readSize, sourceBuffer) =>
        if sourceSize ≠ readSize then .error .fatal
        else
          match replaySteps d.content d.spare sourceBuffer d.content.length
              (i, 0, targetBuffer) with
          | .error e => .error e
          | .ok (_, _, targetBuffer) => .ok (sourceType, targetSize, targetBuffer)

/-- One iteration of the delta loop (main.go:763-856): the store afterwards and
whether the process is still running. -/
def resolveDelta (goos : GOOS) (st : Store) (d : objDelta) : Store × Except Failure Unit :=
  match deltaTarget st d with
  | .error e => (st, .error e)
  | .ok (sourceType, targetSize, targetBuffer) =>
    putObject goos sourceType (targetSize : Nat) targetBuffer st

/-! ## Specification-side definitions -/

/-- From the claim's words: the little-endian base-128 value of `b0..bk`, the sum over
`i` of `(bi & 0x7F) * 2^(7*i)`. -/
def base128 (bs : Bytes) : Nat :=
  ((List.enum bs).map (fun p => (p.2.toNat &&& 0x7F) * 2 ^ (7 * p.1))).sum

/-- From the claim's words: the size of an entry header `b0, b1..bn`,
`(b0 & 0x0F)` plus the sum over `i` in `1..n` of `(bi & 0x7F) * 2^(4 + 7*(i-1))`. -/
def entrySize (b0 : UInt8) (bs : Bytes) : Nat :=
  (b0.toNat &&& 0x0F) +
    ((List.enum bs).map (fun p => (p.2.toNat &&& 0x7F) * 2 ^ (4 + 7 * p.1))).sum

/-- Weighted sum of 7-bit groups, the first group at bit `c + 7 * k`. -/
def groupSum (c k : Nat) (bs : Bytes) : Nat :=
  ((List.enumFrom k bs).map (fun p => (p.2.toNat &&& 0x7F) * 2 ^ (c + 7 * p.1))).sum

/-- From the claim's words (C5): bits 0-2 of a copy opcode select up to three offset
bytes and bits 3-5 up to three length bytes. -/
def claimedCopy (content : Bytes) (i : Nat) : Except Failure (Instr × Nat) :=
  match content[i]? with
  | none => .error .panic
  | some opcode =>
    let offsetBitmap := opcode.toNat &&& 0b000111
    let lengthBitmap := (opcode.toNat >>> 3) &&& 0b000111
    match selByte content offsetBitmap 0b0001 0 (0, i + 1) with
    | .error e => .error e
    | .ok s1 =>
    match selByte content offsetBitmap 0b0010 8 s1 with
    | .error e => .error e
    | .ok s2 =>
    match selByte content offsetBitmap 0b0100 16 s2 with
    | .error e => .error e
    | .ok s3 =>
    match selByte content lengthBitmap 0b0001 0 (0, s3.2) with
    | .error e => .error e
    | .ok t1 =>
    match selByte content lengthBitmap 0b0010 8 t1 with
    | .error e => .error e
    | .ok t2 =>
    match selByte content lengthBitmap 0b0100 16 t2 with
    | .error e => .error e
    | .ok t3 => .ok (.copy s3.1 t3.1, t3.2)

/-- Number of set bits among bits `0..k-1` of an opcode: how many argument bytes
precede the one selected by bit `k`. -/
def argsBefore (op : Nat) : Nat → Nat
  | 0 => 0
  | k + 1 => argsBefore op k + (if op.testBit k then 1 else 0)

/-- The field selected by the `n` bits `lo..lo+n-1` of the opcode at index `i`: the
selected argument bytes combined least-significant byte first, an unselected byte
counting as zero. -/
def copyField (content : Bytes) (i op lo : Nat) : Nat → Nat
  | 0 => 0
  | n + 1 => copyField content i op lo n +
      (if op.testBit (lo + n) then
        (content.getD (i + 1 + argsBefore op (lo + n)) 0).toNat * 256 ^ n
      else 0)

/-- The bytes an instruction adds to the target when replayed against `base`. -/
def Instr.output (base : Bytes) : Instr → Bytes
  | .copy offset length => (base.drop offset).take length
  | .insert data => data

/-- From the claim's words (C1): the concatenation, in instruction order, of
`base[offset, offset+length)` for each Copy and of the literal bytes for each Insert. -/
def replayOutput (base : Bytes) (instrs : List Instr) : Bytes :=
  (instrs.map (Instr.output base)).flatten

/-- The sum of the instruction lengths. -/
def totalLength (instrs : List Instr) : Nat := (instrs.map Instr.length).sum

/-- The range of a Copy lies inside the base. -/
def Instr.inBase (base : Bytes) : Instr → Prop
  | .copy offset length => offset + length ≤ base.length
  | .insert _ => True

instance (base : Bytes) (ins : Instr) : Decidable (ins.inBase base) := by
  cases ins <;> unfold Instr.inBase <;> infer_instance

/-- The range of a Copy ends below `2^32`, where `uint32` arithmetic wraps. -/
def Instr.below32 : Instr → Prop
  | .copy offset length => offset + length < 2 ^ 32
  | .insert _ => True

instance (ins : Instr) : Decidable ins.below32 := by
  cases ins <;> unfold Instr.below32 <;> infer_instance

/-- What the decoder guarantees of an instruction: a copy has a 32-bit offset and a
24-bit length, an insert at most 127 bytes. -/
def Instr.bounded : Instr → Prop
  | .copy offset length => offset < 2 ^ 32 ∧ length < 2 ^ 24
  | .insert data => data.length < 128

/-- Two object directories have files at the same paths. -/
def Store.sameFiles (st st' : Store) : Prop := ∀ q, (st q).isSome = (st' q).isSome

/-- From the claim's words (C3): the object file at the path `q` holds, for some type and
payload, the bytes `"<type> <len(payload)>\0"` followed by the payload, and `q` is
the path derived from the SHA-1 of those bytes. -/
def hashContract (q : List Char) (s : Bytes) : Prop :=
  ∃ ty payload : Bytes, s = ty ++ [0x20] ++ decimal payload.length ++ [0] ++ payload ∧
    q = objectPath ((hex (sha1 s)).take 2) ((hex (sha1 s)).drop 2)

/-- Every object file of `st'` was in `st` already, or satisfies the hash contract. -/
def Store.addsByContract (st st' : Store) : Prop :=
  ∀ q s, st' q = some (.deflated s) → st q = some (.deflated s) ∨ hashContract q s

/-! ## Sample objects -/

/-- The hash of the object with the given type and payload. -/
def objectHash (contentType content : Bytes) : Bytes :=
  sha1 (objectHeader contentType (content.length : Nat) ++ content)

/-- An object directory that holds one object and nothing else: the file at the path of
the object's hash holds the zlib stream of its header and payload, as `git` writes
it. -/
def storeOf (contentType content : Bytes) : Store :=
  emptyStore.write
    (objectPath ((hex (objectHash contentType content)).take 2)
      ((hex (objectHash contentType content)).drop 2))
    (objectHeader contentType (content.length : Nat) ++ content)

/-- An object directory that holds the blob `abc` and nothing else. -/
def sampleStore : Store := storeOf (ascii "blob") (ascii "abc")

/-- The hash of the blob `abc`. -/
def sampleHash : Bytes := objectHash (ascii "blob") (ascii "abc")

/-- The record of one tree entry as the data model writes it:
`"<mode><space><name>\0<20-byte-hash>"`. -/
def treeRecord (e : treeEntry) : Bytes :=
  e.mode ++ ascii " " ++ e.name ++ ascii "\x00" ++ e.hash

/-- Ascending byte order of two names: the first is a prefix of the second, or at the
first position where they differ the first has the smaller byte. -/
def byteOrderLe (a b : Bytes) : Prop :=
  a <+: b ∨ ∃ (p : Bytes) (x y : UInt8) (s t : Bytes),
    a = p ++ x :: s ∧ b = p ++ y :: t ∧ x.toNat < y.toNat

/-! ## Checkout (`checkoutCommit`, `checkoutTree`, `checkoutFile`) -/

/-- Go `reverseHexTable` of `encoding/hex`: the value of a hexadecimal digit, `none` where
the table holds `0xff`. -/
def fromHexChar (c : UInt8) : Option Nat :=
  if 0x30 ≤ c.toNat ∧ c.toNat ≤ 0x39 then some (c.toNat - 0x30)
  else if 0x61 ≤ c.toNat ∧ c.toNat ≤ 0x66 then some (c.toNat - 0x61 + 10)
  else if 0x41 ≤ c.toNat ∧ c.toNat ≤ 0x46 then some (c.toNat - 0x41 + 10)
  else none

/-- Go `hex.DecodeString(s)` with its error dropped: the bytes decoded from the pairs of
digits before the first invalid byte, or before a last byte that has no partner. -/
def hexDecode : Bytes → Bytes
  | p :: q :: rest =>
    match fromHexChar p, fromHexChar q with
    | some a, some b => UInt8.ofNat ((a <<< 4) ||| b) :: hexDecode rest
    | _, _ => []
  | _ => []

/-- The tree hash `checkoutCommit` takes from the commit content (main.go:901-904): skip
up to the first space, read up to the first newline, decode. -/
def commitTreeHash (content : Bytes) : Bytes :=
  let r1 := BufReader.readString { buf := [], rest := content } 0x20
  let treeHash := (BufReader.readString r1.2.2 0x0A).1
  hexDecode treeHash

/-- What checkout does to the working directory. -/
inductive FsOp where
  | mkdirAll (path : Bytes)
  | writeFile (path : Bytes) (content : Bytes)
  deriving DecidableEq, Repr

/-- Go `filepath.Join(path, name)` for a clean `path` and a `name` that is one path
element. -/
def joinPath (path name : Bytes) : Bytes := path ++ 0x2F :: name

/-- Function `checkoutFile` (main.go:959): the file it creates and writes. -/
def checkoutFile (st : Store) (hash path : Bytes) : Except Failure FsOp :=
  match readObject st hash with
  | .error e => .error e
  | .ok (objType, _, content) =>
    if objType ≠ ascii "blob" then .error .fatal
    else .ok (.writeFile path content)

/-- The entry loop of `checkoutTree` (main.go:925-956).  `checkoutTree` is the function
called for a directory entry; `ops` is what has been done to the working directory
so far.  The result is `none` when the iterations allowed are used up. -/
def checkoutEntries (st : Store)
    (checkoutTree : Bytes → Bytes → List FsOp → Option (List FsOp × Except Failure Unit)) :
    Nat → BufReader → Bytes → List FsOp → Option (List FsOp × Except Failure Unit)
  | 0, _, _, _ => none
  | fuel + 1, reader, path, ops =>
    let r1 := reader.readString 0x20
    if !r1.2.1 then some (ops, .ok ())
    else
      let fileMode := ascii "000000" ++ r1.1.dropLast
      let fileMode := fileMode.drop (fileMode.length - 6)
      let r2 := r1.2.2.readString 0
      if !r2.2.1 then some (ops, .error .fatal)
      else
        let name := r2.1.dropLast
        let r3 := r2.2.2.read 20
        if r3.1 = [] then some (ops, .error .fatal)
        else
          let hash := r3.1 ++ List.replicate (20 - r3.1.length) 0
          if fileMode = ascii "100644" then
            match checkoutFile st hash (joinPath path name) with
            | .error e => some (ops, .error e)
            | .ok op => checkoutEntries st checkoutTree fuel r3.2 path (ops ++ [op])
          else if fileMode = ascii "040000" then
            match checkoutTree hash (joinPath path name) ops with
            | none => none
            | some (ops, .error e) => some (ops, .error e)
            | some (ops, .ok ()) => checkoutEntries st checkoutTree fuel r3.2 path ops
          else checkoutEntries st checkoutTree fuel r3.2 path ops

/-- Function `checkoutTree` (main.go:914).  The first argument bounds the depth of the
directory tree; every iteration of the entry loop consumes at least one byte of the
content, so `len(content) + 1` iterations exhaust it. -/
def checkoutTree (st : Store) :
    Nat → Bytes → Bytes → List FsOp → Option (List FsOp × Except Failure Unit)
  | 0, _, _, _ => none
  | depth + 1, tree, path, ops =>
    match readObject st tree with
    | .error e => some (ops ++ [.mkdirAll path], .error e)
    | .ok (objType, _, content) =>
      if objType ≠ ascii "tree" then some (ops ++ [.mkdirAll path], .error .fatal)
      else
        checkoutEntries st (checkoutTree st depth) (content.length + 1)
          { buf := [], rest := content } path (ops ++ [.mkdirAll path])

/-- Function `checkoutCommit` (main.go:896) with the working directory `root`. -/
def checkoutCommit (st : Store) (depth : Nat) (head root : Bytes) :
    Option (List FsOp × Except Failure Unit) :=
  match readObject st head with
  | .error e => some ([], .error e)
  | .ok (objType, _, content) =>
    if objType ≠ ascii "commit" then some ([], .error .fatal)
    else checkoutTree st depth (commitTreeHash content) root []

/-! ## Specification-side definitions for checkout -/

/-- The value of a hexadecimal digit, in either case. -/
def hexDigitValue (c : UInt8) : Nat :=
  if c.toNat ≤ 0x39 then c.toNat - 0x30
  else if c.toNat ≤ 0x46 then c.toNat - 0x41 + 10
  else c.toNat - 0x61 + 10

def isHexDigit (c : UInt8) : Bool :=
  (0x30 ≤ c.toNat && c.toNat ≤ 0x39) || (0x41 ≤ c.toNat && c.toNat ≤ 0x46) ||
    (0x61 ≤ c.toNat && c.toNat ≤ 0x66)

/-- The bytes a string of hexadecimal digits denotes: one byte per pair of digits, the
first digit of a pair being the high half. -/
def hexBytes : Bytes → Bytes
  | hi :: lo :: rest => UInt8.ofNat (16 * hexDigitValue hi + hexDigitValue lo) :: hexBytes rest
  | _ => []

/-- The characters of `fmt.Sprintf("%x", b)` as bytes. -/
def hexText (b : Bytes) : Bytes := (hex b).map (fun c => UInt8.ofNat c.toNat)

/-! ## Sample commit -/

/-- A commit of the empty tree. -/
def sampleCommit : Bytes :=
  ascii "tree " ++ ascii "4b825dc642cb6eb9a060e54bf8d69288fbee4904" ++
    0x0A :: ascii "author a <a@b> 0 +0000\ncommitter a <a@b> 0 +0000\n\nfirst\n"

/-! ## Sample working tree -/

/-- A file of 4090 bytes `a`. -/
def bigBlob : Bytes := List.replicate 4090 0x61

/-- The SHA-1 of the blob object of `bigBlob`, `91834b7d74f15065ded4aea92f6503684a4b992b`. -/
def bigBlobHash : Bytes :=
  [0x91, 0x83, 0x4b, 0x7d, 0x74, 0xf1, 0x50, 0x65, 0xde, 0xd4, 0xae, 0xa9, 0x2f, 0x65, 0x03,
    0x68, 0x4a, 0x4b, 0x99, 0x2b]

/-- The tree of a directory holding `bigBlob` as the regular file `f`. -/
def bigTree : Bytes := ascii "100644 f\x00" ++ bigBlobHash

/-- The SHA-1 of the tree object of `bigTree`, `f8bdc639248dcf6908e99d65c7d5055d09791737`. -/
def bigTreeHash : Bytes :=
  [0xf8, 0xbd, 0xc6, 0x39, 0x24, 0x8d, 0xcf, 0x69, 0x08, 0xe9, 0x9d, 0x65, 0xc7, 0xd5, 0x05,
    0x5d, 0x09, 0x79, 0x17, 0x37]

/-- An object directory holding the two objects, each at the path of its hash. -/
def bigStore : Store :=
  (emptyStore.write (objectPath ((hex bigBlobHash).take 2) ((hex bigBlobHash).drop 2))
      (objectHeader (ascii "blob") (bigBlob.length : Nat) ++ bigBlob)).write
    (objectPath ((hex bigTreeHash).take 2) ((hex bigTreeHash).drop 2))
    (objectHeader (ascii "tree") (bigTree.length : Nat) ++ bigTree)

/-- The six characters `checkoutTree` compares (main.go:933-934). -/
def normalMode (mode : Bytes) : Bytes :=
  (ascii "000000" ++ mode).drop ((ascii "000000" ++ mode).length - 6)

/-! ## The refs advertisement (`fetchGitPack`) -/

/-- Go `strconv.ParseUint(s, 16, 32)`, the loop over the characters: `none` is any error. -/
def parseHexLoop : Bytes → Nat → Option Nat
  | [], n => some n
  | c :: cs, n =>
    let lower := c.toNat ||| 0x20
    let d : Option Nat :=
      if 0x30 ≤ c.toNat ∧ c.toNat ≤ 0x39 then some (c.toNat - 0x30)
      else if 0x61 ≤ lower ∧ lower ≤ 0x7A then some (lower - 0x61 + 10)
      else none
    match d with
    | none => none
    | some d =>
      if d ≥ 16 then none
      else if n ≥ (2 ^ 64 - 1) / 16 + 1 then none
      else if n * 16 + d > 2 ^ 32 - 1 then none
      else parseHexLoop cs (n * 16 + d)

/-- Go `strconv.ParseUint(s, 16, 32)`; `none` is any error (syntax or range). -/
def parseHex (s : Bytes) : Option Nat :=
  if s = [] then none else parseHexLoop s 0

/-- What one iteration of the frame loop reads. -/
inductive Frame where
  | data (dataBuffer : Bytes)
  | terminator
  deriving DecidableEq, Repr

/-- The reads of one iteration of the frame loop (main.go:555-573, 601-603): `none` at the
end of the body, otherwise the frame, `sizeBuffer` afterwards (four bytes, the ones
not overwritten kept) and the rest of the body.  The response body is taken to deliver to a `Read` as many bytes as it asks
for while it has them, and to report its end on a `Read` that delivers none. -/
def readFrame (sizeBuffer body : Bytes) : Except Failure (Option (Frame × Bytes × Bytes)) :=
  let got := body.take 4
  if got = [] then .ok none
  else
    let sizeBuffer := got ++ (sizeBuffer.drop got.length).take (4 - got.length)
    let body := body.drop 4
    match parseHex sizeBuffer with
    | none => .error .fatal
    | some size =>
      if size > 4 then
        let read := body.take (size - 4)
        if read = [] then .error .fatal
        else
          .ok (some (.data (read ++ List.replicate (size - 4 - read.length) 0), sizeBuffer,
            body.drop (size - 4)))
      else .ok (some (.terminator, sizeBuffer, body))

/-- What the frame loop does with a payload (main.go:577-600): `refs` afterwards, the ref
read last first. -/
def advertisedLine (dataBuffer : Bytes) (refs : List (Bytes × Bytes)) :
    Except Failure (List (Bytes × Bytes)) :=
  if dataBuffer = [] then .error .panic
  else
    let data := if dataBuffer.getLast? = some 0x0A then dataBuffer.dropLast else dataBuffer
    match data with
    | [] => .error .panic
    | c :: _ =>
      if c = 0x23 then
        if data ≠ ascii "# service=git-upload-pack" then .error .fatal else .ok refs
      else if data.length < 41 then .error .panic
      else
        let hash := data.take 40
        let ref := (data.drop 41).takeWhile (fun b => b ≠ 0)
        .ok ((ref, hash) :: refs)

/-- The frame loop of `fetchGitPack` (main.go:553-604).  Every iteration that does not end
the loop takes at least one byte from the body; `none` when the iterations allowed
are used up. -/
def readAdvertisement :
    Nat → Bytes → Bytes → List (Bytes × Bytes) → Option (Except Failure (List (Bytes × Bytes)))
  | 0, _, _, _ => none
  | fuel + 1, sizeBuffer, body, refs =>
    match readFrame sizeBuffer body with
    | .error e => some (.error e)
    | .ok none => some (.ok refs)
    | .ok (some (.data dataBuffer, sizeBuffer, body)) =>
      match advertisedLine dataBuffer refs with
      | .error e => some (.error e)
      | .ok refs => readAdvertisement fuel sizeBuffer body refs
    | .ok (some (.terminator, sizeBuffer, body)) => readAdvertisement fuel sizeBuffer body refs

/-- The length four hexadecimal digits denote. -/
def frameLength (d₀ d₁ d₂ d₃ : UInt8) : Nat :=
  hexDigitValue d₀ * 16 ^ 3 + hexDigitValue d₁ * 16 ^ 2 + hexDigitValue d₂ * 16 + hexDigitValue d₃

/-! ## The pack reader (`unpackObjects`) -/

/-- Go `(*Reader).ReadByte`: `none` at the end of the input. -/
def BufReader.readByte (b : BufReader) : Option (UInt8 × BufReader) :=
  match b.buf with
  | v :: buf => some (v, { b with buf := buf })
  | [] =>
    match b.fill.buf with
    | v :: buf => some (v, { b.fill with buf := buf })
    | [] => none

/-- The reader after `n` calls of `ReadByte`. -/
def BufReader.skipBytes : Nat → BufReader → BufReader
  | 0, b => b
  | n + 1, b =>
    match b.readByte with
    | some (_, b) => BufReader.skipBytes n b
    | none => b

/-- Go `(*Reader).Peek(n)` as `unpackObjects` uses it: the bytes peeked and the reader
afterwards.  The reader fills its buffer while it holds fewer than `n` bytes and the
buffer is not full; over a `bytes.Reader` one `fill` takes all there is room for.
More than the buffer size cannot be peeked (`ErrBufferFull`, fatal at the call);
fewer bytes than asked for at the end of the input are handed over with `io.EOF`,
which the call accepts. -/
def BufReader.peek (b : BufReader) (n : Nat) : Except Failure (Bytes × BufReader) :=
  let b := if b.buf.length < n ∧ b.buf.length < bufSize then b.fill else b
  if n > bufSize then .error .fatal else .ok (b.buf.take n, b)

/-- Go `(*Reader).Discard(n)`, the loop: skip what is buffered, fill when nothing is, stop
at the end of the input. -/
def BufReader.discardLoop : Nat → BufReader → Nat → BufReader
  | 0, b, _ => b
  | fuel + 1, b, remain =>
    let b := if b.buf = [] then b.fill else b
    let skip := min b.buf.length remain
    if remain - skip = 0 then { b with buf := b.buf.drop skip }
    else if b.buf = [] then b
    else BufReader.discardLoop fuel { b with buf := b.buf.drop skip } (remain - skip)

/-- Go `(*Reader).Discard(n)`: every iteration that does not end the loop skips at least
one byte. -/
def BufReader.discard (b : BufReader) (n : Nat) : BufReader :=
  if n = 0 then b else BufReader.discardLoop n b n

/-- The inflater of `compress/zlib` as `unpackObjects` uses it: `zlib.NewReader` on the
bytes peeked and one `Read` into a buffer of `n` bytes.  `readOnce window n` is
`none` when `NewReader` fails or `Read` returns an error other than `io.EOF` and
`io.ErrUnexpectedEOF`; otherwise it holds what the inflater has to deliver to that
`Read` and the number of bytes of the window it has consumed. -/
structure Zlib where
  readOnce : Bytes → Nat → Option (Bytes × Nat)

/-- Function `bigEndianBytesToUint` (main.go:859). -/
def bigEndianBytesToUint (b : Bytes) : Nat :=
  ((b.getD 0 0).toNat <<< 24 ||| (b.getD 1 0).toNat <<< 16 ||| (b.getD 2 0).toNat <<< 8 |||
    (b.getD 3 0).toNat) % 2 ^ 64

/-- One iteration of the entry loop (main.go:680-758): the store it leaves and, unless it
ended the program, the reader and the saved deltas afterwards.  `ReadByte` hands
over the bytes the reader holds one by one, so the entry header is decoded from them
by `readEntryHeader` and the reader has moved by the number of bytes read. -/
def unpackEntry (goos : GOOS) (Z : Zlib) (reader : BufReader) (st : Store)
    (savedObjDeltas : List objDelta) : Store × Except Failure (BufReader × List objDelta) :=
  match readEntryHeader (reader.buf ++ reader.rest) with
  | .error e => (st, .error e)
  | .ok (objType, informedSize, lenghtBytesRead, _) =>
    let reader := reader.skipBytes lenghtBytesRead
    if objType = OBJ_OFS_DELTA then (st, .error .fatal)
    else
      let r := if objType = OBJ_REF_DELTA then reader.read 20 else ([], reader)
      let objRefDeltaHash :=
        if objType = OBJ_REF_DELTA then r.1 ++ List.replicate (20 - r.1.length) 0 else []
      let reader := r.2
      -- NOTE: no idea why reported size is too small in some cases...
      let informedSize := if informedSize < 1024 then 1024 else informedSize
      match reader.peek informedSize with
      | .error e => (st, .error e)
      | .ok (compressedBuffer, reader) =>
        match Z.readOnce compressedBuffer informedSize with
        | none => (st, .error .fatal)
        | some (produced, compressedBytesRead) =>
          match storeEntry goos objType objRefDeltaHash informedSize produced st
              savedObjDeltas with
          | (st, .error e) => (st, .error e)
          | (st, .ok savedObjDeltas) =>
            (st, .ok (reader.discard compressedBytesRead, savedObjDeltas))

/-- The entry loop (main.go:680): the store it leaves, and the saved deltas unless an
iteration failed. -/
def unpackEntries (goos : GOOS) (Z : Zlib) :
    Nat → BufReader → Store → List objDelta → Store × Except Failure (List objDelta)
  | 0, _, st, savedObjDeltas => (st, .ok savedObjDeltas)
  | n + 1, reader, st, savedObjDeltas =>
    match unpackEntry goos Z reader st savedObjDeltas with
    | (st, .error e) => (st, .error e)
    | (st, .ok (reader, savedObjDeltas)) => unpackEntries goos Z n reader st savedObjDeltas

/-- The delta loop (main.go:763): the saved deltas in the order they were saved, up to the
first one that fails. -/
def resolveDeltas (goos : GOOS) : List objDelta → Store → Store × Except Failure Unit
  | [], st => (st, .ok ())
  | d :: ds, st =>
    match resolveDelta goos st d with
    | (st, .error e) => (st, .error e)
    | (st, .ok ()) => resolveDeltas goos ds st

/-- Function `unpackObjects` (main.go:658): the store it leaves and whether it returned. -/
def unpackObjects (goos : GOOS) (Z : Zlib) (packContent : Bytes) (st : Store) :
    Store × Except Failure Unit :=
  let r := BufReader.read { buf := [], rest := packContent } 12
  if r.1 = [] then (st, .error .fatal)
  else
    let packHeader := r.1 ++ List.replicate (12 - r.1.length) 0
    if packHeader.take 4 ≠ ascii "PACK" then (st, .error .fatal)
    else
      let objCount := bigEndianBytesToUint (packHeader.drop 8)
      match unpackEntries goos Z objCount r.2 st [] with
      | (st, .error e) => (st, .error e)
      | (st, .ok savedObjDeltas) => resolveDeltas goos savedObjDeltas st

/-! ## An inflater for stored blocks -/

/-- Adler-32 of `data` (RFC 1950), starting from the sums `a` and `b`. -/
def adler32Loop : Bytes → Nat → Nat → Nat
  | [], a, b => b * 65536 + a
  | x :: xs, a, b => adler32Loop xs ((a + x.toNat) % 65521) ((b + (a + x.toNat) % 65521) % 65521)

def adler32 (data : Bytes) : Nat := adler32Loop data 1 0

/-- A zlib stream holding `data` (fewer than 65536 bytes) as one final stored block. -/
def zlibStored (data : Bytes) : Bytes :=
  [0x78, 0x01, 0x01] ++
    [UInt8.ofNat (data.length % 256), UInt8.ofNat (data.length / 256),
      UInt8.ofNat (255 - data.length % 256), UInt8.ofNat (255 - data.length / 256)] ++
    data ++ beBytes 4 (adler32 data)

/-- What `compress/zlib` does on a stream of one final stored block that lies within the
window with its checksum: it delivers the block, or the first `n` bytes of it, and
has consumed the block, and the checksum as well when the block was delivered whole.
Other streams are outside this inflater and are refused. -/
def storedZlib : Zlib where
  readOnce window n :=
    match window with
    | 0x78 :: 0x01 :: 0x01 :: l₀ :: l₁ :: n₀ :: n₁ :: rest =>
      let len := l₀.toNat + 256 * l₁.toNat
      if n₀.toNat = 255 - l₀.toNat ∧ n₁.toNat = 255 - l₁.toNat ∧ len + 4 ≤ rest.length ∧
          (rest.drop len).take 4 = beBytes 4 (adler32 (rest.take len)) then
        if len ≤ n then some (rest.take len, 7 + len + 4) else some (rest.take n, 7 + len)
      else none
    | _ => none

/-! ## Sample packs -/

/-- The SHA-1 of the blob `abc`, `f2ba8f84ab5c1bce84a7b441cb1959cfc7093b7f`. -/
def hashAbc : Bytes :=
  [0xf2, 0xba, 0x8f, 0x84, 0xab, 0x5c, 0x1b, 0xce, 0x84, 0xa7, 0xb4, 0x41, 0xcb, 0x19, 0x59,
    0xcf, 0xc7, 0x09, 0x3b, 0x7f]

/-- The SHA-1 of the blob `bcXYa`, `059f794954b2ffdb6b3337501e618811143029d1`. -/
def hashBcXYa : Bytes :=
  [0x05, 0x9f, 0x79, 0x49, 0x54, 0xb2, 0xff, 0xdb, 0x6b, 0x33, 0x37, 0x50, 0x1e, 0x61, 0x88,
    0x11, 0x14, 0x30, 0x29, 0xd1]

/-- The SHA-1 of the blob `bcXYa!`, `8a73d21fe1291a13feb1f23723ae9e9610442ebc`. -/
def hashBcXYaBang : Bytes :=
  [0x8a, 0x73, 0xd2, 0x1f, 0xe1, 0x29, 0x1a, 0x13, 0xfe, 0xb1, 0xf2, 0x37, 0x23, 0xae, 0x9e,
    0x96, 0x10, 0x44, 0x2e, 0xbc]

/-- The direct entry of the blob `abc`. -/
def entryAbc : Bytes := 0x33 :: zlibStored (ascii "abc")

/-- The ref-delta entry that makes `bcXYa` from the blob `abc`: copy 2 bytes from offset 1,
insert `XY`, copy 1 byte from offset 0. -/
def entryBcXYa : Bytes :=
  0x7a :: (hashAbc ++ zlibStored [3, 5, 0x91, 1, 2, 2, 0x58, 0x59, 0x90, 1])

/-- The ref-delta entry that makes `bcXYa!` from the blob `bcXYa`: copy 5 bytes from offset
0, insert `!`. -/
def entryBcXYaBang : Bytes :=
  0x76 :: (hashBcXYa ++ zlibStored [5, 6, 0x90, 5, 1, 0x21])

/-- A pack whose ref-delta entry comes before the direct entry of its base. -/
def packDeltaFirst : Bytes :=
  ascii "PACK" ++ [0, 0, 0, 2] ++ [0, 0, 0, 2] ++ (entryBcXYa ++ entryAbc ++
    [0x49, 0xe2, 0xcf, 0x24, 0xae, 0x79, 0xc0, 0xde, 0x1f, 0x60, 0x4e, 0xb6, 0xa5, 0x37, 0x0a,
      0xca, 0xb6, 0x44, 0xe9, 0x69])

/-- A pack with a chain of two deltas, each delta behind its base. -/
def packChainInOrder : Bytes :=
  ascii "PACK" ++ [0, 0, 0, 2] ++ [0, 0, 0, 3] ++ (entryAbc ++ entryBcXYa ++ entryBcXYaBang ++
    [0x91, 0x3c, 0x18, 0x8a, 0x86, 0x4c, 0x7e, 0x71, 0x93, 0xd0, 0x74, 0x4c, 0x11, 0xec, 0x45,
      0x02, 0xfb, 0x85, 0x6d, 0xf8])

/-- The same chain with the second delta before the first. -/
def packChainReversed : Bytes :=
  ascii "PACK" ++ [0, 0, 0, 2] ++ [0, 0, 0, 3] ++ (entryAbc ++ entryBcXYaBang ++ entryBcXYa ++
    [0xe8, 0x95, 0xf2, 0x55, 0xfa, 0x4f, 0x44, 0x50, 0xe2, 0xba, 0xa3, 0x7c, 0x20, 0x61, 0x23,
      0x87, 0x60, 0x0c, 0xc1, 0x21])

/-! ## Sample delta -/

/-- The ref-delta of `entryBcXYa` as the entry loop saves it, without the rest of the
inflate buffer: base `abc`, source size 3, target size 5, copy 2 bytes from offset 1,
insert `XY`, copy 1 byte from offset 0. -/
def deltaBcXYa : objDelta :=
  { source := hashAbc, content := [3, 5, 0x91, 1, 2, 2, 0x58, 0x59, 0x90, 1], spare := [] }

/-- An object directory that holds the blobs `abc` and `bcXYa`. -/
def twoBlobStore : Store :=
  sampleStore.write (objectPath ((hex hashBcXYa).take 2) ((hex hashBcXYa).drop 2))
    (objectHeader (ascii "blob") 5 ++ ascii "bcXYa")

/-! ## The entries before a given one -/

/-- The first `k` iterations of the entry loop (main.go:680): the store they leave and,
when the loop reaches the entry with index `k`, the reader and the saved deltas
there. -/
def unpackPrefix (goos : GOOS) (Z : Zlib) :
    Nat → BufReader → Store → List objDelta → Store × Except Failure (BufReader × List objDelta)
  | 0, reader, st, savedObjDeltas => (st, .ok (reader, savedObjDeltas))
  | k + 1, reader, st, savedObjDeltas =>
    match unpackEntry goos Z reader st savedObjDeltas with
    | (st, .error e) => (st, .error e)
    | (st, .ok (reader, savedObjDeltas)) => unpackPrefix goos Z k reader st savedObjDeltas

/-- A pack of two entries: the blob `abc`, then an entry of type 6 (offset delta). -/
def packWithOfsDelta : Bytes :=
  ascii "PACK" ++ [0, 0, 0, 2] ++ [0, 0, 0, 2] ++ (entryAbc ++ [0x63, 0x0e, 0x78, 0x9c])

/-! ## Sample packs with a truncated instruction -/

/-- The SHA-1 of the blob `XY` followed by three zero bytes,
`8973b89d3114d41d073f3d9943c7f3a162799730`. -/
def hashXYzeros : Bytes :=
  [0x89, 0x73, 0xb8, 0x9d, 0x31, 0x14, 0xd4, 0x1d, 0x07, 0x3f, 0x3d, 0x99, 0x43, 0xc7, 0xf3,
    0xa1, 0x62, 0x79, 0x97, 0x30]

/-- The blob `abc`, then a ref-delta on it whose instruction stream is `03 05 05 58 59`:
source size 3, target size 5, and an Insert of 5 bytes of which the stream holds 2. -/
def packTruncatedInsert : Bytes :=
  ascii "PACK" ++ [0, 0, 0, 2] ++ [0, 0, 0, 2] ++
    (entryAbc ++ 0x75 :: (hashAbc ++ zlibStored [3, 5, 5, 0x58, 0x59]) ++
      [0x0d, 0x7e, 0x64, 0x11, 0x9b, 0x69, 0xac, 0x5d, 0x8e, 0x19, 0xab, 0xe6, 0x5d, 0x7e,
        0x20, 0x36, 0x01, 0xf3, 0x74, 0x5e])

/-- The blob `abc`, then a ref-delta on it whose instruction stream is `03 05 91 01`:
source size 3, target size 5, and a Copy that selects one offset byte and one length
byte, of which the stream holds the first. -/
def packTruncatedCopy : Bytes :=
  ascii "PACK" ++ [0, 0, 0, 2] ++ [0, 0, 0, 2] ++
    (entryAbc ++ 0x74 :: (hashAbc ++ zlibStored [3, 5, 0x91, 1]) ++
      [0xa8, 0x34, 0xcf, 0x63, 0x6b, 0xf6, 0x25, 0x44, 0x75, 0xd6, 0xff, 0xc4, 0xfc, 0xfb,
        0x16, 0x38, 0xb4, 0xa6, 0xe3, 0x31])

/-! ## The advertised HEAD -/

/-- Go `refs[name]` on the refs the frame loop has collected; a later assignment to the
same key has replaced an earlier one. -/
def lookupRef : List (Bytes × Bytes) → Bytes → Option Bytes
  | [], _ => none
  | (ref, hash) :: refs, name => if ref = name then some hash else lookupRef refs name

/-- The reading of the advertisement in `fetchGitPack` (main.go:553-613) for a response
with status 200 and the expected content type: the frame loop over the body, then
the hash advertised for `HEAD`.  The loop is allowed one iteration more than the
body has bytes, which `readAdvertisement_total` shows to be enough. -/
def advertisedHead (body : Bytes) : Option (Except Failure Bytes) :=
  match readAdvertisement (body.length + 1) (List.replicate 4 0) body [] with
  | none => none
  | some (.error e) => some (.error e)
  | some (.ok refs) =>
    match lookupRef refs (ascii "HEAD") with
    | none => some (.error .fatal)
    | some head => some (.ok head)

/-- The payload of a frame after one trailing newline is stripped (main.go:578-581). -/
def stripNewline (dataBuffer : Bytes) : Bytes :=
  if dataBuffer.getLast? = some 0x0A then dataBuffer.dropLast else dataBuffer

/-! ## Sample pack with an entry of an unassigned type -/

/-- An entry of type 0 with the declared size 3 and the compressed stream of `abc`, then
the direct entry of the blob `abc`. -/
def packUnassignedType : Bytes :=
  ascii "PACK" ++ [0, 0, 0, 2] ++ [0, 0, 0, 2] ++
    (0x03 :: zlibStored (ascii "abc") ++ entryAbc ++
      [0x17, 0xaa, 0xb1, 0xdd, 0x61, 0x96, 0xd6, 0xcc, 0xe7, 0xa5, 0xc9, 0xe9, 0x37, 0xa6,
        0x31, 0x2a, 0x77, 0x23, 0x17, 0x88])

/-! # Theorems -/

/-! ## Arithmetic of the size loops -/

theorem highBit_iff (b : UInt8) : b.toNat &&& 0x80 ≠ 0 ↔ 128 ≤ b.toNat := by
  have hb := UInt8.toNat_lt b
  have h : b.toNat &&& 0x80 = (b.toNat.testBit 7).toNat * 2 ^ 7 := Nat.and_two_pow _ 7
  rw [h, Nat.testBit_to_div_mod]
  by_cases h1 : 128 ≤ b.toNat
  · have : b.toNat / 2 ^ 7 % 2 = 1 := by omega
    rw [this]; simp [h1]
  · have : b.toNat / 2 ^ 7 % 2 = 0 := by omega
    rw [this]; simp [h1]

theorem low7_lt (n : Nat) : n &&& 0x7F < 2 ^ 7 :=
  Nat.and_lt_two_pow n (by norm_num)

/-- OR-ing a shifted group into an accumulator whose bits lie below the shift adds
it, also after truncation to 64 bits. -/
theorem or_shift_mod (S x s : Nat) (hS : S < 2 ^ s) :
    (S % 2 ^ 64) ||| ((x <<< s) % 2 ^ 64) = (S + x * 2 ^ s) % 2 ^ 64 := by
  have h1 : S + x * 2 ^ s = 2 ^ s * x ||| S := by
    rw [← Nat.mul_add_lt_is_or hS x]; ring
  rw [h1, Nat.shiftLeft_eq, Nat.mul_comm x]
  apply Nat.eq_of_testBit_eq
  intro i
  simp only [Nat.testBit_or, Nat.testBit_mod_two_pow]
  cases decide (i < 64) <;> simp [Bool.or_comm]

theorem group_bound (S x s : Nat) (hS : S < 2 ^ s) :
    S + (x &&& 0x7F) * 2 ^ s < 2 ^ (s + 7) := by
  have hd := low7_lt x
  have h1 : (x &&& 0x7F) * 2 ^ s ≤ 127 * 2 ^ s := Nat.mul_le_mul_right _ (by omega)
  rw [pow_add]
  omega

theorem groupSum_nil (c k : Nat) : groupSum c k [] = 0 := rfl

theorem groupSum_cons (c k : Nat) (b : UInt8) (bs : Bytes) :
    groupSum c k (b :: bs) = (b.toNat &&& 0x7F) * 2 ^ (c + 7 * k) + groupSum c (k + 1) bs := by
  simp [groupSum, List.enumFrom_cons]

theorem base128_eq (bs : Bytes) : base128 bs = groupSum 0 0 bs := by
  simp [base128, groupSum, List.enum]

theorem entrySize_eq (b0 : UInt8) (bs : Bytes) :
    entrySize b0 bs = (b0.toNat &&& 0x0F) + groupSum 4 0 bs := by
  simp [entrySize, groupSum, List.enum]

/-- The size loop of the delta header, entered on a continuation byte `cur` that is
followed by continuation bytes `mid` and a final byte `last`. -/
theorem deltaSizeLoop_spec (last : UInt8) (tail : Bytes) (hlast : last.toNat < 128)
    (mid : Bytes) : ∀ (cur : UInt8) (S k moved : Nat),
      (∀ b ∈ cur :: mid, 128 ≤ b.toNat) → S < 2 ^ (7 * k) →
      deltaSizeLoop cur (mid ++ last :: tail) (S % 2 ^ 64) (7 * k) moved =
        .ok ((S + groupSum 0 k (mid ++ [last])) % 2 ^ 64, moved + mid.length + 1) := by
  have hl : ¬ (last.toNat &&& 0x80 ≠ 0) := by rw [highBit_iff]; omega
  induction mid with
  | nil =>
    intro cur S k moved hcur hS
    have hc : cur.toNat &&& 0x80 ≠ 0 := (highBit_iff cur).2 (hcur cur (by simp))
    unfold deltaSizeLoop
    rw [if_pos hc]
    simp only [List.nil_append]
    unfold deltaSizeLoop
    rw [if_neg hl, or_shift_mod S _ _ hS]
    simp [groupSum_cons, groupSum_nil]
  | cons c mid ih =>
    intro cur S k moved hcur hS
    have hc : cur.toNat &&& 0x80 ≠ 0 := (highBit_iff cur).2 (hcur cur (by simp))
    unfold deltaSizeLoop
    rw [if_pos hc]
    simp only [List.cons_append]
    have hS' : S + (c.toNat &&& 0x7F) * 2 ^ (7 * k) < 2 ^ (7 * (k + 1)) := by
      have := group_bound S c.toNat (7 * k) hS
      rwa [show 7 * k + 7 = 7 * (k + 1) by ring] at this
    have h := ih c (S + (c.toNat &&& 0x7F) * 2 ^ (7 * k)) (k + 1) (moved + 1)
      (fun b hb => hcur b (by simp at hb ⊢; tauto)) hS'
    rw [or_shift_mod S _ _ hS]
    have e : 7 * k + 7 = 7 * (k + 1) := by ring
    rw [e, h, groupSum_cons]
    simp only [List.length_cons, Nat.zero_add]
    congr 2 <;> omega

/-- The size loop of an entry header, entered on a continuation byte `value` that is
followed by continuation bytes `mid` and a final byte `last`. -/
theorem entrySizeLoop_spec (last : UInt8) (tail : Bytes) (hlast : last.toNat < 128)
    (mid : Bytes) : ∀ (value : UInt8) (S k n : Nat),
      128 ≤ value.toNat → (∀ b ∈ mid, 128 ≤ b.toNat) → S < 2 ^ (4 + 7 * k) →
      entrySizeLoop value (mid ++ last :: tail) (S % 2 ^ 64) (4 + 7 * k) n =
        .ok ((S + groupSum 4 k (mid ++ [last])) % 2 ^ 64, n + mid.length + 1, tail) := by
  have hl : last.toNat &&& 0x80 = 0 := by
    have := (highBit_iff last).not
    simp only [ne_eq, not_not, not_le] at this
    exact this.2 hlast
  induction mid with
  | nil =>
    intro value S k n hv _ hS
    have hc : value.toNat &&& 0x80 ≠ 0 := (highBit_iff value).2 hv
    unfold entrySizeLoop
    rw [if_pos hc]
    simp only [List.nil_append]
    rw [if_pos hl, or_shift_mod S _ _ hS]
    simp [groupSum_cons, groupSum_nil]
  | cons c mid ih =>
    intro value S k n hv hmid hS
    have hc : value.toNat &&& 0x80 ≠ 0 := (highBit_iff value).2 hv
    have hc' : ¬ (c.toNat &&& 0x80 = 0) := (highBit_iff c).2 (hmid c (by simp))
    unfold entrySizeLoop
    rw [if_pos hc]
    simp only [List.cons_append]
    rw [if_neg hc']
    have hS' : S + (c.toNat &&& 0x7F) * 2 ^ (4 + 7 * k) < 2 ^ (4 + 7 * (k + 1)) := by
      have := group_bound S c.toNat (4 + 7 * k) hS
      rwa [show 4 + 7 * k + 7 = 4 + 7 * (k + 1) by ring] at this
    have h := ih c (S + (c.toNat &&& 0x7F) * 2 ^ (4 + 7 * k)) (k + 1) (n + 1)
      (hmid c (by simp)) (fun b hb => hmid b (by simp [hb])) hS'
    rw [or_shift_mod S _ _ hS]
    have e : 4 + 7 * k + 7 = 4 + 7 * (k + 1) := by ring
    rw [e, h, groupSum_cons]
    simp only [List.length_cons]
    congr 2
    · omega
    · congr 1; omega

theorem readDeltaSize_spec (pre mid : Bytes) (last : UInt8) (tail : Bytes)
    (hmid : ∀ b ∈ mid, 128 ≤ b.toNat) (hlast : last.toNat < 128) :
    readDeltaSize (pre ++ (mid ++ last :: tail)) pre.length =
      .ok (base128 (mid ++ [last]) % 2 ^ 64, pre.length + (mid.length + 1)) := by
  unfold readDeltaSize
  rw [List.drop_left]
  cases mid with
  | nil =>
    have hl : ¬ (last.toNat &&& 0x80 ≠ 0) := by rw [highBit_iff]; omega
    simp only [List.nil_append]
    unfold deltaSizeLoop
    rw [if_neg hl]
    have h7 := low7_lt last.toNat
    simp [base128_eq, groupSum_cons, groupSum_nil]
    omega
  | cons c mid =>
    simp only [List.cons_append]
    have h := deltaSizeLoop_spec last tail hlast mid c (c.toNat &&& 0x7F) 1 0 hmid
      (low7_lt c.toNat)
    rw [Nat.mod_eq_of_lt (lt_trans (low7_lt c.toNat) (by norm_num))] at h
    simp only [Nat.mul_one] at h
    rw [h]
    simp only [base128_eq, groupSum_cons, List.cons_append, List.length_cons]
    congr 2
    · simp
    · omega

/-- Claim C9. The delta header holds two little-endian base-128 integers: for source-size
bytes `mid₁ ++ [last₁]` and target-size bytes `mid₂ ++ [last₂]` (continuation bit set
on all but the last byte of each) both values are the sums of `(bᵢ & 0x7F) * 2^(7i)`
modulo `2^64`, the target size starts right after the source size, and the first
opcode is at the byte right after the target size. -/
theorem C9_delta_header_sizes (mid₁ : Bytes) (last₁ : UInt8) (mid₂ : Bytes) (last₂ : UInt8)
    (tail : Bytes)
    (h₁ : ∀ b ∈ mid₁, 128 ≤ b.toNat) (hl₁ : last₁.toNat < 128)
    (h₂ : ∀ b ∈ mid₂, 128 ≤ b.toNat) (hl₂ : last₂.toNat < 128) :
    readDeltaSize (mid₁ ++ last₁ :: (mid₂ ++ last₂ :: tail)) 0 =
        .ok (base128 (mid₁ ++ [last₁]) % 2 ^ 64, mid₁.length + 1) ∧
      readDeltaSize (mid₁ ++ last₁ :: (mid₂ ++ last₂ :: tail)) (mid₁.length + 1) =
        .ok (base128 (mid₂ ++ [last₂]) % 2 ^ 64, mid₁.length + 1 + (mid₂.length + 1)) ∧
      readDeltaHeader (mid₁ ++ last₁ :: (mid₂ ++ last₂ :: tail)) =
        .ok (base128 (mid₁ ++ [last₁]) % 2 ^ 64, base128 (mid₂ ++ [last₂]) % 2 ^ 64,
          mid₁.length + 1 + (mid₂.length + 1)) := by
  have e1 := readDeltaSize_spec [] mid₁ last₁ (mid₂ ++ last₂ :: tail) h₁ hl₁
  have e2 := readDeltaSize_spec (mid₁ ++ [last₁]) mid₂ last₂ tail h₂ hl₂
  simp only [List.nil_append, List.length_nil, Nat.zero_add, List.append_assoc,
    List.singleton_append, List.length_append, List.length_singleton] at e1 e2
  refine ⟨e1, e2, ?_⟩
  unfold readDeltaHeader
  rw [e1]
  simp only
  rw [e2]

/-- The header `95 0A | FF 80 01` followed by a copy opcode: source size
`0x15 + 0x0A * 128 = 1301`, target size `0x7F + 0 * 128 + 1 * 16384 = 16511`, first
opcode at index 5. -/
theorem C9_delta_header_sizes_witness :
    readDeltaHeader [0x95, 0x0A, 0xFF, 0x80, 0x01, 0x90, 0x01] = .ok (1301, 16511, 5) :=
  (C9_delta_header_sizes [0x95] 0x0A [0xFF, 0x80] 0x01 [0x90, 0x01]
    (by decide) (by decide) (by decide) (by decide)).2.2.trans (by rfl)

/-- Claim C4. Pack entry header decoding.  For a header `b0..bn` whose bytes all have the
most significant bit set except the last (a single byte `b0` with the bit clear, or
`b0`, continuation bytes `mid` and a final byte `last`), followed by anything, the
type is `(b0 >> 4) & 7`, the size is `(b0 & 0x0F) + Σ (bi & 0x7F) * 2^(4 + 7(i-1))`
modulo `2^64`, exactly `n + 1` bytes are read, and the reader is left at the byte
right after the header. -/
theorem C4_entry_header (b0 : UInt8) (tail : Bytes) :
    (b0.toNat < 128 →
      readEntryHeader (b0 :: tail) =
        .ok ((b0.toNat >>> 4) &&& 7, entrySize b0 [] % 2 ^ 64, 1, tail)) ∧
    (∀ (mid : Bytes) (last : UInt8), 128 ≤ b0.toNat → (∀ b ∈ mid, 128 ≤ b.toNat) →
      last.toNat < 128 →
      readEntryHeader (b0 :: (mid ++ last :: tail)) =
        .ok ((b0.toNat >>> 4) &&& 7, entrySize b0 (mid ++ [last]) % 2 ^ 64,
          (mid ++ [last]).length + 1, tail)) := by
  have h4 : b0.toNat &&& 0x0F < 2 ^ 4 := Nat.and_lt_two_pow _ (by norm_num)
  constructor
  · intro h0
    have hc : ¬ (b0.toNat &&& 0x80 ≠ 0) := by rw [highBit_iff]; omega
    unfold readEntryHeader
    simp only
    unfold entrySizeLoop
    rw [if_neg hc]
    simp only [entrySize_eq, groupSum_nil, Nat.add_zero]
    rw [Nat.mod_eq_of_lt (lt_trans h4 (by norm_num))]
  · intro mid last h0 hmid hlast
    have h := entrySizeLoop_spec last tail hlast mid b0 (b0.toNat &&& 0x0F) 0 1 h0 hmid h4
    rw [Nat.mod_eq_of_lt (lt_trans h4 (by norm_num))] at h
    unfold readEntryHeader
    simp only [Nat.mul_zero, Nat.add_zero] at h ⊢
    rw [h]
    simp only [entrySize_eq, List.length_append, List.length_singleton]
    congr 4
    omega

/-- The header `95 0A` (a commit of declared size `5 + 10 * 16 = 165`) and the
three-byte header `BF FF 01` (a blob of size `15 + 127 * 16 + 1 * 2048 = 4095`). -/
theorem C4_entry_header_witness :
    readEntryHeader [0x15, 0x78, 0x9C] = .ok (1, 5, 1, [0x78, 0x9C]) ∧
    readEntryHeader [0xBF, 0xFF, 0x01, 0x78, 0x9C] = .ok (3, 4095, 3, [0x78, 0x9C]) :=
  ⟨((C4_entry_header 0x15 [0x78, 0x9C]).1 (by decide)).trans (by rfl),
   ((C4_entry_header 0xBF [0x78, 0x9C]).2 [0xFF] 0x01 (by decide) (by decide)
      (by decide)).trans (by rfl)⟩

/-! ## Copy opcodes -/

theorem selByte_eq (content : Bytes) (bitmap bit shift v j : Nat)
    (h : bitmap &&& bit ≠ 0 → j < content.length) :
    selByte content bitmap bit shift (v, j) =
      .ok (v ||| ((if bitmap &&& bit ≠ 0 then (content.getD j 0).toNat else 0) <<< shift),
        j + (if bitmap &&& bit ≠ 0 then 1 else 0)) := by
  unfold selByte
  by_cases hs : bitmap &&& bit ≠ 0
  · have hj := h hs
    rw [if_pos hs, if_pos hs, if_pos hs]
    simp only [List.getElem?_eq_getElem hj, List.getD_eq_getElem _ _ hj]
  · rw [if_neg hs, if_neg hs, if_neg hs]
    simp

set_option maxRecDepth 100000 in
theorem opcode_bits : ∀ v, v < 256 →
    ((v >>> 7 = 1) ↔ 128 ≤ v) ∧
    (((v &&& 0b00001111) &&& 0b0001 ≠ 0) ↔ v.testBit 0 = true) ∧
    (((v &&& 0b00001111) &&& 0b0010 ≠ 0) ↔ v.testBit 1 = true) ∧
    (((v &&& 0b00001111) &&& 0b0100 ≠ 0) ↔ v.testBit 2 = true) ∧
    (((v &&& 0b00001111) &&& 0b1000 ≠ 0) ↔ v.testBit 3 = true) ∧
    ((((v >>> 4) &&& 0b0000111) &&& 0b0001 ≠ 0) ↔ v.testBit 4 = true) ∧
    ((((v >>> 4) &&& 0b0000111) &&& 0b0010 ≠ 0) ↔ v.testBit 5 = true) ∧
    ((((v >>> 4) &&& 0b0000111) &&& 0b0100 ≠ 0) ↔ v.testBit 6 = true) := by
  decide

theorem or_shift (a y s : Nat) (ha : a < 2 ^ s) : a ||| (y <<< s) = a + y * 2 ^ s := by
  rw [Nat.shiftLeft_eq, Nat.mul_comm y, Nat.or_comm, ← Nat.mul_add_lt_is_or ha y]
  ring


/-- Four bytes OR-ed in at shifts 0, 8, 16 and 24 are combined least-significant byte
first. -/
theorem or_bytes4 (y0 y1 y2 y3 : Nat) (h0 : y0 < 256) (h1 : y1 < 256) (h2 : y2 < 256) :
    (((0 ||| (y0 <<< 0)) ||| (y1 <<< 8)) ||| (y2 <<< 16)) ||| (y3 <<< 24) =
      y0 + y1 * 256 + y2 * 256 ^ 2 + y3 * 256 ^ 3 := by
  have e0 : (0 ||| (y0 <<< 0)) = y0 := by simp
  rw [e0, or_shift y0 y1 8 (by omega), or_shift _ y2 16 (by omega),
    or_shift _ y3 24 (by omega)]
  norm_num

theorem or_bytes3 (y0 y1 y2 : Nat) (h0 : y0 < 256) (h1 : y1 < 256) :
    ((0 ||| (y0 <<< 0)) ||| (y1 <<< 8)) ||| (y2 <<< 16) =
      y0 + y1 * 256 + y2 * 256 ^ 2 := by
  have e0 : (0 ||| (y0 <<< 0)) = y0 := by simp
  rw [e0, or_shift y0 y1 8 (by omega), or_shift _ y2 16 (by omega)]
  norm_num

theorem ite_byte_lt (c : Prop) [Decidable c] (b : UInt8) :
    (if c then b.toNat else 0) < 256 := by
  have := UInt8.toNat_lt b
  split <;> omega

/-- Claim C5 (amended). Copy opcode layout.  For a Copy opcode (high bit set) at index `i`
whose selected argument bytes are all in the stream: bits 0-3 select which of up to
four offset bytes follow and bits 4-6 which of up to three length bytes follow; an
unselected byte contributes zero; the selected bytes are combined least-significant
byte first; and the opcode consumes 1 plus the number of selected bytes. -/
theorem C5_copy_layout (content spare : Bytes) (i : Nat) (opcode : UInt8)
    (hget : content[i]? = some opcode) (hop : 128 ≤ opcode.toNat)
    (hlen : i + 1 + argsBefore opcode.toNat 7 ≤ content.length) :
    decodeInstr content spare i =
      .ok (.copy (copyField content i opcode.toNat 0 4) (copyField content i opcode.toNat 4 3),
        i + 1 + argsBefore opcode.toNat 7) := by
  obtain ⟨h7, b0, b1, b2, b3, b4, b5, b6⟩ := opcode_bits opcode.toNat (UInt8.toNat_lt opcode)
  have h7' : opcode.toNat >>> 7 = 1 := h7.2 hop
  have hs : ∀ k, opcode.toNat.testBit k = true →
      (if opcode.toNat.testBit k = true then 1 else 0) = 1 := by
    intro k h; simp [h]
  simp only [argsBefore, copyField, Nat.zero_add, Nat.add_zero] at hlen ⊢
  unfold decodeInstr
  rw [hget]
  simp only [h7', ↓reduceIte]
  rw [selByte_eq _ _ _ _ _ _ (by intro h; have := hs 0 (b0.1 h); omega)]
  simp only [b0]
  rw [selByte_eq _ _ _ _ _ _ (by intro h; have := hs 1 (b1.1 h); omega)]
  simp only [b1]
  rw [selByte_eq _ _ _ _ _ _ (by intro h; have := hs 2 (b2.1 h); omega)]
  simp only [b2]
  rw [selByte_eq _ _ _ _ _ _ (by intro h; have := hs 3 (b3.1 h); omega)]
  simp only [b3]
  rw [selByte_eq _ _ _ _ _ _ (by intro h; have := hs 4 (b4.1 h); omega)]
  simp only [b4]
  rw [selByte_eq _ _ _ _ _ _ (by intro h; have := hs 5 (b5.1 h); omega)]
  simp only [b5]
  rw [selByte_eq _ _ _ _ _ _ (by intro h; have := hs 6 (b6.1 h); omega)]
  simp only [b6]
  rw [or_bytes4 _ _ _ _ (ite_byte_lt _ _) (ite_byte_lt _ _) (ite_byte_lt _ _),
    or_bytes3 _ _ _ (ite_byte_lt _ _) (ite_byte_lt _ _)]
  simp only [ite_mul, Nat.zero_mul, pow_zero, pow_one, Nat.mul_one, Nat.add_assoc]

/-- The opcode `0xDA` (bits 1, 3, 4, 6) followed by `11 22 33 44`: offset
`0x11 * 2^8 + 0x22 * 2^24`, length `0x33 + 0x44 * 2^16`, five bytes consumed. -/
theorem C5_copy_layout_witness :
    decodeInstr [0xDA, 0x11, 0x22, 0x33, 0x44, 0x01] [] 0 =
      .ok (.copy (0x11 * 2 ^ 8 + 0x22 * 2 ^ 24) (0x33 + 0x44 * 2 ^ 16), 5) :=
  (C5_copy_layout [0xDA, 0x11, 0x22, 0x33, 0x44, 0x01] [] 0 0xDA (by rfl) (by decide)
    (by decide)).trans (by rfl)

/-- Claim C5 (counterexample). On `88 01` the code takes bit 3 as the fourth offset byte
(`offset = 1 << 24`, `length = 0`) where the claimed layout reads a length byte; on
`C0 01` the code takes bit 6 as the third length byte and consumes two bytes where
the claimed layout selects nothing and consumes one. -/
theorem C5_counterexample :
    decodeInstr [0x88, 0x01] [] 0 = .ok (.copy 16777216 0, 2) ∧
    claimedCopy [0x88, 0x01] 0 = .ok (.copy 0 1, 2) ∧
    decodeInstr [0xC0, 0x01] [] 0 = .ok (.copy 0 65536, 2) ∧
    claimedCopy [0xC0, 0x01] 0 = .ok (.copy 0 0, 1) := by
  decide

/-! ## The instruction loop -/

theorem selByte_ok (content : Bytes) (bitmap bit shift : Nat) (s s' : Nat × Nat)
    (h : selByte content bitmap bit shift s = .ok s') :
    s.2 ≤ s'.2 ∧ (s.1 < 2 ^ shift → s'.1 < 2 ^ (shift + 8)) := by
  unfold selByte at h
  split at h
  · split at h
    · cases h
    · rename_i b hb
      cases h
      refine ⟨Nat.le_succ _, fun hs => ?_⟩
      have hb := UInt8.toNat_lt b
      rw [or_shift _ _ _ hs, pow_add]
      have : b.toNat * 2 ^ shift ≤ 255 * 2 ^ shift := Nat.mul_le_mul_right _ (by omega)
      omega
  · cases h
    refine ⟨le_refl _, fun hs => lt_of_lt_of_le hs (Nat.pow_le_pow_right (by norm_num) (by omega))⟩

theorem decodeInstr_ok (content spare : Bytes) (i : Nat) (ins : Instr) (i' : Nat)
    (h : decodeInstr content spare i = .ok (ins, i')) : i < i' ∧ ins.bounded := by
  unfold decodeInstr at h
  split at h
  · cases h
  · rename_i opcode hget
    split at h
    · dsimp only at h
      split at h
      · cases h
      rename_i s1 h1
      split at h
      · cases h
      rename_i s2 h2
      split at h
      · cases h
      rename_i s3 h3
      split at h
      · cases h
      rename_i s4 h4
      split at h
      · cases h
      rename_i t1 g1
      split at h
      · cases h
      rename_i t2 g2
      split at h
      · cases h
      rename_i t3 g3
      cases h
      have a1 := selByte_ok _ _ _ _ _ _ h1
      have a2 := selByte_ok _ _ _ _ _ _ h2
      have a3 := selByte_ok _ _ _ _ _ _ h3
      have a4 := selByte_ok _ _ _ _ _ _ h4
      have c1 := selByte_ok _ _ _ _ _ _ g1
      have c2 := selByte_ok _ _ _ _ _ _ g2
      have c3 := selByte_ok _ _ _ _ _ _ g3
      simp only at a1 c1
      refine ⟨by omega, ?_, ?_⟩
      · exact a4.2 (a3.2 (a2.2 (a1.2 (by norm_num))))
      · exact c3.2 (c2.2 (c1.2 (by norm_num)))
    · rename_i hop
      split at h
      · rename_i hle
        cases h
        refine ⟨by omega, ?_⟩
        have hb := UInt8.toNat_lt opcode
        have h7 := (opcode_bits opcode.toNat hb).1
        have : opcode.toNat < 128 := by
          by_contra hc
          exact hop (h7.2 (by omega))
        unfold Instr.bounded
        simp only [List.length_take, List.length_drop, List.length_append]
        omega
      · cases h
theorem goCopy_same_length (dst src : Bytes) (h : dst.length = src.length) :
    goCopy dst src = src := by
  unfold goCopy
  rw [h, List.take_length, List.drop_eq_nil_of_le (by omega), List.append_nil]

/-- One instruction executes exactly when its target range fits the target buffer
without wrapping and, for a copy, its source range fits the base without wrapping;
it then writes its output at the cursor and advances the cursor by its length. -/
theorem execInstr_eq (base : Bytes) (ins : Instr) (ti : Nat) (tb : Bytes)
    (hb : ins.bounded) (hti : ti < 2 ^ 32) :
    execInstr base ins ti tb =
      if ti + ins.length ≤ tb.length ∧ ti + ins.length < 2 ^ 32 ∧ ins.inBase base ∧ ins.below32
      then .ok (ti + ins.length, tb.take ti ++ ins.output base ++ tb.drop (ti + ins.length))
      else .error .panic := by
  have hlen : ins.length < 2 ^ 32 := by
    cases ins with
    | copy o l => exact lt_trans hb.2 (by norm_num)
    | insert data => exact lt_trans hb (by norm_num)
  unfold execInstr
  by_cases hw : ti + ins.length < 2 ^ 32
  · rw [Nat.mod_eq_of_lt hw]
    by_cases ht : ti + ins.length ≤ tb.length
    · have hdst : ((tb.drop ti).take (ti + ins.length - ti)).length = ins.length := by
        simp only [List.length_take, List.length_drop]; omega
      rw [if_pos ⟨Nat.le_add_right _ _, ht⟩]
      cases ins with
      | copy o l =>
        simp only [Instr.length] at hw ht hdst hlen ⊢
        simp only [Instr.inBase, Instr.below32, Instr.output]
        by_cases hs : o + l < 2 ^ 32
        · rw [Nat.mod_eq_of_lt hs]
          by_cases hi : o + l ≤ base.length
          · have hsrc : ((base.drop o).take (o + l - o)).length = l := by
              simp only [List.length_take, List.length_drop]; omega
            rw [goCopy_same_length _ _ (hdst.trans hsrc.symm),
              if_pos ⟨Nat.le_add_right _ _, hi⟩, if_pos ⟨ht, hw, hi, hs⟩]
            simp
          · rw [if_neg (fun h => hi h.2), if_neg (fun h => hi h.2.2.1)]
        · have : ¬ (o ≤ (o + l) % 2 ^ 32) := by omega
          rw [if_neg (fun h => this h.1), if_neg (fun h => hs h.2.2.2)]
      | insert data =>
        simp only [Instr.length] at hw ht hdst hlen ⊢
        simp only [Instr.inBase, Instr.below32, Instr.output]
        rw [goCopy_same_length _ _ hdst, if_pos ⟨ht, hw, trivial, trivial⟩]
    · rw [if_neg (fun h => ht h.2), if_neg (fun h => ht h.1)]
  · have : ¬ (ti ≤ (ti + ins.length) % 2 ^ 32) := by omega
    rw [if_neg (fun h => this h.1), if_neg (fun h => hw h.2.1)]

theorem Instr.output_length (base : Bytes) (ins : Instr) (h : ins.inBase base) :
    (ins.output base).length = ins.length := by
  cases ins with
  | copy o l =>
    simp only [Instr.inBase] at h
    simp only [Instr.output, Instr.length, List.length_take, List.length_drop]
    omega
  | insert data => rfl

theorem patch_length (tb out : Bytes) (ti : Nat) (h : ti + out.length ≤ tb.length) :
    (tb.take ti ++ out ++ tb.drop (ti + out.length)).length = tb.length := by
  simp only [List.length_append, List.length_take, List.length_drop]
  omega

theorem patch_take (tb out : Bytes) (ti : Nat) (h : ti + out.length ≤ tb.length) :
    (tb.take ti ++ out ++ tb.drop (ti + out.length)).take (ti + out.length) =
      tb.take ti ++ out := by
  have h1 : (tb.take ti ++ out).length = ti + out.length := by
    simp only [List.length_append, List.length_take]; omega
  rw [← h1, List.take_left]

theorem patch_drop (tb out : Bytes) (ti r : Nat) (h : ti + out.length ≤ tb.length) :
    (tb.take ti ++ out ++ tb.drop (ti + out.length)).drop (ti + out.length + r) =
      tb.drop (ti + out.length + r) := by
  have h1 : (tb.take ti ++ out).length = ti + out.length := by
    simp only [List.length_append, List.length_take]; omega
  rw [← h1, List.drop_append, h1, List.drop_drop]

theorem totalLength_nil : totalLength [] = 0 := rfl

theorem totalLength_cons (ins : Instr) (rest : List Instr) :
    totalLength (ins :: rest) = ins.length + totalLength rest := by
  simp [totalLength]

theorem replayOutput_nil (base : Bytes) : replayOutput base [] = [] := rfl

theorem replayOutput_cons (base : Bytes) (ins : Instr) (rest : List Instr) :
    replayOutput base (ins :: rest) = ins.output base ++ replayOutput base rest := by
  simp [replayOutput]

/-- The instruction loop on a stream whose instructions all fit: it produces the
outputs of the decoded instructions, one after the other from the cursor on, and
leaves the rest of the target buffer as it was. -/
theorem replaySteps_of_decodeSteps (content spare base : Bytes) :
    ∀ (n i : Nat) (instrs : List Instr) (j ti : Nat) (tb : Bytes) (m : Nat),
      decodeSteps content spare n i = .ok (instrs, j) → content.length ≤ j →
      (∀ ins ∈ instrs, ins.inBase base ∧ ins.below32) →
      ti + totalLength instrs ≤ tb.length → ti + totalLength instrs < 2 ^ 32 → n ≤ m →
      replaySteps content spare base m (i, ti, tb) =
        .ok (j, ti + totalLength instrs,
          tb.take ti ++ replayOutput base instrs ++ tb.drop (ti + totalLength instrs)) := by
  intro n
  induction n with
  | zero =>
    intro i instrs j ti tb m hd hj _ _ _ _
    simp only [decodeSteps, Except.ok.injEq, Prod.mk.injEq] at hd
    obtain ⟨rfl, rfl⟩ := hd
    have e : tb.take ti ++ replayOutput base [] ++ tb.drop (ti + totalLength []) = tb := by
      simp [replayOutput_nil, totalLength_nil]
    rw [e, totalLength_nil, Nat.add_zero]
    cases m with
    | zero => rfl
    | succ m => simp only [replaySteps, if_neg (not_lt.2 hj)]
  | succ n ih =>
    intro i instrs j ti tb m hd hj hin ht hw hm
    unfold decodeSteps at hd
    by_cases hi : i < content.length
    · rw [if_pos hi] at hd
      cases hdi : decodeInstr content spare i with
      | error e => rw [hdi] at hd; cases hd
      | ok p =>
        obtain ⟨ins, i1⟩ := p
        rw [hdi] at hd
        simp only at hd
        cases hds : decodeSteps content spare n i1 with
        | error e => rw [hds] at hd; cases hd
        | ok q =>
          obtain ⟨rest, j'⟩ := q
          rw [hds] at hd
          simp only [Except.ok.injEq, Prod.mk.injEq] at hd
          obtain ⟨rfl, rfl⟩ := hd
          obtain ⟨m, rfl⟩ : ∃ m', m = m' + 1 := ⟨m - 1, by omega⟩
          have hins := hin ins (by simp)
          rw [totalLength_cons] at ht hw
          have hol := Instr.output_length base ins hins.1
          have hbd := (decodeInstr_ok _ _ _ _ _ hdi).2
          simp only [replaySteps, if_pos hi, hdi]
          rw [execInstr_eq base ins ti tb hbd (by omega),
            if_pos ⟨by omega, by omega, hins.1, hins.2⟩]
          simp only
          rw [ih i1 rest j' (ti + ins.length) _ m hds hj
            (fun x hx => hin x (by simp [hx]))
            (by rw [← hol, patch_length _ _ _ (by omega)]; omega) (by omega) (by omega)]
          rw [← hol, patch_take _ _ _ (by omega), patch_drop _ _ _ _ (by omega),
            totalLength_cons, replayOutput_cons, hol]
          simp only [List.append_assoc, Nat.add_assoc]
    · rw [if_neg hi] at hd
      simp only [Except.ok.injEq, Prod.mk.injEq] at hd
      obtain ⟨rfl, rfl⟩ := hd
      have e : tb.take ti ++ replayOutput base [] ++ tb.drop (ti + totalLength []) = tb := by
        simp [replayOutput_nil, totalLength_nil]
      rw [e, totalLength_nil, Nat.add_zero]
      cases m with
      | zero => rfl
      | succ m => simp only [replaySteps, if_neg hi]

/-- After `len(content)` iterations the instruction loop is exhausted: every iteration moves the
index forward. -/
theorem replaySteps_complete (content spare base : Bytes) :
    ∀ (m i ti : Nat) (tb : Bytes) (i' ti' : Nat) (tb' : Bytes),
      replaySteps content spare base m (i, ti, tb) = .ok (i', ti', tb') →
      i + m ≤ i' ∨ content.length ≤ i' := by
  intro m
  induction m with
  | zero =>
    intro i ti tb i' ti' tb' h
    simp only [replaySteps, Except.ok.injEq, Prod.mk.injEq] at h
    exact Or.inl (by omega)
  | succ m ih =>
    intro i ti tb i' ti' tb' h
    unfold replaySteps at h
    by_cases hi : i < content.length
    · rw [if_pos hi] at h
      cases hdi : decodeInstr content spare i with
      | error e => rw [hdi] at h; cases h
      | ok p =>
        obtain ⟨ins, i1⟩ := p
        rw [hdi] at h
        simp only at h
        cases hex : execInstr base ins ti tb with
        | error e => rw [hex] at h; cases h
        | ok q =>
          obtain ⟨ti1, tb1⟩ := q
          rw [hex] at h
          have h1 := (decodeInstr_ok _ _ _ _ _ hdi).1
          rcases ih i1 ti1 tb1 i' ti' tb' h with h2 | h2
          · exact Or.inl (by omega)
          · exact Or.inr h2
    · rw [if_neg hi] at h
      simp only [Except.ok.injEq, Prod.mk.injEq] at h
      exact Or.inr (by omega)

/-- A run of the instruction loop that succeeds has kept every decoded instruction
inside the target buffer and inside the base, without any `uint32` sum wrapping. -/
theorem replaySteps_bound (content spare base : Bytes) :
    ∀ (n i : Nat) (instrs : List Instr) (j ti : Nat) (tb : Bytes) (m i' ti' : Nat)
      (tb' : Bytes),
      decodeSteps content spare n i = .ok (instrs, j) →
      replaySteps content spare base m (i, ti, tb) = .ok (i', ti', tb') →
      (n ≤ m ∨ content.length ≤ i') → ti < 2 ^ 32 → ti ≤ tb.length →
      ti + totalLength instrs ≤ tb.length ∧ ti + totalLength instrs < 2 ^ 32 ∧
        ∀ ins ∈ instrs, ins.inBase base ∧ ins.below32 := by
  intro n
  induction n with
  | zero =>
    intro i instrs j ti tb m i' ti' tb' hd _ _ hti ht
    simp only [decodeSteps, Except.ok.injEq, Prod.mk.injEq] at hd
    rw [← hd.1, totalLength_nil]
    exact ⟨ht, hti, fun ins h => by cases h⟩
  | succ n ih =>
    intro i instrs j ti tb m i' ti' tb' hd hr hm hti ht
    unfold decodeSteps at hd
    by_cases hi : i < content.length
    · rw [if_pos hi] at hd
      cases hdi : decodeInstr content spare i with
      | error e => rw [hdi] at hd; cases hd
      | ok p =>
        obtain ⟨ins, i1⟩ := p
        rw [hdi] at hd
        simp only at hd
        cases hds : decodeSteps content spare n i1 with
        | error e => rw [hds] at hd; cases hd
        | ok q =>
          obtain ⟨rest, j'⟩ := q
          rw [hds] at hd
          simp only [Except.ok.injEq, Prod.mk.injEq] at hd
          obtain ⟨rfl, rfl⟩ := hd
          cases m with
          | zero =>
            simp only [replaySteps, Except.ok.injEq, Prod.mk.injEq] at hr
            omega
          | succ m =>
            have hbd := (decodeInstr_ok _ _ _ _ _ hdi).2
            simp only [replaySteps, if_pos hi, hdi] at hr
            rw [execInstr_eq base ins ti tb hbd hti] at hr
            by_cases hc : ti + ins.length ≤ tb.length ∧ ti + ins.length < 2 ^ 32 ∧
                ins.inBase base ∧ ins.below32
            · rw [if_pos hc] at hr
              simp only at hr
              have hol := Instr.output_length base ins hc.2.2.1
              have hl : (tb.take ti ++ ins.output base ++ tb.drop (ti + ins.length)).length =
                  tb.length := by
                rw [← hol, patch_length _ _ _ (by omega)]
              have := ih i1 rest j' (ti + ins.length) _ m i' ti' tb' hds hr
                (by omega) hc.2.1 (by rw [hl]; exact hc.1)
              rw [hl] at this
              rw [totalLength_cons]
              refine ⟨by omega, by omega, fun x hx => ?_⟩
              rcases List.mem_cons.1 hx with rfl | hx
              · exact hc.2.2
              · exact this.2.2 x hx
            · rw [if_neg hc] at hr
              cases hr
    · rw [if_neg hi] at hd
      simp only [Except.ok.injEq, Prod.mk.injEq] at hd
      rw [← hd.1, totalLength_nil]
      exact ⟨ht, hti, fun ins h => by cases h⟩

theorem makeslice_ok (n : Nat) (buf : Bytes) (h : makeslice n = .ok buf) :
    buf = List.replicate n 0 ∧ n ≤ maxAlloc := by
  unfold makeslice at h
  split at h
  · cases h; exact ⟨rfl, by assumption⟩
  · cases h

/-- Claim C7. Over-production is rejected.  If, from the first opcode on, the loop
decodes instructions (any number `n` of iterations) whose lengths add up to more
than the declared target size, the resolution of the delta fails and the store is
left as it was. -/
theorem C7_overproduction_rejected (goos : GOOS) (st : Store) (d : objDelta)
    (sourceSize targetSize i₀ n : Nat) (instrs : List Instr) (j : Nat)
    (hhdr : readDeltaHeader d.content = .ok (sourceSize, targetSize, i₀))
    (hdec : decodeSteps d.content d.spare n i₀ = .ok (instrs, j))
    (hover : targetSize < totalLength instrs) :
    ∃ e, resolveDelta goos st d = (st, .error e) := by
  unfold resolveDelta
  cases hdt : deltaTarget st d with
  | error e => exact ⟨e, rfl⟩
  | ok r =>
    exfalso
    obtain ⟨ty, tsz, buf⟩ := r
    unfold deltaTarget at hdt
    rw [hhdr] at hdt
    simp only at hdt
    cases hms : makeslice targetSize with
    | error e => rw [hms] at hdt; cases hdt
    | ok tb =>
      rw [hms] at hdt
      simp only at hdt
      cases hro : readObject st d.source with
      | error e => rw [hro] at hdt; cases hdt
      | ok o =>
        obtain ⟨sty, rsz, sb⟩ := o
        rw [hro] at hdt
        simp only at hdt
        split at hdt
        · cases hdt
        · cases hrs : replaySteps d.content d.spare sb d.content.length (i₀, 0, tb) with
          | error e => rw [hrs] at hdt; cases hdt
          | ok s =>
            obtain ⟨i', ti', tb'⟩ := s
            have hfin : d.content.length ≤ i' := by
              rcases replaySteps_complete _ _ _ _ _ _ _ _ _ _ hrs with h | h <;> omega
            have := (replaySteps_bound _ _ _ n i₀ instrs j 0 tb _ i' ti' tb' hdec hrs
              (Or.inr hfin) (by norm_num) (Nat.zero_le _)).1
            rw [(makeslice_ok _ _ hms).1, List.length_replicate] at this
            omega

/-- A delta with base `abc`, target size 1 and the instruction `insert "XY"`. -/
theorem C7_overproduction_rejected_witness :
    ∃ e, resolveDelta .unix sampleStore
        { source := sampleHash, content := [3, 1, 2, 0x58, 0x59], spare := [] } =
      (sampleStore, .error e) :=
  C7_overproduction_rejected .unix sampleStore
    { source := sampleHash, content := [3, 1, 2, 0x58, 0x59], spare := [] }
    3 1 2 1 [.insert [0x58, 0x59]] 5 (by rfl) (by rfl) (by decide)

theorem decodeSteps_complete (content spare : Bytes) :
    ∀ (n i : Nat) (instrs : List Instr) (j : Nat),
      decodeSteps content spare n i = .ok (instrs, j) → i + n ≤ j ∨ content.length ≤ j := by
  intro n
  induction n with
  | zero =>
    intro i instrs j h
    simp only [decodeSteps, Except.ok.injEq, Prod.mk.injEq] at h
    exact Or.inl (by omega)
  | succ n ih =>
    intro i instrs j h
    unfold decodeSteps at h
    by_cases hi : i < content.length
    · rw [if_pos hi] at h
      cases hdi : decodeInstr content spare i with
      | error e => rw [hdi] at h; cases h
      | ok p =>
        obtain ⟨ins, i1⟩ := p
        rw [hdi] at h
        simp only at h
        cases hds : decodeSteps content spare n i1 with
        | error e => rw [hds] at h; cases h
        | ok q =>
          obtain ⟨rest, j'⟩ := q
          rw [hds] at h
          simp only [Except.ok.injEq, Prod.mk.injEq] at h
          have h1 := (decodeInstr_ok _ _ _ _ _ hdi).1
          rcases ih i1 rest j' hds with h2 | h2
          · exact Or.inl (by omega)
          · exact Or.inr (by omega)
    · rw [if_neg hi] at h
      simp only [Except.ok.injEq, Prod.mk.injEq] at h
      exact Or.inr (by omega)

theorem BufReader.read_length_le (b : BufReader) (n : Nat) : (b.read n).1.length ≤ n := by
  unfold BufReader.read
  split
  · simp
  · split
    · split <;> simp [List.length_take]
    · simp [List.length_take]

/-- The content buffer `readObject` returns has the declared size. -/
theorem readObject_ok_length (st : Store) (hash ty : Bytes) (sz : Nat) (buf : Bytes)
    (h : readObject st hash = .ok (ty, sz, buf)) : buf.length = sz := by
  unfold readObject at h
  split at h
  · cases h
  · split at h
    · cases h
    · cases h
    · dsimp only at h
      split at h
      · cases h
      · split at h
        · cases h
        · split at h
          · cases h
          · split at h
            · cases h
            · rename_i stream _ _ _ _ _ content hms
              simp only [Except.ok.injEq, Prod.mk.injEq] at h
              obtain ⟨-, rfl, rfl⟩ := h
              have hc := (makeslice_ok _ _ hms).1
              have hl := BufReader.read_length_le
                (BufReader.readString
                  (BufReader.readString { buf := [], rest := stream } 0x20).2.2 0).2.2
                (parseUint (BufReader.readString
                  (BufReader.readString { buf := [], rest := stream } 0x20).2.2 0).1.dropLast)
              rw [hc]
              simp only [List.length_append, List.length_drop, List.length_replicate]
              omega

/-- A delta whose instructions all fit and produce no more than the declared target
size resolves to the outputs of its instructions followed by the untouched, zeroed
remainder of the target buffer. -/
theorem deltaTarget_of_decode (st : Store) (d : objDelta) (ty base : Bytes)
    (targetSize i₀ : Nat) (instrs : List Instr) (j : Nat)
    (hro : readObject st d.source = .ok (ty, base.length, base))
    (hhdr : readDeltaHeader d.content = .ok (base.length, targetSize, i₀))
    (hdec : decodeSteps d.content d.spare d.content.length i₀ = .ok (instrs, j))
    (hin : ∀ ins ∈ instrs, ins.inBase base ∧ ins.below32)
    (hsum : totalLength instrs ≤ targetSize) (h32 : targetSize < 2 ^ 32) :
    deltaTarget st d =
      .ok (ty, targetSize,
        replayOutput base instrs ++ List.replicate (targetSize - totalLength instrs) 0) := by
  have hj : d.content.length ≤ j := by
    rcases decodeSteps_complete _ _ _ _ _ _ hdec with h | h <;> omega
  have hms : makeslice targetSize = .ok (List.replicate targetSize 0) := by
    unfold makeslice
    rw [if_pos]
    unfold maxAlloc
    exact le_of_lt (lt_trans h32 (by norm_num))
  have hr := replaySteps_of_decodeSteps d.content d.spare base d.content.length i₀ instrs j 0
    (List.replicate targetSize 0) d.content.length hdec hj hin
    (by simp only [List.length_replicate]; omega) (by omega) (le_refl _)
  unfold deltaTarget
  rw [hhdr]
  simp only
  rw [hms]
  simp only
  rw [hro]
  simp only [ne_eq, not_true_eq_false, ↓reduceIte]
  rw [hr]
  simp only [List.take_zero, List.nil_append, Nat.zero_add, List.drop_replicate]

/-- The conditions of `deltaTarget_of_decode` are also necessary: when a delta
resolves, the instructions the loop decodes fit the target buffer and the base that
was read, and no `uint32` sum has wrapped. -/
theorem deltaTarget_ok_conditions (st : Store) (d : objDelta) (ty : Bytes) (n : Nat)
    (buf : Bytes) (sourceSize targetSize i₀ k : Nat) (instrs : List Instr) (j : Nat)
    (sty : Bytes) (sz : Nat) (base : Bytes)
    (hok : deltaTarget st d = .ok (ty, n, buf))
    (hhdr : readDeltaHeader d.content = .ok (sourceSize, targetSize, i₀))
    (hro : readObject st d.source = .ok (sty, sz, base))
    (hdec : decodeSteps d.content d.spare k i₀ = .ok (instrs, j)) :
    sourceSize = base.length ∧ totalLength instrs ≤ targetSize ∧
      totalLength instrs < 2 ^ 32 ∧ ∀ ins ∈ instrs, ins.inBase base ∧ ins.below32 := by
  have hsz := readObject_ok_length _ _ _ _ _ hro
  unfold deltaTarget at hok
  rw [hhdr] at hok
  simp only at hok
  cases hms : makeslice targetSize with
  | error e => rw [hms] at hok; cases hok
  | ok tb =>
    rw [hms] at hok
    simp only at hok
    rw [hro] at hok
    simp only at hok
    split at hok
    · cases hok
    · rename_i hss
      cases hrs : replaySteps d.content d.spare base d.content.length (i₀, 0, tb) with
      | error e => rw [hrs] at hok; cases hok
      | ok s =>
        obtain ⟨i', ti', tb'⟩ := s
        have hfin : d.content.length ≤ i' := by
          rcases replaySteps_complete _ _ _ _ _ _ _ _ _ _ hrs with h | h <;> omega
        have := replaySteps_bound _ _ _ k i₀ instrs j 0 tb _ i' ti' tb' hdec hrs
          (Or.inr hfin) (by norm_num) (Nat.zero_le _)
        rw [(makeslice_ok _ _ hms).1, List.length_replicate] at this
        refine ⟨?_, by omega, by omega, this.2.2⟩
        rw [hsz]
        exact not_not.1 hss

/-! ## Decimal sizes, object paths and the buffered reader -/

theorem digit_toNat (n : Nat) : (UInt8.ofNat (48 + n % 10)).toNat = 48 + n % 10 :=
  UInt8.toNat_ofNat_of_lt (by unfold UInt8.size; omega)

theorem decimalLoop_digits (P : UInt8 → Prop) (hP : ∀ k, P (UInt8.ofNat (48 + k % 10))) :
    ∀ (fuel n : Nat) (acc : Bytes), (∀ b ∈ acc, P b) → ∀ b ∈ decimalLoop fuel n acc, P b := by
  intro fuel
  induction fuel with
  | zero => intro n acc h; exact h
  | succ fuel ih =>
    intro n acc h
    unfold decimalLoop
    have h' : ∀ b ∈ UInt8.ofNat (48 + n % 10) :: acc, P b := by
      intro b hb
      rcases List.mem_cons.1 hb with rfl | hb
      · exact hP n
      · exact h b hb
    split
    · exact h'
    · exact ih _ _ h'

theorem decimal_digits (n : Nat) : ∀ b ∈ decimal n, 48 ≤ b.toNat ∧ b.toNat ≤ 57 := by
  apply decimalLoop_digits (fun b => 48 ≤ b.toNat ∧ b.toNat ≤ 57)
  · intro k
    rw [digit_toNat]
    omega
  · intro b hb
    cases hb

theorem parseUintLoop_decimalLoop :
    ∀ (fuel n : Nat) (acc : Bytes), n < fuel → n < 2 ^ 64 →
      parseUintLoop (decimalLoop fuel n acc) 0 = parseUintLoop acc n := by
  intro fuel
  induction fuel with
  | zero => intro n acc h; omega
  | succ fuel ih =>
    intro n acc hf hn
    unfold decimalLoop
    have hd := digit_toNat n
    have step : ∀ v, v * 10 + n % 10 < 2 ^ 64 →
        parseUintLoop (UInt8.ofNat (48 + n % 10) :: acc) v = parseUintLoop acc (v * 10 + n % 10) := by
      intro v hv
      simp only [parseUintLoop, hd]
      rw [if_pos (by omega), show 48 + n % 10 - 48 = n % 10 by omega, if_pos hv]
    split
    · rename_i h0
      rw [step 0 (by omega)]
      congr 1
      omega
    · rename_i h0
      rw [ih (n / 10) _ (by omega) (by omega), step (n / 10) (by omega)]
      congr 1
      omega

theorem parseUint_decimal (n : Nat) (hn : n < 2 ^ 64) : parseUint (decimal n) = n := by
  unfold parseUint decimal
  rw [parseUintLoop_decimalLoop _ _ _ (Nat.lt_succ_self n) hn]
  rfl

theorem fmtInt_natCast (n : Nat) : fmtInt (n : Int) = decimal n := by
  unfold fmtInt
  rw [if_neg (by omega)]
  rfl

theorem hex_take_drop (hash : Bytes) (h : hash ≠ []) :
    hex (hash.take 1) = (hex hash).take 2 ∧ hex (hash.drop 1) = (hex hash).drop 2 := by
  cases hash with
  | nil => exact absurd rfl h
  | cons b bs => simp [hex]

theorem sha1_ne_nil (msg : Bytes) : sha1 msg ≠ [] := by
  unfold sha1
  simp [beBytes]

theorem indexByte_append (delim : UInt8) (a b : Bytes) (h : delim ∉ a) :
    indexByte delim (a ++ delim :: b) = some a.length := by
  induction a with
  | nil => simp [indexByte]
  | cons x a ih =>
    have hx : x ≠ delim := fun e => h (by simp [e])
    have ha : delim ∉ a := fun e => h (by simp [e])
    simp [indexByte, hx, ih ha]

/-- Behaviour of `ReadString` when the delimiter is already buffered. -/
theorem readString_buffered (delim : UInt8) (x y r : Bytes) (h : delim ∉ x) :
    BufReader.readString { buf := x ++ delim :: y, rest := r } delim =
      (x ++ [delim], true, { buf := y, rest := r }) := by
  unfold BufReader.readString
  rw [show 2 * r.length + 2 = (2 * r.length + 1) + 1 by omega]
  unfold BufReader.readStringLoop
  simp only [indexByte_append delim x y h]
  have e1 : (x ++ delim :: y).take (x.length + 1) = x ++ [delim] := by
    rw [show x ++ delim :: y = (x ++ [delim]) ++ y by simp,
      show x.length + 1 = (x ++ [delim]).length by simp, List.take_left]
  have e2 : (x ++ delim :: y).drop (x.length + 1) = y := by
    rw [show x ++ delim :: y = (x ++ [delim]) ++ y by simp,
      show x.length + 1 = (x ++ [delim]).length by simp, List.drop_left]
  rw [e1, e2]
  rfl

/-- Behaviour of `ReadString` on a fresh reader whose first buffer load holds the delimiter. -/
theorem readString_fresh (delim : UInt8) (a b : Bytes) (h : delim ∉ a)
    (hlen : a.length < bufSize) :
    BufReader.readString { buf := [], rest := a ++ delim :: b } delim =
      (a ++ [delim], true,
        { buf := b.take (bufSize - (a.length + 1)), rest := (a ++ delim :: b).drop bufSize }) := by
  unfold BufReader.readString
  rw [show 2 * (a ++ delim :: b).length + 2 = (2 * (a ++ delim :: b).length) + 1 + 1 by omega]
  unfold BufReader.readStringLoop
  have hne : a ++ delim :: b ≠ [] := by simp
  have hb : ¬ (bufSize ≤ ([] : Bytes).length) := by unfold bufSize; simp
  simp only [indexByte, if_neg hne, if_neg hb]
  have hfill : (BufReader.fill { buf := [], rest := a ++ delim :: b }) =
      { buf := a ++ delim :: b.take (bufSize - (a.length + 1)),
        rest := (a ++ delim :: b).drop bufSize } := by
    unfold BufReader.fill
    simp only [List.length_nil, Nat.sub_zero, List.nil_append]
    congr 1
    rw [List.take_append_eq_append_take, List.take_of_length_le (le_of_lt hlen)]
    congr 1
    rw [show bufSize - a.length = (bufSize - (a.length + 1)) + 1 by omega, List.take_succ_cons]
  rw [hfill]
  unfold BufReader.readStringLoop
  simp only [indexByte_append delim a _ h]
  have e1 : (a ++ delim :: b.take (bufSize - (a.length + 1))).take (a.length + 1) =
      a ++ [delim] := by
    rw [show a ++ delim :: b.take (bufSize - (a.length + 1)) =
        (a ++ [delim]) ++ b.take (bufSize - (a.length + 1)) by simp,
      show a.length + 1 = (a ++ [delim]).length by simp, List.take_left]
  have e2 : (a ++ delim :: b.take (bufSize - (a.length + 1))).drop (a.length + 1) =
      b.take (bufSize - (a.length + 1)) := by
    rw [show a ++ delim :: b.take (bufSize - (a.length + 1)) =
        (a ++ [delim]) ++ b.take (bufSize - (a.length + 1)) by simp,
      show a.length + 1 = (a ++ [delim]).length by simp, List.drop_left]
  rw [e1, e2]
  rfl

theorem objectHeader_natCast (ty : Bytes) (n : Nat) :
    objectHeader ty (n : Int) = ty ++ 0x20 :: (decimal n ++ [0]) := by
  unfold objectHeader
  rw [fmtInt_natCast]
  simp

/-- What `readObject` returns for an object file that holds the zlib stream of a header
and a payload, when the header fits the reader's buffer: the type, the size, and a buffer of that size
holding the part of the content that was buffered together with the header, the
rest of the buffer left zero. -/
theorem readObject_of_stream (st : Store) (hash ty content : Bytes) (hne : hash ≠ [])
    (hst : st (objectPath ((hex hash).take 2) ((hex hash).drop 2)) =
      some (.deflated (objectHeader ty (content.length : Nat) ++ content)))
    (hsp : (0x20 : UInt8) ∉ ty)
    (hH : (objectHeader ty (content.length : Nat)).length < bufSize)
    (hn : content.length ≤ maxAlloc) :
    readObject st hash =
      .ok (ty, content.length,
        content.take (bufSize - (objectHeader ty (content.length : Nat)).length) ++
          List.replicate
            (content.length - (bufSize - (objectHeader ty (content.length : Nat)).length)) 0) := by
  rw [objectHeader_natCast] at hst hH ⊢
  simp only [List.length_append, List.length_cons, List.length_nil] at hH ⊢
  have h0 : (0 : UInt8) ∉ decimal content.length := by
    intro h
    have := (decimal_digits _ _ h).1
    simp at this
  have hs : ty ++ 0x20 :: (decimal content.length ++ [0]) ++ content =
      ty ++ 0x20 :: (decimal content.length ++ 0 :: content) := by simp
  rw [hs] at hst
  have htake : (decimal content.length ++ 0 :: content).take (bufSize - (ty.length + 1)) =
      decimal content.length ++
        0 :: content.take (bufSize - (ty.length + ((decimal content.length).length + 0 + 1 + 1))) := by
    rw [List.take_append_eq_append_take, List.take_of_length_le (by omega)]
    congr 1
    rw [show bufSize - (ty.length + 1) - (decimal content.length).length =
      (bufSize - (ty.length + ((decimal content.length).length + 0 + 1 + 1))) + 1 by omega,
      List.take_succ_cons]
  have hmk : makeslice content.length = .ok (List.replicate content.length 0) := by
    unfold makeslice; rw [if_pos hn]
  have hparse : parseUint (decimal content.length) = content.length :=
    parseUint_decimal _ (lt_of_le_of_lt hn (by unfold maxAlloc; norm_num))
  unfold readObject
  rw [if_neg hne, (hex_take_drop hash hne).1, (hex_take_drop hash hne).2, hst]
  simp only
  rw [readString_fresh 0x20 ty _ hsp (by omega), htake]
  simp only
  rw [readString_buffered 0 _ _ _ h0]
  simp only [List.append_eq_nil, List.cons_ne_self, and_false, ↓reduceIte, List.dropLast_concat,
    Bool.not_true, Bool.false_eq_true, reduceCtorEq]
  rw [hparse, hmk]
  simp only
  generalize hk : bufSize - (ty.length + ((decimal content.length).length + 0 + 1 + 1)) = k
  have hkpos : 0 < k := by omega
  have hread : (BufReader.read
      { buf := content.take k, rest := (ty ++ 0x20 :: (decimal content.length ++ 0 :: content)).drop bufSize }
      content.length).1 = content.take k := by
    unfold BufReader.read
    by_cases hc : content.length = 0
    · rw [if_pos hc]
      simp [List.length_eq_zero.1 hc]
    · rw [if_neg hc]
      have : content.take k ≠ [] := by
        intro h
        have := congrArg List.length h
        simp only [List.length_take, List.length_nil] at this
        omega
      rw [if_neg this]
      simp only
      rw [List.take_take]
      by_cases hkn : k ≤ content.length
      · rw [Nat.min_eq_right hkn]
      · rw [Nat.min_eq_left (by omega), List.take_of_length_le (le_refl _),
          List.take_of_length_le (by omega)]
  rw [hread]
  simp only [List.length_take, List.drop_replicate]
  rw [show content.length - min k content.length = content.length - k by omega]

/-! ## `hashObject` and the store -/

/-- When `hashObject` returns, it returns the SHA-1 of the header and the content; it
ends the program exactly when it is to write, no file exists at the path of the hash
and the handle of the file it creates refuses writes. -/
theorem hashObject_fst (goos : GOOS) (writeObject : Bool) (ty : Bytes) (n : Int)
    (content : Bytes) (st : Store) :
    (hashObject goos writeObject ty n content st).1 =
      if writeObject = true ∧
          st (objectPath ((hex (sha1 (objectHeader ty n ++ content))).take 2)
            ((hex (sha1 (objectHeader ty n ++ content))).drop 2)) = none ∧
          createOnlyWritable goos = false
      then .error .fatal else .ok (sha1 (objectHeader ty n ++ content)) := by
  unfold hashObject
  simp only
  cases writeObject with
  | false => simp
  | true =>
    simp only [Bool.not_true, Bool.false_eq_true, ↓reduceIte, true_and]
    cases hs : st (objectPath ((hex (sha1 (objectHeader ty n ++ content))).take 2)
        ((hex (sha1 (objectHeader ty n ++ content))).drop 2)) with
    | none => cases hw : createOnlyWritable goos <;> simp
    | some f => simp

/-- The only file `hashObject` can create is the one at the path of the hash: it holds the
header followed by the content where the handle accepts writes, and no bytes where
it does not. -/
theorem hashObject_snd (goos : GOOS) (writeObject : Bool) (ty : Bytes) (n : Int)
    (content : Bytes) (st : Store) (q : List Char) :
    (hashObject goos writeObject ty n content st).2 q =
      if writeObject = true ∧
          q = objectPath ((hex (sha1 (objectHeader ty n ++ content))).take 2)
            ((hex (sha1 (objectHeader ty n ++ content))).drop 2) ∧ st q = none
      then
        (if createOnlyWritable goos = true then
          some (.deflated (objectHeader ty n ++ content))
        else some .empty)
      else st q := by
  unfold hashObject
  simp only
  cases writeObject with
  | false => simp
  | true =>
    simp only [Bool.not_true, Bool.false_eq_true, ↓reduceIte, true_and]
    by_cases hq : q = objectPath ((hex (sha1 (objectHeader ty n ++ content))).take 2)
        ((hex (sha1 (objectHeader ty n ++ content))).drop 2)
    · subst hq
      cases hs : st (objectPath ((hex (sha1 (objectHeader ty n ++ content))).take 2)
          ((hex (sha1 (objectHeader ty n ++ content))).drop 2)) with
      | none => cases hw : createOnlyWritable goos <;> simp [Store.write, Store.create]
      | some f => simp [hs]
    · split
      · simp [hq]
      · split <;> simp [Store.write, Store.create, hq]

/-- A call of `hashObject(true, ...)` whose result is dropped leaves the store `hashObject`
leaves, and returns when `hashObject` returns. -/
theorem putObject_eq (goos : GOOS) (ty : Bytes) (n : Int) (content : Bytes) (st : Store) :
    putObject goos ty n content st =
      ((hashObject goos true ty n content st).2,
        (hashObject goos true ty n content st).1.map (fun _ => ())) := by
  unfold putObject
  cases h : hashObject goos true ty n content st with
  | mk r st' => cases r <;> rfl

/-- What a direct entry's `hashObject` call leaves is what `storeEntry` leaves. -/
theorem putObject_then (p : Store × Except Failure Unit) (saved : List objDelta) :
    (match p with
      | (st, .error e) => (st, .error e)
      | (st, .ok ()) => (st, Except.ok saved) : Store × Except Failure (List objDelta)) =
      (p.1, p.2.map (fun _ => saved)) := by
  rcases p with ⟨st, e | u⟩ <;> rfl

/-- When a file exists at the path of the hash, `hashObject(true, ...)` returns the hash and
leaves the store as it is, on every system. -/
theorem hashObject_exists (goos : GOOS) (ty : Bytes) (n : Int) (content : Bytes) (st : Store)
    (h : (st (objectPath ((hex (sha1 (objectHeader ty n ++ content))).take 2)
      ((hex (sha1 (objectHeader ty n ++ content))).drop 2))).isSome = true) :
    hashObject goos true ty n content st = (.ok (sha1 (objectHeader ty n ++ content)), st) := by
  unfold hashObject
  simp only [Bool.not_true, Bool.false_eq_true, ↓reduceIte, h]

/-- When no file exists at the path of the hash and the handle refuses writes,
`hashObject(true, ...)` ends the program and leaves an empty file at that path. -/
theorem hashObject_refused (goos : GOOS) (ty : Bytes) (n : Int) (content : Bytes) (st : Store)
    (h : st (objectPath ((hex (sha1 (objectHeader ty n ++ content))).take 2)
      ((hex (sha1 (objectHeader ty n ++ content))).drop 2)) = none)
    (hw : createOnlyWritable goos = false) :
    hashObject goos true ty n content st =
      (.error .fatal, st.create (objectPath ((hex (sha1 (objectHeader ty n ++ content))).take 2)
        ((hex (sha1 (objectHeader ty n ++ content))).drop 2))) := by
  unfold hashObject
  simp [h, hw]

/-- When no file exists at the path of the hash and the handle accepts writes,
`hashObject(true, ...)` writes the object file and returns the hash. -/
theorem hashObject_written (goos : GOOS) (ty : Bytes) (n : Int) (content : Bytes) (st : Store)
    (h : st (objectPath ((hex (sha1 (objectHeader ty n ++ content))).take 2)
      ((hex (sha1 (objectHeader ty n ++ content))).drop 2)) = none)
    (hw : createOnlyWritable goos = true) :
    hashObject goos true ty n content st =
      (.ok (sha1 (objectHeader ty n ++ content)),
        st.write (objectPath ((hex (sha1 (objectHeader ty n ++ content))).take 2)
          ((hex (sha1 (objectHeader ty n ++ content))).drop 2))
          (objectHeader ty n ++ content)) := by
  unfold hashObject
  simp [h, hw]

theorem putObject_exists (goos : GOOS) (ty : Bytes) (n : Int) (content : Bytes) (st : Store)
    (h : (st (objectPath ((hex (sha1 (objectHeader ty n ++ content))).take 2)
      ((hex (sha1 (objectHeader ty n ++ content))).drop 2))).isSome = true) :
    putObject goos ty n content st = (st, .ok ()) := by
  unfold putObject
  rw [hashObject_exists goos ty n content st h]

theorem putObject_refused (goos : GOOS) (ty : Bytes) (n : Int) (content : Bytes) (st : Store)
    (h : st (objectPath ((hex (sha1 (objectHeader ty n ++ content))).take 2)
      ((hex (sha1 (objectHeader ty n ++ content))).drop 2)) = none)
    (hw : createOnlyWritable goos = false) :
    putObject goos ty n content st =
      (st.create (objectPath ((hex (sha1 (objectHeader ty n ++ content))).take 2)
        ((hex (sha1 (objectHeader ty n ++ content))).drop 2)), .error .fatal) := by
  unfold putObject
  rw [hashObject_refused goos ty n content st h hw]

theorem putObject_written (goos : GOOS) (ty : Bytes) (n : Int) (content : Bytes) (st : Store)
    (h : st (objectPath ((hex (sha1 (objectHeader ty n ++ content))).take 2)
      ((hex (sha1 (objectHeader ty n ++ content))).drop 2)) = none)
    (hw : createOnlyWritable goos = true) :
    putObject goos ty n content st =
      (st.write (objectPath ((hex (sha1 (objectHeader ty n ++ content))).take 2)
        ((hex (sha1 (objectHeader ty n ++ content))).drop 2))
        (objectHeader ty n ++ content), .ok ()) := by
  unfold putObject
  rw [hashObject_written goos ty n content st h hw]

/-- What `readObject` returns for the hash of an object whose file holds the zlib stream of
its header and payload, at the path of the hash. -/
theorem readObject_written (st : Store) (ty content : Bytes)
    (hsp : (0x20 : UInt8) ∉ ty)
    (hH : (objectHeader ty (content.length : Nat)).length < bufSize)
    (hn : content.length ≤ maxAlloc) :
    readObject
        (st.write
          (objectPath ((hex (sha1 (objectHeader ty (content.length : Nat) ++ content))).take 2)
            ((hex (sha1 (objectHeader ty (content.length : Nat) ++ content))).drop 2))
          (objectHeader ty (content.length : Nat) ++ content))
        (sha1 (objectHeader ty (content.length : Nat) ++ content)) =
      .ok (ty, content.length,
        content.take (bufSize - (objectHeader ty (content.length : Nat)).length) ++
          List.replicate
            (content.length - (bufSize - (objectHeader ty (content.length : Nat)).length)) 0) := by
  apply readObject_of_stream _ _ _ _ (sha1_ne_nil _) _ hsp hH hn
  unfold Store.write
  rw [if_pos rfl]

theorem replaySteps_length (content spare base : Bytes) :
    ∀ (m i ti : Nat) (tb : Bytes) (i' ti' : Nat) (tb' : Bytes),
      replaySteps content spare base m (i, ti, tb) = .ok (i', ti', tb') → ti < 2 ^ 32 →
      tb'.length = tb.length := by
  intro m
  induction m with
  | zero =>
    intro i ti tb i' ti' tb' h _
    simp only [replaySteps, Except.ok.injEq, Prod.mk.injEq] at h
    rw [h.2.2]
  | succ m ih =>
    intro i ti tb i' ti' tb' h hti
    unfold replaySteps at h
    by_cases hi : i < content.length
    · rw [if_pos hi] at h
      cases hdi : decodeInstr content spare i with
      | error e => rw [hdi] at h; cases h
      | ok p =>
        obtain ⟨ins, i1⟩ := p
        rw [hdi] at h
        simp only at h
        have hbd := (decodeInstr_ok _ _ _ _ _ hdi).2
        rw [execInstr_eq base ins ti tb hbd hti] at h
        by_cases hc : ti + ins.length ≤ tb.length ∧ ti + ins.length < 2 ^ 32 ∧
            ins.inBase base ∧ ins.below32
        · rw [if_pos hc] at h
          simp only at h
          have hol := Instr.output_length base ins hc.2.2.1
          rw [ih _ _ _ _ _ _ h hc.2.1, ← hol, patch_length _ _ _ (by omega)]
        · rw [if_neg hc] at h
          cases h
    · rw [if_neg hi] at h
      simp only [Except.ok.injEq, Prod.mk.injEq] at h
      rw [h.2.2]

/-- The buffer a delta resolves to has the declared target size. -/
theorem deltaTarget_length (st : Store) (d : objDelta) (ty : Bytes) (n : Nat) (buf : Bytes)
    (h : deltaTarget st d = .ok (ty, n, buf)) : buf.length = n := by
  unfold deltaTarget at h
  cases hhdr : readDeltaHeader d.content with
  | error e => rw [hhdr] at h; cases h
  | ok r =>
    obtain ⟨sourceSize, targetSize, i⟩ := r
    rw [hhdr] at h
    simp only at h
    cases hms : makeslice targetSize with
    | error e => rw [hms] at h; cases h
    | ok tb =>
      rw [hms] at h
      simp only at h
      cases hro : readObject st d.source with
      | error e => rw [hro] at h; cases h
      | ok o =>
        obtain ⟨sty, rsz, sb⟩ := o
        rw [hro] at h
        simp only at h
        split at h
        · cases h
        · cases hrs : replaySteps d.content d.spare sb d.content.length (i, 0, tb) with
          | error e => rw [hrs] at h; cases h
          | ok s =>
            obtain ⟨i', ti', tb'⟩ := s
            rw [hrs] at h
            simp only [Except.ok.injEq, Prod.mk.injEq] at h
            obtain ⟨-, rfl, rfl⟩ := h
            rw [replaySteps_length _ _ _ _ _ _ _ _ _ _ hrs (by norm_num),
              (makeslice_ok _ _ hms).1, List.length_replicate]

/-- The content `storeEntry` hands to `hashObject` is what the inflater delivered
into the buffer, and the size it passes is the length of that content. -/
theorem zlibRead_take (produced : Bytes) (n : Nat) :
    ((zlibRead produced (List.replicate n 0)).2.take (zlibRead produced (List.replicate n 0)).1 =
      produced.take n) ∧
    (zlibRead produced (List.replicate n 0)).1 = (produced.take n).length := by
  unfold zlibRead
  simp only [List.length_replicate, List.length_take]
  refine ⟨?_, Nat.min_comm _ _⟩
  have : (produced.take n).length = min produced.length n := by
    rw [List.length_take, Nat.min_comm]
  rw [← this, List.take_left]

/-! ## Delta resolution -/

set_option maxRecDepth 1000000 in
theorem readObject_sample :
    readObject sampleStore sampleHash = .ok (ascii "blob", (ascii "abc").length, ascii "abc") := by
  decide

/-- Where the handle accepts writes `hashObject` returns. -/
theorem hashObject_fst_writable (goos : GOOS) (w : Bool) (ty : Bytes) (n : Int)
    (content : Bytes) (st : Store) (hw : createOnlyWritable goos = true) :
    (hashObject goos w ty n content st).1 = .ok (sha1 (objectHeader ty n ++ content)) := by
  rw [hashObject_fst, if_neg (fun h => by rw [hw] at h; cases h.2.2)]

/-- Claim C1 (amended). Delta replay reconstructs the target exactly, below `2^32`.  Let
`readObject` return the base `(ty, len(base), base)`, let the header of the delta
carry the source size `len(base)` and the target size `targetSize`, and let the loop
decode the instructions `instrs` from the first opcode to exactly the end of the
stream.  If every Copy range lies inside the base and ends below `2^32`, and the
instruction lengths add up to `targetSize < 2^32`, then the delta resolves: the
iteration calls `hashObject` with the type of the base and the payload `replayOutput
base instrs` (the Copy ranges of the base and the Insert literals, in order), it
leaves the store that call leaves and returns when that call returns, and that
payload has length `targetSize`. -/
theorem C1_delta_replay (goos : GOOS) (st : Store) (d : objDelta) (ty base : Bytes)
    (targetSize i₀ : Nat) (instrs : List Instr)
    (hro : readObject st d.source = .ok (ty, base.length, base))
    (hhdr : readDeltaHeader d.content = .ok (base.length, targetSize, i₀))
    (hdec : decodeSteps d.content d.spare d.content.length i₀ = .ok (instrs, d.content.length))
    (hin : ∀ ins ∈ instrs, ins.inBase base)
    (hsum : totalLength instrs = targetSize)
    (h32 : targetSize < 2 ^ 32) (hb32 : ∀ ins ∈ instrs, ins.below32) :
    resolveDelta goos st d =
        ((hashObject goos true ty (targetSize : Nat) (replayOutput base instrs) st).2,
          (hashObject goos true ty (targetSize : Nat) (replayOutput base instrs) st).1.map
            (fun _ => ())) ∧
      (replayOutput base instrs).length = targetSize := by
  have h := deltaTarget_of_decode st d ty base targetSize i₀ instrs _ hro hhdr hdec
    (fun ins hi => ⟨hin ins hi, hb32 ins hi⟩) (le_of_eq hsum) h32
  rw [hsum, Nat.sub_self, List.replicate_zero, List.append_nil] at h
  refine ⟨?_, deltaTarget_length _ _ _ _ _ h⟩
  unfold resolveDelta
  rw [h]
  exact putObject_eq _ _ _ _ _

/-- Base `abc`; the delta `copy 1 2, insert "XY", copy 0 1` with target size 5 resolves
to `bcXYa`.  Where the handle accepts writes, the iteration returns. -/
theorem C1_delta_replay_witness :
    resolveDelta .windows sampleStore
        { source := sampleHash,
          content := [3, 5, 0x91, 1, 2, 2, 0x58, 0x59, 0x90, 1], spare := [] } =
        ((hashObject .windows true (ascii "blob") 5 (ascii "bcXYa") sampleStore).2, .ok ()) ∧
      (ascii "bcXYa").length = 5 := by
  have h := C1_delta_replay .windows sampleStore
    { source := sampleHash, content := [3, 5, 0x91, 1, 2, 2, 0x58, 0x59, 0x90, 1], spare := [] }
    (ascii "blob") (ascii "abc") 5 2 [.copy 1 2, .insert [0x58, 0x59], .copy 0 1]
    readObject_sample (by rfl) (by rfl) (by decide) (by rfl) (by norm_num) (by decide)
  rw [hashObject_fst_writable .windows _ _ _ _ _ rfl] at h
  exact h

/-- Claim C6 (amended). Under-production is not rejected.  When the instruction stream
is exhausted with the cursor below the declared target size (all instructions fitting
as in C1), the delta resolves: the iteration calls `hashObject` with an object of the
declared target size, the bytes produced followed by zero bytes, and it leaves the
store that call leaves and returns when that call returns. -/
theorem C6_underproduction_zero_padded (goos : GOOS) (st : Store) (d : objDelta)
    (ty base : Bytes)
    (targetSize i₀ : Nat) (instrs : List Instr) (j : Nat)
    (hro : readObject st d.source = .ok (ty, base.length, base))
    (hhdr : readDeltaHeader d.content = .ok (base.length, targetSize, i₀))
    (hdec : decodeSteps d.content d.spare d.content.length i₀ = .ok (instrs, j))
    (hin : ∀ ins ∈ instrs, ins.inBase base ∧ ins.below32)
    (hunder : totalLength instrs < targetSize) (h32 : targetSize < 2 ^ 32) :
    resolveDelta goos st d =
      ((hashObject goos true ty (targetSize : Nat)
          (replayOutput base instrs ++ List.replicate (targetSize - totalLength instrs) 0) st).2,
        (hashObject goos true ty (targetSize : Nat)
          (replayOutput base instrs ++ List.replicate (targetSize - totalLength instrs) 0)
          st).1.map (fun _ => ())) := by
  have h := deltaTarget_of_decode st d ty base targetSize i₀ instrs j hro hhdr hdec hin
    (le_of_lt hunder) h32
  unfold resolveDelta
  rw [h]
  exact putObject_eq _ _ _ _ _

/-- Base `abc`, declared target size 4, a single `insert "X"`: the object stored is
`X` followed by three zero bytes. -/
theorem C6_underproduction_zero_padded_witness :
    resolveDelta .windows sampleStore
        { source := sampleHash, content := [3, 4, 1, 0x58], spare := [] } =
      ((hashObject .windows true (ascii "blob") 4 [0x58, 0, 0, 0] sampleStore).2, .ok ()) := by
  have h := C6_underproduction_zero_padded .windows sampleStore
    { source := sampleHash, content := [3, 4, 1, 0x58], spare := [] }
    (ascii "blob") (ascii "abc") 4 2 [.insert [0x58]] 4
    readObject_sample (by rfl) (by rfl) (by decide) (by decide) (by norm_num)
  rw [hashObject_fst_writable .windows _ _ _ _ _ rfl] at h
  exact h

set_option maxRecDepth 1000000 in
/-- Claim C6 (counterexample). Base `abc`; the delta declares target size 4 and holds the
single instruction `insert "X"`.  The stream is exhausted with the cursor at 1, yet
no error is raised: the delta loop hands the blob `X` followed by three zero bytes to
`hashObject`, and where the handle accepts writes the resolution succeeds and files
that 4-byte blob under its hash. -/
theorem C6_counterexample :
    decodeSteps [3, 4, 1, 0x58] [] 4 2 = .ok ([.insert [0x58]], 4) ∧
    totalLength [.insert [0x58]] < 4 ∧
    deltaTarget sampleStore { source := sampleHash, content := [3, 4, 1, 0x58], spare := [] } =
      .ok (ascii "blob", 4, [0x58, 0, 0, 0]) ∧
    (resolveDelta .windows sampleStore
      { source := sampleHash, content := [3, 4, 1, 0x58], spare := [] }).2 = .ok () ∧
    (resolveDelta .windows sampleStore
      { source := sampleHash, content := [3, 4, 1, 0x58], spare := [] }).1
        (objectPath ((hex (sha1 (ascii "blob 4" ++ [0, 0x58, 0, 0, 0]))).take 2)
          ((hex (sha1 (ascii "blob 4" ++ [0, 0x58, 0, 0, 0]))).drop 2)) =
      some (.deflated (ascii "blob 4" ++ [0, 0x58, 0, 0, 0])) := by
  decide

/-- A delta whose header and base are accepted fails the way its instruction loop
fails, and leaves the store as it was. -/
theorem resolveDelta_of_replay_error (goos : GOOS) (st : Store) (d : objDelta) (ty : Bytes)
    (sourceSize targetSize i₀ : Nat) (base tb : Bytes) (e : Failure)
    (hhdr : readDeltaHeader d.content = .ok (sourceSize, targetSize, i₀))
    (hms : makeslice targetSize = .ok tb)
    (hro : readObject st d.source = .ok (ty, sourceSize, base))
    (hrs : replaySteps d.content d.spare base d.content.length (i₀, 0, tb) = .error e) :
    resolveDelta goos st d = (st, .error e) := by
  unfold resolveDelta deltaTarget
  rw [hhdr]
  simp only
  rw [hms]
  simp only
  rw [hro]
  simp only [ne_eq, not_true_eq_false, ↓reduceIte]
  rw [hrs]

/-- Claim C1 (counterexample). A stored blob of `2^32` bytes and the delta with source size
`2^32`, target size 1 and the single instruction `copy offset=2^32-1 length=1`.  The
header matches the base, the loop decodes the instruction to the end of the stream,
the range `[2^32-1, 2^32)` lies inside the base and the lengths add up to the target
size; but `sourceIndex+length` wraps to 0 in `uint32`, the slice expression panics
and the store is left as it was, on every system. -/
theorem C1_counterexample :
    (readObject (storeOf (ascii "blob") (List.replicate (2 ^ 32) 0x61))
        (objectHash (ascii "blob") (List.replicate (2 ^ 32) 0x61))).map
        (fun r => (r.1, r.2.1, r.2.2.length)) = .ok (ascii "blob", 2 ^ 32, 2 ^ 32) ∧
    readDeltaHeader [0x80, 0x80, 0x80, 0x80, 0x10, 0x01, 0x9F, 0xFF, 0xFF, 0xFF, 0xFF, 0x01] =
      .ok (2 ^ 32, 1, 6) ∧
    decodeSteps [0x80, 0x80, 0x80, 0x80, 0x10, 0x01, 0x9F, 0xFF, 0xFF, 0xFF, 0xFF, 0x01] [] 12 6 =
      .ok ([.copy (2 ^ 32 - 1) 1], 12) ∧
    (Instr.copy (2 ^ 32 - 1) 1).inBase (List.replicate (2 ^ 32) (0x61 : UInt8)) ∧
    totalLength [.copy (2 ^ 32 - 1) 1] = 1 ∧
    ∀ goos : GOOS,
      resolveDelta goos (storeOf (ascii "blob") (List.replicate (2 ^ 32) 0x61))
          { source := objectHash (ascii "blob") (List.replicate (2 ^ 32) 0x61),
            content := [0x80, 0x80, 0x80, 0x80, 0x10, 0x01, 0x9F, 0xFF, 0xFF, 0xFF, 0xFF, 0x01],
            spare := [] } =
        (storeOf (ascii "blob") (List.replicate (2 ^ 32) 0x61), .error .panic) := by
  have hlen : (List.replicate (2 ^ 32) (0x61 : UInt8)).length = 2 ^ 32 := List.length_replicate _ _
  have hH : (objectHeader (ascii "blob")
      ((List.replicate (2 ^ 32) (0x61 : UInt8)).length : Nat)).length < bufSize := by
    rw [hlen]; decide
  have hro := readObject_written emptyStore (ascii "blob") (List.replicate (2 ^ 32) 0x61)
    (by decide) hH (by rw [hlen]; unfold maxAlloc; norm_num)
  unfold storeOf objectHash
  have hhdr : readDeltaHeader
      [0x80, 0x80, 0x80, 0x80, 0x10, 0x01, 0x9F, 0xFF, 0xFF, 0xFF, 0xFF, 0x01] =
      .ok (2 ^ 32, 1, 6) := by rfl
  have hdec : decodeInstr [0x80, 0x80, 0x80, 0x80, 0x10, 0x01, 0x9F, 0xFF, 0xFF, 0xFF, 0xFF, 0x01]
      [] 6 = .ok (.copy (2 ^ 32 - 1) 1, 12) := by rfl
  have hrs : ∀ buf : Bytes,
      replaySteps [0x80, 0x80, 0x80, 0x80, 0x10, 0x01, 0x9F, 0xFF, 0xFF, 0xFF, 0xFF, 0x01] [] buf
        12 (6, 0, [0]) = .error .panic := by
    intro buf
    have hlt : 6 < ([0x80, 0x80, 0x80, 0x80, 0x10, 0x01, 0x9F, 0xFF, 0xFF, 0xFF, 0xFF, 0x01] :
        Bytes).length := by decide
    rw [replaySteps, if_pos hlt, hdec]
    simp only
    rw [execInstr_eq _ _ _ _ (by unfold Instr.bounded; norm_num) (by norm_num),
      if_neg (by
        intro h
        have := h.2.2.2
        simp only [Instr.below32] at this
        omega)]
  refine ⟨?_, hhdr, by rfl, ?_, by rfl, ?_⟩
  · rw [hro]
    simp only [Except.map, List.length_append, List.length_take, List.length_replicate]
    congr 3
  · simp only [Instr.inBase, List.length_replicate]
    norm_num
  · intro goos
    have hro' := hro
    conv at hro' => rhs; rw [hlen]
    exact resolveDelta_of_replay_error _ _ _ _ _ _ _ _ _ _ hhdr (by rfl) hro' (hrs _)

/-- Claim C8 (amended). An opcode byte `0x00` at an instruction boundary is replayed as an
Insert of no bytes: the iteration consumes that one byte, leaves the target buffer
and the cursor as they were, and the loop goes on with the next byte. -/
theorem C8_zero_insert_is_noop (content spare base : Bytes) (i ti : Nat) (tb : Bytes) (n : Nat)
    (hget : content[i]? = some 0) (hti : ti ≤ tb.length) (h32 : ti < 2 ^ 32) :
    decodeInstr content spare i = .ok (.insert [], i + 1) ∧
      replaySteps content spare base (n + 1) (i, ti, tb) =
        replaySteps content spare base n (i + 1, ti, tb) := by
  have hi : i < content.length := by
    rcases Nat.lt_or_ge i content.length with h | h
    · exact h
    · rw [List.getElem?_eq_none h] at hget
      cases hget
  have hdec : decodeInstr content spare i = .ok (.insert [], i + 1) := by
    unfold decodeInstr
    rw [hget]
    simp only
    have h0 : (0 : UInt8).toNat = 0 := rfl
    rw [h0, if_neg (by decide), if_pos (by omega)]
    rfl
  refine ⟨hdec, ?_⟩
  rw [replaySteps, if_pos hi, hdec]
  simp only
  rw [execInstr_eq base _ ti tb (by unfold Instr.bounded; simp) h32,
    if_pos ⟨by simpa [Instr.length] using hti, by simpa [Instr.length] using h32, trivial, trivial⟩]
  simp [Instr.length, Instr.output]

/-- The stream `00 01 58` replayed from index 0: the first iteration only moves to
index 1. -/
theorem C8_zero_insert_is_noop_witness :
    decodeInstr [0x00, 0x01, 0x58] [] 0 = .ok (.insert [], 0 + 1) ∧
      replaySteps [0x00, 0x01, 0x58] [] (ascii "abc") (2 + 1) (0, 0, [0]) =
        replaySteps [0x00, 0x01, 0x58] [] (ascii "abc") 2 (0 + 1, 0, [0]) :=
  C8_zero_insert_is_noop [0x00, 0x01, 0x58] [] (ascii "abc") 0 0 [0] 2 (by rfl) (by decide)
    (by norm_num)

set_option maxRecDepth 1000000 in
/-- Claim C8 (counterexample). Base `abc`; the delta `03 01 | 00 | 01 58` has the opcode
`0x00` at the first instruction boundary.  No error is raised: the delta loop hands
the blob `X` to `hashObject`, and where the handle accepts writes the resolution
succeeds and files the blob `X` under its hash. -/
theorem C8_counterexample :
    decodeInstr [3, 1, 0x00, 1, 0x58] [] 2 = .ok (.insert [], 3) ∧
    deltaTarget sampleStore { source := sampleHash, content := [3, 1, 0x00, 1, 0x58], spare := [] } =
      .ok (ascii "blob", 1, [0x58]) ∧
    (resolveDelta .windows sampleStore
      { source := sampleHash, content := [3, 1, 0x00, 1, 0x58], spare := [] }).2 = .ok () ∧
    (resolveDelta .windows sampleStore
      { source := sampleHash, content := [3, 1, 0x00, 1, 0x58], spare := [] }).1
        (objectPath ((hex (sha1 (ascii "blob 1" ++ [0, 0x58]))).take 2)
          ((hex (sha1 (ascii "blob 1" ++ [0, 0x58]))).drop 2)) =
      some (.deflated (ascii "blob 1" ++ [0, 0x58])) := by
  decide

/-- Claim C10. Source size check.  When the source size decoded from the delta header
differs from the payload length of the base object `readObject` returns, the
resolution fails and the store is left as it was -- with `fatal` at the size check,
before any instruction is looked at, or with a panic already at the allocation of the
target buffer when the declared target size cannot be allocated. -/
theorem C10_source_size_check (goos : GOOS) (st : Store) (d : objDelta)
    (sourceSize targetSize i₀ : Nat) (ty : Bytes) (sz : Nat) (base : Bytes)
    (hhdr : readDeltaHeader d.content = .ok (sourceSize, targetSize, i₀))
    (hro : readObject st d.source = .ok (ty, sz, base))
    (hne : sourceSize ≠ base.length) :
    resolveDelta goos st d =
      (st, .error (if targetSize ≤ maxAlloc then Failure.fatal else Failure.panic)) := by
  have hsz := readObject_ok_length _ _ _ _ _ hro
  unfold resolveDelta deltaTarget
  rw [hhdr]
  simp only
  unfold makeslice
  by_cases hm : targetSize ≤ maxAlloc
  · rw [if_pos hm, if_pos hm]
    simp only
    rw [hro]
    simp only
    rw [if_pos (by rw [← hsz]; exact hne)]
  · rw [if_neg hm, if_neg hm]

/-- Base `abc` (3 bytes) and a delta whose header declares source size 4. -/
theorem C10_source_size_check_witness :
    resolveDelta .unix sampleStore
        { source := sampleHash, content := [4, 1, 1, 0x58], spare := [] } =
      (sampleStore, .error .fatal) :=
  C10_source_size_check .unix sampleStore
    { source := sampleHash, content := [4, 1, 1, 0x58], spare := [] } 4 1 2
    (ascii "blob") 3 (ascii "abc") (by rfl) readObject_sample (by decide)

/-! ## The hash contract along a run -/

theorem addsByContract_refl (st : Store) : st.addsByContract st :=
  fun _ _ h => Or.inl h

theorem addsByContract_trans (st₁ st₂ st₃ : Store) (h₁ : st₁.addsByContract st₂)
    (h₂ : st₂.addsByContract st₃) : st₁.addsByContract st₃ := by
  intro q s h
  rcases h₂ q s h with h' | h'
  · exact h₁ q s h'
  · exact Or.inr h'

/-- A call of `hashObject` with the length of the content as its size adds no object file
but one that satisfies the hash contract. -/
theorem hashObject_contract (goos : GOOS) (w : Bool) (ty content : Bytes) (st : Store) :
    st.addsByContract (hashObject goos w ty (content.length : Nat) content st).2 := by
  intro q s h
  rw [hashObject_snd] at h
  split at h
  · rename_i hc
    split at h
    · simp only [Option.some.injEq, ObjFile.deflated.injEq] at h
      subst h
      refine Or.inr ⟨ty, content, ?_, hc.2.1⟩
      rw [objectHeader_natCast]
      simp
    · simp at h
  · exact Or.inl h

theorem putObject_contract (goos : GOOS) (ty content : Bytes) (st : Store) :
    st.addsByContract (putObject goos ty (content.length : Nat) content st).1 := by
  rw [putObject_eq]
  exact hashObject_contract goos true ty content st

theorem storeEntry_contract (goos : GOOS) (objType : Nat) (refHash : Bytes) (informedSize : Nat)
    (produced : Bytes) (st : Store) (saved : List objDelta) :
    st.addsByContract (storeEntry goos objType refHash informedSize produced st saved).1 := by
  unfold storeEntry
  cases hm : makeslice (if informedSize < 1024 then 1024 else informedSize) with
  | error e => exact addsByContract_refl st
  | ok buffer =>
    have hb := (makeslice_ok _ _ hm).1
    subst hb
    have hz := zlibRead_take produced (if informedSize < 1024 then 1024 else informedSize)
    simp only [putObject_then, hz.1]
    rw [hz.2]
    split_ifs
    all_goals first
      | exact addsByContract_refl st
      | exact putObject_contract goos _ _ st

theorem unpackEntry_contract (goos : GOOS) (Z : Zlib) (reader : BufReader) (st : Store)
    (saved : List objDelta) : st.addsByContract (unpackEntry goos Z reader st saved).1 := by
  unfold unpackEntry
  cases readEntryHeader (reader.buf ++ reader.rest) with
  | error e => exact addsByContract_refl st
  | ok v =>
    obtain ⟨objType, informedSize, n, rest⟩ := v
    simp only
    by_cases h6 : objType = OBJ_OFS_DELTA
    · rw [if_pos h6]; exact addsByContract_refl st
    · rw [if_neg h6]
      generalize (if objType = OBJ_REF_DELTA then (reader.skipBytes n).read 20
        else ([], reader.skipBytes n)) = r
      generalize (if objType = OBJ_REF_DELTA then r.1 ++ List.replicate (20 - r.1.length) 0
        else []) = refHash
      generalize (if informedSize < 1024 then 1024 else informedSize) = size
      cases r.2.peek size with
      | error e => exact addsByContract_refl st
      | ok p =>
        obtain ⟨compressedBuffer, rd⟩ := p
        simp only
        cases Z.readOnce compressedBuffer size with
        | none => exact addsByContract_refl st
        | some pc =>
          obtain ⟨produced, consumed⟩ := pc
          simp only
          have hs := storeEntry_contract goos objType refHash size produced st saved
          revert hs
          cases storeEntry goos objType refHash size produced st saved with
          | mk s1 r1 => cases r1 <;> exact fun hs => hs

theorem unpackEntries_contract (goos : GOOS) (Z : Zlib) :
    ∀ (n : Nat) (reader : BufReader) (st : Store) (saved : List objDelta),
      st.addsByContract (unpackEntries goos Z n reader st saved).1 := by
  intro n
  induction n with
  | zero => intro _ st _; exact addsByContract_refl st
  | succ n ih =>
    intro reader st saved
    rw [unpackEntries]
    have hk := unpackEntry_contract goos Z reader st saved
    revert hk
    cases unpackEntry goos Z reader st saved with
    | mk s1 r1 =>
      cases r1 with
      | error e => exact fun hk => hk
      | ok v => exact fun hk => addsByContract_trans _ _ _ hk (ih v.1 s1 v.2)

theorem resolveDelta_contract (goos : GOOS) (st : Store) (d : objDelta) :
    st.addsByContract (resolveDelta goos st d).1 := by
  unfold resolveDelta
  cases ht : deltaTarget st d with
  | error e => exact addsByContract_refl st
  | ok v =>
    obtain ⟨ty, n, buf⟩ := v
    simp only
    rw [← deltaTarget_length st d ty n buf ht]
    exact putObject_contract goos ty buf st

theorem resolveDeltas_contract (goos : GOOS) :
    ∀ (ds : List objDelta) (st : Store), st.addsByContract (resolveDeltas goos ds st).1 := by
  intro ds
  induction ds with
  | nil => intro st; exact addsByContract_refl st
  | cons d ds ih =>
    intro st
    rw [resolveDeltas]
    have hk := resolveDelta_contract goos st d
    revert hk
    cases resolveDelta goos st d with
    | mk s1 r1 =>
      cases r1 with
      | error e => exact fun hk => hk
      | ok u => exact fun hk => addsByContract_trans _ _ _ hk (ih s1)

/-- On every system and whatever the pack and the inflater, every object file in the store
after `unpackObjects` was there before or satisfies the hash contract. -/
theorem unpackObjects_contract (goos : GOOS) (Z : Zlib) (packContent : Bytes) (st : Store) :
    st.addsByContract (unpackObjects goos Z packContent st).1 := by
  unfold unpackObjects
  simp only
  split
  · exact addsByContract_refl st
  · split
    · exact addsByContract_refl st
    · generalize (BufReader.read { buf := [], rest := packContent } 12).2 = reader
      generalize bigEndianBytesToUint _ = n
      have hk := unpackEntries_contract goos Z n reader st []
      revert hk
      cases unpackEntries goos Z n reader st [] with
      | mk s1 r1 =>
        cases r1 with
        | error e => exact fun hk => hk
        | ok saved => exact fun hk => addsByContract_trans _ _ _ hk (resolveDeltas_contract goos saved s1)

/-! ## The object store -/

/-- For an object whose header and payload fit the reader's buffer together, `readObject`
returns the type, the size and the payload. -/
theorem readObject_written_fits (st : Store) (ty content : Bytes)
    (hsp : (0x20 : UInt8) ∉ ty)
    (hfit : (objectHeader ty (content.length : Nat)).length + content.length ≤ bufSize)
    (hH : (objectHeader ty (content.length : Nat)).length < bufSize) :
    readObject
        (st.write
          (objectPath ((hex (sha1 (objectHeader ty (content.length : Nat) ++ content))).take 2)
            ((hex (sha1 (objectHeader ty (content.length : Nat) ++ content))).drop 2))
          (objectHeader ty (content.length : Nat) ++ content))
        (sha1 (objectHeader ty (content.length : Nat) ++ content)) =
      .ok (ty, content.length, content) := by
  rw [readObject_written st ty content hsp hH
    (le_trans (by omega) (show bufSize ≤ maxAlloc by unfold bufSize maxAlloc; norm_num))]
  rw [List.take_of_length_le (by omega), show content.length -
    (bufSize - (objectHeader ty (content.length : Nat)).length) = 0 by omega]
  simp

/-- Claim C2 (failing input). The object directory holds the blob of a payload of 4090
bytes `a`, in the file at the path of its hash.  On every system
`hashObject(true, "blob", 4090, payload)` finds that file, returns the hash and
leaves the directory as it is.  Then `readObject` of the hash returned: the header
`blob 4090\0` takes 10 of the 4096 bytes the reader buffers, the single `Read`
delivers the first 4086 payload bytes, and the content returned ends in four zero
bytes instead of the last four bytes of the payload.  The path `readObject` derives
from the hash bytes is the path `hashObject` looked at. -/
theorem C2_large_payload_truncated :
    (∀ goos : GOOS,
      hashObject goos true (ascii "blob") ((List.replicate 4090 (0x61 : UInt8)).length : Nat)
          (List.replicate 4090 0x61) (storeOf (ascii "blob") (List.replicate 4090 0x61)) =
        (.ok (objectHash (ascii "blob") (List.replicate 4090 0x61)),
          storeOf (ascii "blob") (List.replicate 4090 0x61))) ∧
    readObject (storeOf (ascii "blob") (List.replicate 4090 0x61))
        (objectHash (ascii "blob") (List.replicate 4090 0x61)) =
      .ok (ascii "blob", 4090, List.replicate 4086 0x61 ++ List.replicate 4 0) ∧
    List.replicate 4086 (0x61 : UInt8) ++ List.replicate 4 0 ≠ List.replicate 4090 0x61 ∧
    objectPath
        (hex ((objectHash (ascii "blob") (List.replicate 4090 0x61)).take 1))
        (hex ((objectHash (ascii "blob") (List.replicate 4090 0x61)).drop 1)) =
      objectPath
        ((hex (objectHash (ascii "blob") (List.replicate 4090 0x61))).take 2)
        ((hex (objectHash (ascii "blob") (List.replicate 4090 0x61))).drop 2) := by
  have hlen : (List.replicate 4090 (0x61 : UInt8)).length = 4090 := List.length_replicate _ _
  have hhl : (objectHeader (ascii "blob")
      ((List.replicate 4090 (0x61 : UInt8)).length : Nat)).length = 10 := by
    rw [hlen]; decide
  refine ⟨?_, ?_, ?_, ?_⟩
  · intro goos
    unfold storeOf objectHash
    rw [hashObject_exists]
    unfold Store.write
    rw [if_pos rfl]
    rfl
  · unfold storeOf objectHash
    rw [readObject_written emptyStore (ascii "blob") (List.replicate 4090 0x61)
      (by decide) (by rw [hhl]; decide) (by rw [hlen]; unfold maxAlloc; norm_num)]
    rw [hhl, hlen, List.take_replicate]
    rfl
  · intro h
    have h1 : (List.replicate 4086 (0x61 : UInt8) ++ List.replicate 4 0)[4089]? = some 0 := by
      rw [List.getElem?_append_right (by rw [List.length_replicate]; norm_num),
        List.length_replicate, List.getElem?_replicate]
      rfl
    have h2 : (List.replicate 4090 (0x61 : UInt8))[4089]? = some 0x61 := by
      rw [List.getElem?_replicate]
      rfl
    rw [h, h2] at h1
    exact absurd h1 (by decide)
  · have hne : objectHash (ascii "blob") (List.replicate 4090 0x61) ≠ [] := by
      unfold objectHash; exact sha1_ne_nil _
    rw [(hex_take_drop _ hne).1, (hex_take_drop _ hne).2]

set_option maxRecDepth 1000000 in
theorem sha1_empty_blob :
    hex (sha1 (objectHeader (ascii "blob") 0 ++ [])) =
      "e69de29bb2d1d6434b8b29ae775ad8c2e48c5391".data := by
  decide

/-- Claim C3. The hash contract.  Whenever `hashObject` returns, it returns the SHA-1 of
`"<type> <size>\0"` followed by the content; it returns unless it is to write, no
file exists at the path of that hash and the handle of the file it creates refuses
writes.  The only file it can create is the one at the path of that hash: it holds
those bytes, or, when the write was refused and the program has ended, no bytes.  So
every object file in the store after the call was there before the call, or holds
the header and the content the call was given and lies at the path of the SHA-1 of
what it holds.  Each caller passes the length of the content as the size:
`hashFile`, `writeTree`, `commit-tree`, the four direct entry types of a pack
(whatever the declared size, as long as the inflate buffer can be allocated) and a
resolved delta.  So, on every system and whatever the pack and the inflater, every
object file in the store after `unpackObjects` was there before, or holds
`"<type> <len(payload)>\0"` followed by the payload, for some type and payload, and
lies at the path of the SHA-1 of those bytes.  The empty blob hashes to
`e69de29bb2d1d6434b8b29ae775ad8c2e48c5391`. -/
theorem C3_hash_contract :
    (∀ (goos : GOOS) (w : Bool) (ty : Bytes) (n : Int) (content : Bytes) (st : Store),
      (hashObject goos w ty n content st).1 =
        (if w = true ∧
            st (objectPath ((hex (sha1 (ty ++ [0x20] ++ fmtInt n ++ [0] ++ content))).take 2)
              ((hex (sha1 (ty ++ [0x20] ++ fmtInt n ++ [0] ++ content))).drop 2)) = none ∧
            createOnlyWritable goos = false
          then .error .fatal
          else .ok (sha1 (ty ++ [0x20] ++ fmtInt n ++ [0] ++ content))) ∧
      (∀ q, (hashObject goos w ty n content st).2 q ≠ st q →
        q = objectPath ((hex (sha1 (ty ++ [0x20] ++ fmtInt n ++ [0] ++ content))).take 2)
              ((hex (sha1 (ty ++ [0x20] ++ fmtInt n ++ [0] ++ content))).drop 2) ∧
        ((hashObject goos w ty n content st).2 q =
            some (.deflated (ty ++ [0x20] ++ fmtInt n ++ [0] ++ content)) ∨
          ((hashObject goos w ty n content st).2 q = some .empty ∧
            (hashObject goos w ty n content st).1 = .error .fatal))) ∧
      (∀ q s, (hashObject goos w ty n content st).2 q = some (.deflated s) →
        st q = some (.deflated s) ∨
          (s = ty ++ [0x20] ++ fmtInt n ++ [0] ++ content ∧
            q = objectPath ((hex (sha1 s)).take 2) ((hex (sha1 s)).drop 2)))) ∧
    (∀ (goos : GOOS) (w : Bool) (data : Bytes) (st : Store),
      hashFile goos w data st = hashObject goos w (ascii "blob") (data.length : Nat) data st) ∧
    (∀ (goos : GOOS) (entries : List treeEntry) (st : Store), ∃ payload,
      writeTree goos entries st =
        hashObject goos true (ascii "tree") (payload.length : Nat) payload st) ∧
    (∀ (goos : GOOS) (treeHash parentHash username email : Bytes) (timestamp timezone : Int)
        (message : Bytes) (st : Store), ∃ payload,
      commitTree goos treeHash parentHash username email timestamp timezone message st =
        hashObject goos true (ascii "commit") (payload.length : Nat) payload st) ∧
    (∀ (goos : GOOS) (refHash : Bytes) (informedSize : Nat) (produced : Bytes) (st : Store)
        (saved : List objDelta),
      (if informedSize < 1024 then 1024 else informedSize) ≤ maxAlloc →
      ∃ payload,
        storeEntry goos OBJ_BLOB refHash informedSize produced st saved =
          ((hashObject goos true (ascii "blob") (payload.length : Nat) payload st).2,
            (hashObject goos true (ascii "blob") (payload.length : Nat) payload st).1.map
              (fun _ => saved)) ∧
        storeEntry goos OBJ_TREE refHash informedSize produced st saved =
          ((hashObject goos true (ascii "tree") (payload.length : Nat) payload st).2,
            (hashObject goos true (ascii "tree") (payload.length : Nat) payload st).1.map
              (fun _ => saved)) ∧
        storeEntry goos OBJ_COMMIT refHash informedSize produced st saved =
          ((hashObject goos true (ascii "commit") (payload.length : Nat) payload st).2,
            (hashObject goos true (ascii "commit") (payload.length : Nat) payload st).1.map
              (fun _ => saved)) ∧
        storeEntry goos OBJ_TAG refHash informedSize produced st saved =
          ((hashObject goos true (ascii "tag") (payload.length : Nat) payload st).2,
            (hashObject goos true (ascii "tag") (payload.length : Nat) payload st).1.map
              (fun _ => saved))) ∧
    (∀ (goos : GOOS) (st : Store) (d : objDelta) (ty : Bytes) (n : Nat) (buf : Bytes),
      deltaTarget st d = .ok (ty, n, buf) →
      resolveDelta goos st d =
        ((hashObject goos true ty (buf.length : Nat) buf st).2,
          (hashObject goos true ty (buf.length : Nat) buf st).1.map (fun _ => ()))) ∧
    (∀ (goos : GOOS) (Z : Zlib) (packContent : Bytes) (st : Store) (q : List Char) (s : Bytes),
      (unpackObjects goos Z packContent st).1 q = some (.deflated s) →
      st q = some (.deflated s) ∨
        ∃ ty payload : Bytes, s = ty ++ [0x20] ++ decimal payload.length ++ [0] ++ payload ∧
          q = objectPath ((hex (sha1 s)).take 2) ((hex (sha1 s)).drop 2)) ∧
    (∀ (goos : GOOS) (st : Store),
      (hashObject goos false (ascii "blob") 0 [] st).1.map hex =
        .ok "e69de29bb2d1d6434b8b29ae775ad8c2e48c5391".data) := by
  have hhdr : ∀ (ty : Bytes) (n : Int) (content : Bytes),
      ty ++ [0x20] ++ fmtInt n ++ [0] ++ content = objectHeader ty n ++ content := by
    intro ty n content
    rfl
  refine ⟨?_, ?_, ?_, ?_, ?_, ?_, ?_, ?_⟩
  · intro goos w ty n content st
    rw [hhdr]
    have h1 := hashObject_fst goos w ty n content st
    refine ⟨h1, fun q hq => ?_, fun q s hs => ?_⟩
    · rw [hashObject_snd] at hq ⊢
      by_cases hc : w = true ∧ q = objectPath
          ((hex (sha1 (objectHeader ty n ++ content))).take 2)
          ((hex (sha1 (objectHeader ty n ++ content))).drop 2) ∧ st q = none
      · rw [if_pos hc]
        refine ⟨hc.2.1, ?_⟩
        cases hw : createOnlyWritable goos with
        | true => exact Or.inl (by simp)
        | false =>
          refine Or.inr ⟨by simp, ?_⟩
          rw [h1, if_pos ⟨hc.1, by rw [← hc.2.1]; exact hc.2.2, hw⟩]
      · rw [if_neg hc] at hq
        exact absurd rfl hq
    · rw [hashObject_snd] at hs
      by_cases hc : w = true ∧ q = objectPath
          ((hex (sha1 (objectHeader ty n ++ content))).take 2)
          ((hex (sha1 (objectHeader ty n ++ content))).drop 2) ∧ st q = none
      · rw [if_pos hc] at hs
        cases hw : createOnlyWritable goos with
        | true =>
          rw [hw] at hs
          simp only [↓reduceIte, Option.some.injEq, ObjFile.deflated.injEq] at hs
          subst hs
          exact Or.inr ⟨rfl, hc.2.1⟩
        | false =>
          rw [hw] at hs
          simp at hs
      · rw [if_neg hc] at hs
        exact Or.inl hs
  · intro goos w data st
    rfl
  · intro goos entries st
    exact ⟨_, rfl⟩
  · intro goos treeHash parentHash username email timestamp timezone message st
    exact ⟨_, rfl⟩
  · intro goos refHash informedSize produced st saved hB
    have hz := zlibRead_take produced (if informedSize < 1024 then 1024 else informedSize)
    refine ⟨produced.take (if informedSize < 1024 then 1024 else informedSize), ?_, ?_, ?_, ?_⟩ <;>
    · unfold storeEntry makeslice
      rw [if_pos hB]
      simp only [hz.1]
      simp only [hz.2, OBJ_BLOB, OBJ_TREE, OBJ_COMMIT, OBJ_TAG, ↓reduceIte, Nat.reduceEqDiff]
      rw [putObject_eq]
      cases (hashObject goos true _ _ _ st).1 <;> rfl
  · intro goos st d ty n buf h
    unfold resolveDelta
    rw [h, deltaTarget_length st d ty n buf h]
    exact putObject_eq _ _ _ _ _
  · intro goos Z packContent st q s h
    exact unpackObjects_contract goos Z packContent st q s h
  · intro goos st
    rw [hashObject_fst, if_neg (by simp)]
    exact congrArg Except.ok sha1_empty_blob

/-- The delta of C1's example is handed to `hashObject` with the length of the target as
its size; the object directory holds only the blob `abc`, so on a Unix system the
call ends the program. -/
theorem C3_hash_contract_witness :
    resolveDelta .unix sampleStore
        { source := sampleHash,
          content := [3, 5, 0x91, 1, 2, 2, 0x58, 0x59, 0x90, 1], spare := [] } =
      ((hashObject .unix true (ascii "blob") ((ascii "bcXYa").length : Nat) (ascii "bcXYa")
          sampleStore).2,
        (hashObject .unix true (ascii "blob") ((ascii "bcXYa").length : Nat) (ascii "bcXYa")
          sampleStore).1.map (fun _ => ())) :=
  C3_hash_contract.2.2.2.2.2.1 .unix sampleStore
    { source := sampleHash, content := [3, 5, 0x91, 1, 2, 2, 0x58, 0x59, 0x90, 1], spare := [] }
    (ascii "blob") 5 (ascii "bcXYa")
    (by
      have h := deltaTarget_of_decode sampleStore
        { source := sampleHash, content := [3, 5, 0x91, 1, 2, 2, 0x58, 0x59, 0x90, 1],
          spare := [] }
        (ascii "blob") (ascii "abc") 5 2 [.copy 1 2, .insert [0x58, 0x59], .copy 0 1] 10
        readObject_sample (by rfl) (by rfl) (by decide) (by decide) (by norm_num)
      exact h)

/-! ## Trees: sorting and serialisation -/

theorem bytesLe_iff (a : Bytes) : ∀ b : Bytes, bytesLe a b = true ↔ byteOrderLe a b := by
  induction a with
  | nil => intro b; simp [bytesLe, byteOrderLe]
  | cons x a ih =>
    intro b
    cases b with
    | nil =>
      simp only [bytesLe, byteOrderLe, Bool.false_eq_true, false_iff, not_or]
      refine ⟨by simp, ?_⟩
      rintro ⟨p, x', y, s, t, -, h, -⟩
      simp at h
    | cons y b =>
      simp only [bytesLe, Bool.or_eq_true, decide_eq_true_eq, Bool.and_eq_true, beq_iff_eq, ih b]
      constructor
      · rintro (h | ⟨rfl, h⟩)
        · exact Or.inr ⟨[], x, y, a, b, rfl, rfl, h⟩
        · rcases h with h | ⟨p, x', y', s, t, rfl, rfl, h⟩
          · exact Or.inl (by simpa [List.cons_prefix_cons] using h)
          · exact Or.inr ⟨x :: p, x', y', s, t, rfl, rfl, h⟩
      · rintro (h | ⟨p, x', y', s, t, h1, h2, h⟩)
        · rw [List.cons_prefix_cons] at h
          exact Or.inr ⟨h.1, Or.inl h.2⟩
        · cases p with
          | nil =>
            simp only [List.nil_append, List.cons.injEq] at h1 h2
            rw [h1.1, h2.1]
            exact Or.inl h
          | cons z p =>
            simp only [List.cons_append, List.cons.injEq] at h1 h2
            refine Or.inr ⟨h1.1.trans h2.1.symm, Or.inr ⟨p, x', y', s, t, h1.2, h2.2, h⟩⟩

theorem bytesLe_total (a : Bytes) : ∀ b : Bytes, bytesLe a b = true ∨ bytesLe b a = true := by
  induction a with
  | nil => intro b; simp [bytesLe]
  | cons x a ih =>
    intro b
    cases b with
    | nil => simp [bytesLe]
    | cons y b =>
      simp only [bytesLe, Bool.or_eq_true, decide_eq_true_eq, Bool.and_eq_true, beq_iff_eq]
      rcases Nat.lt_trichotomy x.toNat y.toNat with h | h | h
      · exact Or.inl (Or.inl h)
      · have hxy : x = y := UInt8.ext h
        rcases ih b with h' | h'
        · exact Or.inl (Or.inr ⟨hxy, h'⟩)
        · exact Or.inr (Or.inr ⟨hxy.symm, h'⟩)
      · exact Or.inr (Or.inl h)

theorem bytesLe_trans (a : Bytes) :
    ∀ b c : Bytes, bytesLe a b = true → bytesLe b c = true → bytesLe a c = true := by
  induction a with
  | nil => intro b c _ _; simp [bytesLe]
  | cons x a ih =>
    intro b c hab hbc
    cases b with
    | nil => simp [bytesLe] at hab
    | cons y b =>
      cases c with
      | nil => simp [bytesLe] at hbc
      | cons z c =>
        simp only [bytesLe, Bool.or_eq_true, decide_eq_true_eq, Bool.and_eq_true,
          beq_iff_eq] at hab hbc ⊢
        rcases hab with h1 | ⟨rfl, h1⟩
        · rcases hbc with h2 | ⟨rfl, _⟩
          · exact Or.inl (lt_trans h1 h2)
          · exact Or.inl h1
        · rcases hbc with h2 | ⟨rfl, h2⟩
          · exact Or.inl h2
          · exact Or.inr ⟨rfl, ih b c h1 h2⟩

theorem bytesLe_antisymm (a : Bytes) :
    ∀ b : Bytes, bytesLe a b = true → bytesLe b a = true → a = b := by
  induction a with
  | nil =>
    intro b _ hba
    cases b with
    | nil => rfl
    | cons y b => simp [bytesLe] at hba
  | cons x a ih =>
    intro b hab hba
    cases b with
    | nil => simp [bytesLe] at hab
    | cons y b =>
      simp only [bytesLe, Bool.or_eq_true, decide_eq_true_eq, Bool.and_eq_true,
        beq_iff_eq] at hab hba
      rcases hab with h1 | ⟨rfl, h1⟩
      · rcases hba with h2 | ⟨rfl, _⟩
        · omega
        · omega
      · rcases hba with h2 | ⟨_, h2⟩
        · omega
        · rw [ih b h1 h2]

theorem treeContent_eq_records (l : List treeEntry) :
    treeContent l = (l.map treeRecord).flatten := by
  induction l with
  | nil => rfl
  | cons e es ih =>
    simp only [treeContent, List.map_cons, List.flatten_cons, ih, treeRecord]
    simp [ascii]

theorem sorted_insertionSort_names (l : List treeEntry) :
    (l.insertionSort (fun a b => bytesLe a.name b.name = true)).Pairwise
      (fun a b => bytesLe a.name b.name = true) := by
  haveI : IsTotal treeEntry (fun a b => bytesLe a.name b.name = true) :=
    ⟨fun a b => bytesLe_total a.name b.name⟩
  haveI : IsTrans treeEntry (fun a b => bytesLe a.name b.name = true) :=
    ⟨fun a b c => bytesLe_trans a.name b.name c.name⟩
  exact List.sorted_insertionSort _ l

/-- A list of entries with pairwise distinct names has one arrangement in ascending
order of name only: whatever sorting algorithm `slices.SortFunc` runs, it returns
the list that insertion sort returns. -/
theorem sorted_perm_unique (l s : List treeEntry) (hn : (l.map treeEntry.name).Nodup)
    (hp : s.Perm l) (hs : s.Pairwise (fun a b => bytesLe a.name b.name = true)) :
    s = l.insertionSort (fun a b => bytesLe a.name b.name = true) := by
  haveI : IsAntisymm treeEntry
      (fun a b => bytesLe a.name b.name = true ∧ a.name ≠ b.name) :=
    ⟨fun a b h1 h2 => absurd (bytesLe_antisymm _ _ h1.1 h2.1) h1.2⟩
  have hd : ∀ t : List treeEntry, t.Perm l → t.Pairwise (fun a b => a.name ≠ b.name) := by
    intro t ht
    have h1 : (t.map treeEntry.name).Nodup := (ht.map treeEntry.name).nodup_iff.mpr hn
    exact (List.pairwise_map.mp h1)
  have hp2 := List.perm_insertionSort (fun a b => bytesLe a.name b.name = true) l
  exact List.eq_of_perm_of_sorted (hp.trans hp2.symm) (hs.and (hd s hp))
    ((sorted_insertionSort_names l).and (hd _ hp2))

/-- Claim C14. The tree payload `writeTree` hands to `hashObject` is the concatenation of
the records `mode ++ " " ++ name ++ "\0" ++ hash` of a rearrangement of the collected
entries (every entry exactly once) in which names ascend in byte order. -/
theorem C14_tree_sorted (goos : GOOS) (treeEntries : List treeEntry) (st : Store) :
    ∃ sorted : List treeEntry,
      sorted.Perm treeEntries ∧
      sorted.Pairwise (fun a b => byteOrderLe a.name b.name) ∧
      writeTree goos treeEntries st =
        hashObject goos true (ascii "tree") (((sorted.map treeRecord).flatten.length : Nat) : Int)
          (sorted.map treeRecord).flatten st := by
  refine ⟨treeEntries.insertionSort (fun a b => bytesLe a.name b.name = true),
    List.perm_insertionSort _ _, ?_, ?_⟩
  · exact (sorted_insertionSort_names treeEntries).imp (fun h => (bytesLe_iff _ _).mp h)
  · unfold writeTree
    simp only [treeContent_eq_records]

/-- Claim C15. Two entry lists that are rearrangements of each other and have pairwise
distinct names are sorted into the same list, so `writeTree` serialises the same
payload and ends in the same way: it returns the same hash, or ends the program
alike, and leaves the same store. -/
theorem C15_tree_order_independent (goos : GOOS) (l₁ l₂ : List treeEntry) (st : Store)
    (hp : l₁.Perm l₂) (hn : (l₁.map treeEntry.name).Nodup) :
    treeContent (l₁.insertionSort (fun a b => bytesLe a.name b.name = true)) =
      treeContent (l₂.insertionSort (fun a b => bytesLe a.name b.name = true)) ∧
    writeTree goos l₁ st = writeTree goos l₂ st := by
  have h : l₂.insertionSort (fun a b => bytesLe a.name b.name = true) =
      l₁.insertionSort (fun a b => bytesLe a.name b.name = true) :=
    sorted_perm_unique l₁ _ hn ((List.perm_insertionSort _ l₂).trans hp.symm)
      (sorted_insertionSort_names l₂)
  unfold writeTree
  simp only [h, and_self]

theorem C15_tree_order_independent_witness :
    writeTree .unix
        [{ name := ascii "b", mode := ascii "100644", hash := List.replicate 20 1 },
         { name := ascii "a", mode := ascii "40000", hash := List.replicate 20 2 }] emptyStore =
      writeTree .unix
        [{ name := ascii "a", mode := ascii "40000", hash := List.replicate 20 2 },
         { name := ascii "b", mode := ascii "100644", hash := List.replicate 20 1 }] emptyStore :=
  (C15_tree_order_independent .unix _ _ emptyStore (List.Perm.swap _ _ _) (by decide)).2

/-! ## `hashObject` called twice -/

set_option maxRecDepth 1000000 in
/-- The hashes written out in the sample packs are the SHA-1 of the objects. -/
theorem sample_hashes :
    sampleHash = hashAbc ∧
    objectHash (ascii "blob") (ascii "bcXYa") = hashBcXYa ∧
    objectHash (ascii "blob") (ascii "bcXYa!") = hashBcXYaBang ∧
    objectHash (ascii "tree") bigTree = bigTreeHash := by
  decide

/-- The SHA-1 that `hashObject` computes for the blob `abc`. -/
theorem sha1_abc : sha1 (objectHeader (ascii "blob") 3 ++ ascii "abc") = hashAbc :=
  sample_hashes.1

set_option maxRecDepth 100000 in
/-- The path of the object file of the blob `abc`. -/
theorem path_abc :
    objectPath ((hex hashAbc).take 2) ((hex hashAbc).drop 2) =
      ".git/objects/f2/ba8f84ab5c1bce84a7b441cb1959cfc7093b7f".data := by
  decide

/-- On every system `hashObject(false, ...)` returns the hash and leaves the store as it
is. -/
theorem hashObject_false (goos : GOOS) (ty : Bytes) (n : Int) (content : Bytes) (st : Store) :
    hashObject goos false ty n content st = (.ok (sha1 (objectHeader ty n ++ content)), st) := by
  unfold hashObject
  simp

/-- On every system a second identical call of `hashObject(true, ...)` leaves the store as
the first call left it, and returns the hash. -/
theorem hashObject_twice (goos : GOOS) (ty : Bytes) (n : Int) (content : Bytes) (st : Store) :
    hashObject goos true ty n content (hashObject goos true ty n content st).2 =
      (.ok (sha1 (objectHeader ty n ++ content)), (hashObject goos true ty n content st).2) := by
  apply hashObject_exists
  rw [hashObject_snd]
  by_cases hst : st (objectPath ((hex (sha1 (objectHeader ty n ++ content))).take 2)
      ((hex (sha1 (objectHeader ty n ++ content))).drop 2)) = none
  · rw [if_pos ⟨rfl, rfl, hst⟩]
    split <;> rfl
  · rw [if_neg (fun hh => hst hh.2.2)]
    cases hs : st (objectPath ((hex (sha1 (objectHeader ty n ++ content))).take 2)
        ((hex (sha1 (objectHeader ty n ++ content))).drop 2)) with
    | none => exact absurd hs hst
    | some f => rfl

/-- Claim C16 (failing input). A Unix system and an object directory with no file at the
path of the hash of the blob `abc`.  `hashObject(false, "blob", 3, "abc")` returns the
hash `f2ba8f84...`.  `hashObject(true, "blob", 3, "abc")` does not return it: the
handle of the file it creates refuses the write, the call ends the program and an
empty file stays at the path.  A second identical call finds that file, returns the
hash and leaves the directory as it is; `readObject` of the hash it returned ends
the program, for no object has been stored.  On Windows the first call writes the
object file and returns the hash, and `readObject` returns the blob. -/
theorem C16_put_on_fresh_path :
    hashObject .unix false (ascii "blob") 3 (ascii "abc") emptyStore = (.ok hashAbc, emptyStore) ∧
    hashObject .unix true (ascii "blob") 3 (ascii "abc") emptyStore =
      (.error .fatal,
        emptyStore.create ".git/objects/f2/ba8f84ab5c1bce84a7b441cb1959cfc7093b7f".data) ∧
    hashObject .unix true (ascii "blob") 3 (ascii "abc")
        (emptyStore.create ".git/objects/f2/ba8f84ab5c1bce84a7b441cb1959cfc7093b7f".data) =
      (.ok hashAbc,
        emptyStore.create ".git/objects/f2/ba8f84ab5c1bce84a7b441cb1959cfc7093b7f".data) ∧
    readObject (emptyStore.create ".git/objects/f2/ba8f84ab5c1bce84a7b441cb1959cfc7093b7f".data)
        hashAbc = .error .fatal ∧
    hashObject .windows true (ascii "blob") 3 (ascii "abc") emptyStore =
      (.ok hashAbc, sampleStore) ∧
    readObject sampleStore hashAbc = .ok (ascii "blob", 3, ascii "abc") := by
  refine ⟨?_, ?_, ?_, ?_, ?_, ?_⟩
  · rw [hashObject_false, sha1_abc]
  · rw [hashObject_refused _ _ _ _ _ (by rfl) (by rfl), sha1_abc, path_abc]
  · rw [hashObject_exists, sha1_abc]
    rw [sha1_abc, path_abc]
    unfold Store.create
    rw [if_pos rfl]
    rfl
  · decide
  · rw [hashObject_written _ _ _ _ _ (by rfl) (by rfl)]
    exact Prod.ext (congrArg Except.ok sha1_abc) rfl
  · rw [← sample_hashes.1]
    exact readObject_sample

/-! ## `ReadString` on an arbitrary reader -/

theorem indexByte_eq_none (delim : UInt8) (l : Bytes) (h : delim ∉ l) :
    indexByte delim l = none := by
  induction l with
  | nil => rfl
  | cons x l ih =>
    have hx : x ≠ delim := fun e => h (by simp [e])
    have hl : delim ∉ l := fun e => h (by simp [e])
    simp [indexByte, hx, ih hl]

theorem indexByte_eq_some (delim : UInt8) (l : Bytes) :
    ∀ k, indexByte delim l = some k →
      ∃ u v, l = u ++ delim :: v ∧ delim ∉ u ∧ u.length = k := by
  induction l with
  | nil => intro k h; simp [indexByte] at h
  | cons x l ih =>
    intro k h
    by_cases hx : x = delim
    · subst hx
      simp only [indexByte, if_true, Option.some.injEq] at h
      exact ⟨[], l, rfl, by simp, by simpa using h⟩
    · simp only [indexByte, if_neg hx, Option.map_eq_some'] at h
      obtain ⟨j, hj, rfl⟩ := h
      obtain ⟨u, v, rfl, hu, rfl⟩ := ih j hj
      refine ⟨x :: u, v, rfl, ?_, rfl⟩
      simp only [List.mem_cons, not_or]
      exact ⟨fun e => hx e.symm, hu⟩

theorem indexByte_none_notMem (delim : UInt8) (l : Bytes) (h : indexByte delim l = none) :
    delim ∉ l := by
  induction l with
  | nil => simp
  | cons x l ih =>
    by_cases hx : x = delim
    · simp [indexByte, hx] at h
    · simp only [indexByte, if_neg hx, Option.map_eq_none'] at h
      simp only [List.mem_cons, not_or]
      exact ⟨fun e => hx e.symm, ih h⟩

/-- The first occurrence of a byte splits a list in one way only. -/
theorem first_split_unique (d : UInt8) :
    ∀ (u x v y : Bytes), d ∉ u → d ∉ x → u ++ d :: v = x ++ d :: y → u = x ∧ v = y := by
  intro u
  induction u with
  | nil =>
    intro x v y _ hx h
    cases x with
    | nil => simpa using h
    | cons a x =>
      simp only [List.nil_append, List.cons_append, List.cons.injEq] at h
      exact absurd (by simp [h.1]) hx
  | cons a u ih =>
    intro x v y hu hx h
    cases x with
    | nil =>
      simp only [List.nil_append, List.cons_append, List.cons.injEq] at h
      exact absurd (by simp [h.1]) hu
    | cons b x =>
      simp only [List.cons_append, List.cons.injEq] at h
      have hu' : d ∉ u := fun e => hu (by simp [e])
      have hx' : d ∉ x := fun e => hx (by simp [e])
      obtain ⟨h1, h2⟩ := ih x v y hu' hx' h.2
      exact ⟨by rw [h.1, h1], h2⟩

/-- A prefix free of the byte `d` lies before the first `d`. -/
theorem prefix_before_first (d : UInt8) :
    ∀ (u r x y : Bytes), d ∉ u → u ++ r = x ++ d :: y → ∃ x', x = u ++ x' ∧ r = x' ++ d :: y := by
  intro u
  induction u with
  | nil => intro r x y _ h; exact ⟨x, rfl, by simpa using h⟩
  | cons a u ih =>
    intro r x y hu h
    cases x with
    | nil =>
      simp only [List.nil_append, List.cons_append, List.cons.injEq] at h
      exact absurd (by simp [h.1]) hu
    | cons b x =>
      simp only [List.cons_append, List.cons.injEq] at h
      have hu' : d ∉ u := fun e => hu (by simp [e])
      obtain ⟨x', h1, h2⟩ := ih r x y hu' h.2
      exact ⟨x', by rw [h.1, h1]; rfl, h2⟩

theorem fill_append (b : BufReader) : b.fill.buf ++ b.fill.rest = b.buf ++ b.rest := by
  unfold BufReader.fill
  simp [List.append_assoc]

theorem fill_rest_length (b : BufReader) (hr : b.rest ≠ []) (hb : b.buf.length < bufSize) :
    b.fill.rest.length < b.rest.length := by
  unfold BufReader.fill
  simp only [List.length_drop]
  have : 0 < b.rest.length := List.length_pos.mpr hr
  omega

/-- Go `ReadString` when the delimiter is nowhere in what the reader still holds: it
returns everything, reports end of input, and leaves the reader empty. -/
theorem readStringLoop_notFound (delim : UInt8) :
    ∀ (fuel : Nat) (b : BufReader) (acc : Bytes), delim ∉ b.buf ++ b.rest →
      2 * b.rest.length + (if bufSize ≤ b.buf.length then 1 else 0) < fuel →
      BufReader.readStringLoop delim fuel b acc =
        (acc ++ (b.buf ++ b.rest), false, { buf := [], rest := [] }) := by
  intro fuel
  induction fuel with
  | zero => intro b acc _ h; omega
  | succ fuel ih =>
    intro b acc hd hf
    have hbuf : delim ∉ b.buf := fun e => hd (List.mem_append_left _ e)
    unfold BufReader.readStringLoop
    rw [indexByte_eq_none delim b.buf hbuf]
    simp only
    by_cases hr : b.rest = []
    · rw [if_pos hr, hr]
      simp
    · rw [if_neg hr]
      by_cases hfull : bufSize ≤ b.buf.length
      · rw [if_pos hfull, ih { b with buf := [] } (acc ++ b.buf)
          (fun e => hd (List.mem_append_right _ (by simpa using e)))
          (by rw [if_pos hfull] at hf; simp [bufSize]; omega)]
        simp
      · rw [if_neg hfull, ih b.fill acc (by rw [fill_append]; exact hd)
          (by
            have := fill_rest_length b hr (by omega)
            rw [if_neg hfull] at hf
            split <;> omega)]
        rw [fill_append]

/-- Go `ReadString` when the delimiter is in what the reader still holds: it returns the
bytes up to and including the first delimiter, and the reader holds what follows. -/
theorem readStringLoop_found (delim : UInt8) :
    ∀ (fuel : Nat) (b : BufReader) (acc x y : Bytes), delim ∉ x →
      b.buf ++ b.rest = x ++ delim :: y →
      2 * b.rest.length + (if bufSize ≤ b.buf.length then 1 else 0) < fuel →
      ∃ r : BufReader, BufReader.readStringLoop delim fuel b acc = (acc ++ x ++ [delim], true, r) ∧
        r.buf ++ r.rest = y := by
  intro fuel
  induction fuel with
  | zero => intro b acc x y _ _ h; omega
  | succ fuel ih =>
    intro b acc x y hx hsplit hf
    unfold BufReader.readStringLoop
    cases hi : indexByte delim b.buf with
    | some k =>
      obtain ⟨u, v, hb, hu, rfl⟩ := indexByte_eq_some delim b.buf k hi
      have h2 : u ++ delim :: (v ++ b.rest) = x ++ delim :: y := by
        rw [← hsplit, hb]; simp
      obtain ⟨rfl, hy⟩ := first_split_unique delim u x _ y hu hx h2
      refine ⟨{ b with buf := b.buf.drop (u.length + 1) }, ?_, ?_⟩
      · simp only
        rw [hb, show u ++ delim :: v = (u ++ [delim]) ++ v by simp,
          show u.length + 1 = (u ++ [delim]).length by simp, List.take_left]
        simp
      · simp only
        rw [hb, show u ++ delim :: v = (u ++ [delim]) ++ v by simp,
          show u.length + 1 = (u ++ [delim]).length by simp, List.drop_left]
        exact hy
    | none =>
      have hbuf := indexByte_none_notMem delim b.buf hi
      obtain ⟨x', hx', hrest⟩ := prefix_before_first delim b.buf b.rest x y hbuf hsplit
      have hr : b.rest ≠ [] := by rw [hrest]; simp
      simp only [if_neg hr]
      by_cases hfull : bufSize ≤ b.buf.length
      · rw [if_pos hfull]
        obtain ⟨r, h1, h2⟩ := ih { b with buf := [] } (acc ++ b.buf) x' y
          (fun e => hx (by rw [hx']; exact List.mem_append_right _ e))
          (by simpa using hrest)
          (by rw [if_pos hfull] at hf; simp [bufSize]; omega)
        exact ⟨r, by rw [h1, hx']; simp, h2⟩
      · rw [if_neg hfull]
        exact ih b.fill acc x y hx (by rw [fill_append]; exact hsplit)
          (by
            have := fill_rest_length b hr (by omega)
            rw [if_neg hfull] at hf
            split <;> omega)

theorem readString_notFound (b : BufReader) (delim : UInt8) (h : delim ∉ b.buf ++ b.rest) :
    b.readString delim = (b.buf ++ b.rest, false, { buf := [], rest := [] }) := by
  unfold BufReader.readString
  rw [readStringLoop_notFound delim _ b [] h (by split <;> omega)]
  simp

theorem readString_found (b : BufReader) (delim : UInt8) (x y : Bytes) (hx : delim ∉ x)
    (h : b.buf ++ b.rest = x ++ delim :: y) :
    ∃ r : BufReader, b.readString delim = (x ++ [delim], true, r) ∧ r.buf ++ r.rest = y := by
  unfold BufReader.readString
  obtain ⟨r, h1, h2⟩ := readStringLoop_found delim (2 * b.rest.length + 2) b [] x y hx h
    (by split <;> omega)
  exact ⟨r, by simpa using h1, h2⟩

/-! ## What `readObject` checks -/

/-- An object file with both header delimiters is returned as an object whenever its
size field parses to a size that can be allocated: the digits of the size are not
checked (a syntax error of `ParseUint` is dropped and reads as size 0) and the length
of what follows the header is not compared with the size. -/
theorem readObject_of_delimiters (st : Store) (hash ty s payload : Bytes) (hne : hash ≠ [])
    (hst : st (objectPath (hex (hash.take 1)) (hex (hash.drop 1))) =
      some (.deflated (ty ++ 0x20 :: (s ++ 0 :: payload))))
    (hty : (0x20 : UInt8) ∉ ty) (hs : (0 : UInt8) ∉ s) (hn : parseUint s ≤ maxAlloc) :
    ∃ content, readObject st hash = .ok (ty, parseUint s, content) ∧
      content.length = parseUint s := by
  obtain ⟨r1, h1, h1'⟩ := readString_found { buf := [], rest := ty ++ 0x20 :: (s ++ 0 :: payload) }
    0x20 ty (s ++ 0 :: payload) hty (by simp)
  obtain ⟨r2, h2, _⟩ := readString_found r1 0 s payload hs h1'
  unfold readObject
  rw [if_neg hne, hst]
  simp only [h1, h2]
  have e1 : ty ++ [0x20] ≠ [] := by simp
  have e2 : s ++ [0] ≠ [] := by simp
  rw [if_neg e1, if_neg e2]
  simp only [Bool.not_true, Bool.false_eq_true, if_false, List.dropLast_concat]
  unfold makeslice
  rw [if_pos hn]
  simp only
  refine ⟨_, rfl, ?_⟩
  have := BufReader.read_length_le r2 (parseUint s)
  simp only [List.length_append, List.length_drop, List.length_replicate]
  omega

/-- Claim C17 (amended). `readObject` fails on every object file that has no space, and
on every object file that has no NUL after its first space. -/
theorem C17_header_delimiters_required (st : Store) (hash stream : Bytes)
    (hst : st (objectPath (hex (hash.take 1)) (hex (hash.drop 1))) =
      some (.deflated stream))
    (hbad : (0x20 : UInt8) ∉ stream ∨
      ∃ ty s, stream = ty ++ 0x20 :: s ∧ (0x20 : UInt8) ∉ ty ∧ (0 : UInt8) ∉ s) :
    ∃ e, readObject st hash = .error e := by
  unfold readObject
  by_cases hne : hash = []
  · exact ⟨_, if_pos hne⟩
  rw [if_neg hne, hst]
  simp only
  rcases hbad with h | ⟨ty, s, rfl, hty, hs⟩
  · rw [readString_notFound _ _ (by simpa using h)]
    simp only [List.nil_append]
    by_cases he : stream = []
    · exact ⟨_, if_pos he⟩
    · rw [if_neg he, readString_notFound _ _ (by simp)]
      exact ⟨_, if_pos rfl⟩
  · obtain ⟨r1, h1, h1'⟩ := readString_found { buf := [], rest := ty ++ 0x20 :: s } 0x20 ty s hty
      (by simp)
    rw [h1]
    simp only
    rw [if_neg (by simp), readString_notFound r1 0 (by rw [h1']; exact hs)]
    simp only
    split
    · exact ⟨_, rfl⟩
    · exact ⟨_, if_pos (by simp)⟩

/-- An object file without any space, stored at the path of the hash `ab cd..cd`. -/
theorem C17_header_delimiters_required_witness :
    ∃ e, readObject
      (emptyStore.write (objectPath (hex [0xab]) (hex (List.replicate 19 0xcd))) (ascii "blob"))
      (0xab :: List.replicate 19 0xcd) = .error e :=
  C17_header_delimiters_required _ (0xab :: List.replicate 19 0xcd) (ascii "blob")
    (by simp [Store.write]) (Or.inl (by decide))

/-- Claim C17 (counterexample). Three object files at the path of the hash `ab cd..cd`:
with the size field `x`, `readObject` returns a blob of size 0; with the size 5 and
three bytes of payload, a blob of size 5 whose last two bytes are zero; with the size
2 and three bytes of payload, a blob of size 2.  None of them fails. -/
theorem C17_counterexample :
    readObject
        (emptyStore.write (objectPath (hex [0xab]) (hex (List.replicate 19 0xcd)))
          (ascii "blob x\x00abc"))
        (0xab :: List.replicate 19 0xcd) = .ok (ascii "blob", 0, []) ∧
    readObject
        (emptyStore.write (objectPath (hex [0xab]) (hex (List.replicate 19 0xcd)))
          (ascii "blob 5\x00abc"))
        (0xab :: List.replicate 19 0xcd) = .ok (ascii "blob", 5, ascii "abc" ++ [0, 0]) ∧
    readObject
        (emptyStore.write (objectPath (hex [0xab]) (hex (List.replicate 19 0xcd)))
          (ascii "blob 2\x00abc"))
        (0xab :: List.replicate 19 0xcd) = .ok (ascii "blob", 2, ascii "ab") := by
  refine ⟨?_, ?_, ?_⟩ <;> decide

/-! ## Checkout: the tree of a commit -/

theorem fromHexChar_of_isHexDigit (c : UInt8) (h : isHexDigit c = true) :
    fromHexChar c = some (hexDigitValue c) ∧ hexDigitValue c < 16 := by
  unfold isHexDigit at h
  simp only [Bool.or_eq_true, Bool.and_eq_true, decide_eq_true_eq] at h
  unfold fromHexChar hexDigitValue
  rcases h with (h | h) | h
  · rw [if_pos h, if_pos h.2]; exact ⟨rfl, by omega⟩
  · rw [if_neg (by omega), if_neg (by omega), if_pos h, if_neg (by omega), if_pos h.2]
    exact ⟨rfl, by omega⟩
  · rw [if_neg (by omega), if_pos h, if_neg (by omega), if_neg (by omega)]
    exact ⟨rfl, by omega⟩

theorem hexDecode_digits :
    ∀ (n : Nat) (digits tail : Bytes), digits.length = 2 * n →
      (∀ c ∈ digits, isHexDigit c = true) → tail.length ≤ 1 →
      hexDecode (digits ++ tail) = hexBytes digits ∧ (hexBytes digits).length = n := by
  intro n
  induction n with
  | zero =>
    intro digits tail hl _ ht
    have hd : digits = [] := List.length_eq_zero.mp (by omega)
    subst hd
    match tail, ht with
    | [], _ => exact ⟨rfl, rfl⟩
    | [_], _ => exact ⟨rfl, rfl⟩
  | succ n ih =>
    intro digits tail hl hd ht
    match digits, hl, hd with
    | hi :: lo :: rest, hl, hd =>
      have h1 := fromHexChar_of_isHexDigit hi (hd hi (by simp))
      have h2 := fromHexChar_of_isHexDigit lo (hd lo (by simp))
      obtain ⟨e, l⟩ := ih rest tail (by simp at hl; omega)
        (fun c hc => hd c (by simp [hc])) ht
      simp only [List.cons_append, hexDecode, h1.1, h2.1, hexBytes, e, List.length_cons, l,
        and_true]
      rw [Nat.lor_comm, or_shift _ _ 4 h2.2]
      congr 2
      omega

theorem newline_not_hexDigit (digits : Bytes) (h : ∀ c ∈ digits, isHexDigit c = true) :
    (0x0A : UInt8) ∉ digits := fun hm => absurd (h _ hm) (by decide)

theorem commitTreeHash_firstLine (digits rest : Bytes) (n : Nat) (hl : digits.length = 2 * n)
    (hd : ∀ c ∈ digits, isHexDigit c = true) :
    commitTreeHash (ascii "tree " ++ digits ++ 0x0A :: rest) = hexBytes digits ∧
      (hexBytes digits).length = n := by
  obtain ⟨r1, h1, h1'⟩ := readString_found
    { buf := [], rest := ascii "tree " ++ digits ++ 0x0A :: rest } 0x20 (ascii "tree")
    (digits ++ 0x0A :: rest) (by decide) (by simp [ascii])
  obtain ⟨r2, h2, _⟩ := readString_found r1 0x0A digits rest (newline_not_hexDigit digits hd) h1'
  unfold commitTreeHash
  simp only [h1, h2]
  exact hexDecode_digits n digits [0x0A] hl hd (by simp)

theorem isHexDigit_hexDigit (k : Nat) (hk : k < 16) :
    isHexDigit (UInt8.ofNat (hexDigit k).toNat) = true ∧
      hexDigitValue (UInt8.ofNat (hexDigit k).toNat) = k := by
  have h : ∀ k : Fin 16, isHexDigit (UInt8.ofNat (hexDigit k.val).toNat) = true ∧
      hexDigitValue (UInt8.ofNat (hexDigit k.val).toNat) = k.val := by decide
  exact h ⟨k, hk⟩

theorem hexText_digits (b : Bytes) :
    (hexText b).length = 2 * b.length ∧ (∀ c ∈ hexText b, isHexDigit c = true) ∧
      hexBytes (hexText b) = b := by
  induction b with
  | nil => exact ⟨rfl, by simp [hexText, hex], rfl⟩
  | cons x b ih =>
    have hx := UInt8.toNat_lt x
    have h1 := isHexDigit_hexDigit (x.toNat / 16) (by omega)
    have h2 := isHexDigit_hexDigit (x.toNat % 16) (Nat.mod_lt _ (by norm_num))
    have e : hexText (x :: b) = UInt8.ofNat (hexDigit (x.toNat / 16)).toNat ::
        UInt8.ofNat (hexDigit (x.toNat % 16)).toNat :: hexText b := rfl
    rw [e]
    refine ⟨by simp [ih.1]; omega, ?_, ?_⟩
    · intro c hc
      simp only [List.mem_cons] at hc
      rcases hc with rfl | rfl | hc
      · exact h1.1
      · exact h2.1
      · exact ih.2.1 c hc
    · simp only [hexBytes, h1.2, h2.2, ih.2.2]
      congr 1
      rw [show 16 * (x.toNat / 16) + x.toNat % 16 = x.toNat by omega]
      exact UInt8.ext (by simp [UInt8.toNat_ofNat_of_lt, hx])

/-- Claim C19. When the content `readObject` returns for the commit starts with `tree `,
40 hexadecimal digits (in either case) and a newline, `checkoutCommit` calls
`checkoutTree` with the 20 bytes the digits denote, and with the working directory.
For the line `commit-tree` writes, `tree ` followed by the hash printed with `%x`, these
are the bytes of that hash. -/
theorem C19_commit_tree_hash (st : Store) (depth : Nat) (head root digits rest : Bytes)
    (size : Nat) (hl : digits.length = 40) (hd : ∀ c ∈ digits, isHexDigit c = true)
    (hread : readObject st head =
      .ok (ascii "commit", size, ascii "tree " ++ digits ++ 0x0A :: rest)) :
    checkoutCommit st depth head root = checkoutTree st depth (hexBytes digits) root [] ∧
    commitTreeHash (ascii "tree " ++ digits ++ 0x0A :: rest) = hexBytes digits ∧
    (hexBytes digits).length = 20 ∧
    ∀ treeHash : Bytes, digits = hexText treeHash → hexBytes digits = treeHash := by
  have h := commitTreeHash_firstLine digits rest 20 hl hd
  refine ⟨?_, h.1, h.2, ?_⟩
  · unfold checkoutCommit
    rw [hread]
    simp only [ne_eq, not_true_eq_false, if_false, h.1]
  · rintro treeHash rfl
    exact (hexText_digits treeHash).2.2

/-- Checkout of the sample commit, in an object directory that holds it, goes to the
empty tree `4b825dc6...`. -/
theorem C19_commit_tree_hash_witness :
    checkoutCommit (storeOf (ascii "commit") sampleCommit) 1
        (objectHash (ascii "commit") sampleCommit) (ascii "/w") =
      checkoutTree (storeOf (ascii "commit") sampleCommit) 1
        [0x4b, 0x82, 0x5d, 0xc6, 0x42, 0xcb, 0x6e, 0xb9, 0xa0, 0x60, 0xe5, 0x4b, 0xf8, 0xd6,
          0x92, 0x88, 0xfb, 0xee, 0x49, 0x04] (ascii "/w") [] :=
  (C19_commit_tree_hash (storeOf (ascii "commit") sampleCommit) 1
    (objectHash (ascii "commit") sampleCommit) (ascii "/w")
    (ascii "4b825dc642cb6eb9a060e54bf8d69288fbee4904")
    (ascii "author a <a@b> 0 +0000\ncommitter a <a@b> 0 +0000\n\nfirst\n") sampleCommit.length
    (by decide) (by decide)
    (readObject_written_fits emptyStore (ascii "commit") sampleCommit (by decide)
      (by decide) (by decide))).1

/-! ## Checkout: the entries of a tree -/

/-- Go `ReadString` on a reader over at most one buffer load, before or after the load:
the reader afterwards has everything that follows the delimiter in its buffer. -/
theorem readString_small (b : BufReader) (delim : UInt8) (x y : Bytes) (hx : delim ∉ x)
    (h : b.buf ++ b.rest = x ++ delim :: y) (hs : b.buf = [] ∨ b.rest = [])
    (hl : (b.buf ++ b.rest).length ≤ bufSize) :
    b.readString delim = (x ++ [delim], true, { buf := y, rest := [] }) := by
  obtain ⟨buf, rest⟩ := b
  simp only at h hs hl
  rcases hs with rfl | rfl
  · simp only [List.nil_append] at h hl
    subst h
    simp only [List.length_append, List.length_cons] at hl
    rw [readString_fresh delim x y hx (by omega), List.take_of_length_le (by omega),
      List.drop_of_length_le (by simp; omega)]
  · simp only [List.append_nil] at h
    subst h
    exact readString_buffered delim x y [] hx

/-- One iteration of the entry loop on a tree content of at most one buffer load, when
the reader holds a whole entry: the mode is padded to six characters and compared
with `100644` and `040000`; the loop goes on behind the 20 bytes of the hash. -/
theorem checkoutEntries_entry (st : Store)
    (rec : Bytes → Bytes → List FsOp → Option (List FsOp × Except Failure Unit))
    (fuel : Nat) (b : BufReader) (path : Bytes) (ops : List FsOp)
    (mode name hash more : Bytes) (hm : (0x20 : UInt8) ∉ mode) (hn : (0 : UInt8) ∉ name)
    (hh : hash.length = 20)
    (h : b.buf ++ b.rest = mode ++ 0x20 :: (name ++ 0 :: (hash ++ more)))
    (hs : b.buf = [] ∨ b.rest = []) (hl : (b.buf ++ b.rest).length ≤ bufSize) :
    checkoutEntries st rec (fuel + 1) b path ops =
      if normalMode mode = ascii "100644" then
        match checkoutFile st hash (joinPath path name) with
        | .error e => some (ops, .error e)
        | .ok op => checkoutEntries st rec fuel { buf := more, rest := [] } path (ops ++ [op])
      else if normalMode mode = ascii "040000" then
        match rec hash (joinPath path name) ops with
        | none => none
        | some (ops, .error e) => some (ops, .error e)
        | some (ops, .ok ()) => checkoutEntries st rec fuel { buf := more, rest := [] } path ops
      else checkoutEntries st rec fuel { buf := more, rest := [] } path ops := by
  have h1 := readString_small b 0x20 mode _ hm h hs hl
  have h2 := readString_small { buf := name ++ 0 :: (hash ++ more), rest := [] } 0 name
    (hash ++ more) hn (by simp) (Or.inr rfl)
    (by
      rw [h] at hl
      simp only [List.length_append, List.length_cons, List.append_nil] at hl ⊢
      omega)
  have hne : hash ++ more ≠ [] := by
    intro e
    have := congrArg List.length e
    simp only [List.length_append, List.length_nil] at this
    omega
  have h3 : BufReader.read { buf := hash ++ more, rest := [] } 20 =
      (hash, { buf := more, rest := [] }) := by
    unfold BufReader.read
    simp only [if_neg hne]
    rw [← hh, List.take_left, List.drop_left]
    simp [hh]
  have hne' : hash ≠ [] := by
    intro e
    rw [e] at hh
    simp at hh
  rw [checkoutEntries]
  simp only [h1, h2, h3, Bool.not_true, Bool.false_eq_true, if_false, List.dropLast_concat,
    if_neg hne', hh, Nat.sub_self, List.replicate_zero, List.append_nil, normalMode]

/-- The entry loop ends without failure when the reader holds no space any more. -/
theorem checkoutEntries_done (st : Store)
    (rec : Bytes → Bytes → List FsOp → Option (List FsOp × Except Failure Unit))
    (fuel : Nat) (b : BufReader) (path : Bytes) (ops : List FsOp)
    (h : (0x20 : UInt8) ∉ b.buf ++ b.rest) :
    checkoutEntries st rec (fuel + 1) b path ops = some (ops, .ok ()) := by
  unfold checkoutEntries
  simp [readString_notFound b 0x20 h]

theorem readObject_bigBlob :
    readObject bigStore bigBlobHash =
      .ok (ascii "blob", 4090, List.replicate 4086 0x61 ++ List.replicate 4 0) := by
  have hlen : bigBlob.length = 4090 := List.length_replicate _ _
  have hhl : (objectHeader (ascii "blob") (bigBlob.length : Nat)).length = 10 := by
    rw [hlen]; decide
  have hp : objectPath ((hex bigBlobHash).take 2) ((hex bigBlobHash).drop 2) ≠
      objectPath ((hex bigTreeHash).take 2) ((hex bigTreeHash).drop 2) := by decide
  rw [readObject_of_stream bigStore bigBlobHash (ascii "blob") bigBlob (by decide)
    (by unfold bigStore Store.write; rw [if_neg hp, if_pos rfl]) (by decide)
    (by rw [hhl]; decide) (by rw [hlen]; unfold maxAlloc; norm_num)]
  rw [hhl, hlen]
  unfold bigBlob
  rw [List.take_replicate]
  rfl

theorem readObject_bigTree :
    readObject bigStore bigTreeHash = .ok (ascii "tree", 29, bigTree) := by
  have h := readObject_of_stream bigStore bigTreeHash (ascii "tree") bigTree (by decide)
    (by unfold bigStore Store.write; rw [if_pos rfl]) (by decide) (by decide) (by decide)
  rw [h]
  decide

/-- Claim C20 (failing input). The object directory holds the blob of a file of 4090 bytes
`a` and the tree that lists it as the regular file `f`.  `checkoutTree` of that tree
into `/w` creates `/w` and writes `/w/f` with 4086 bytes `a` followed by four zero
bytes: the content `readObject` returned for the blob, not the bytes of the blob. -/
theorem C20_large_file_truncated :
    checkoutTree bigStore 1 bigTreeHash (ascii "/w") [] =
      some ([.mkdirAll (ascii "/w"),
        .writeFile (ascii "/w/f") (List.replicate 4086 0x61 ++ List.replicate 4 0)], .ok ()) ∧
    List.replicate 4086 (0x61 : UInt8) ++ List.replicate 4 0 ≠ bigBlob := by
  constructor
  · unfold checkoutTree
    rw [readObject_bigTree]
    simp only [ne_eq, not_true_eq_false, if_false, List.nil_append]
    rw [show bigTree.length + 1 = 28 + 1 + 1 by decide]
    rw [checkoutEntries_entry bigStore _ _ _ _ _ (ascii "100644") (ascii "f") bigBlobHash []
      (by decide) (by decide) (by decide) (by decide) (Or.inl rfl) (by decide)]
    rw [if_pos (by decide)]
    unfold checkoutFile
    rw [readObject_bigBlob]
    simp only [ne_eq, not_true_eq_false, if_false]
    rw [checkoutEntries_done _ _ _ _ _ _ (by simp)]
    rfl
  · intro h
    have h1 : (List.replicate 4086 (0x61 : UInt8) ++ List.replicate 4 0)[4089]? = some 0 := by
      rw [List.getElem?_append_right (by rw [List.length_replicate]; norm_num),
        List.length_replicate, List.getElem?_replicate]
      rfl
    have h2 : bigBlob[4089]? = some 0x61 := by
      unfold bigBlob
      rw [List.getElem?_replicate]
      rfl
    rw [h, h2] at h1
    exact absurd h1 (by decide)

/-! ## Frames of the refs advertisement -/

set_option maxRecDepth 100000 in
/-- One step of `ParseUint` in base 16 accepts the hexadecimal digits and nothing else. -/
theorem parseHexLoop_cons (c : UInt8) (cs : Bytes) (n : Nat) (hn : n < 2 ^ 16) :
    parseHexLoop (c :: cs) n =
      if isHexDigit c = true then parseHexLoop cs (n * 16 + hexDigitValue c) else none := by
  have key : ∀ k, k < 256 →
      ((if 0x30 ≤ k ∧ k ≤ 0x39 then some (k - 0x30)
        else if 0x61 ≤ (k ||| 0x20) ∧ (k ||| 0x20) ≤ 0x7A then some ((k ||| 0x20) - 0x61 + 10)
        else none : Option Nat).bind (fun d => if d ≥ 16 then none else some d)) =
      if ((decide (0x30 ≤ k) && decide (k ≤ 0x39)) || (decide (0x41 ≤ k) && decide (k ≤ 0x46)) ||
          (decide (0x61 ≤ k) && decide (k ≤ 0x66))) = true then
        some (if k ≤ 0x39 then k - 0x30 else if k ≤ 0x46 then k - 0x41 + 10 else k - 0x61 + 10)
      else none := by
    decide
  have hk := key c.toNat (UInt8.toNat_lt c)
  rw [parseHexLoop]
  simp only [isHexDigit, hexDigitValue]
  by_cases hd : ((decide (0x30 ≤ c.toNat) && decide (c.toNat ≤ 0x39)) ||
      (decide (0x41 ≤ c.toNat) && decide (c.toNat ≤ 0x46)) ||
      (decide (0x61 ≤ c.toNat) && decide (c.toNat ≤ 0x66))) = true
  · rw [if_pos hd] at hk ⊢
    generalize hv : (if c.toNat ≤ 0x39 then c.toNat - 0x30
      else if c.toNat ≤ 0x46 then c.toNat - 0x41 + 10 else c.toNat - 0x61 + 10) = v at hk ⊢
    generalize hg : (if 0x30 ≤ c.toNat ∧ c.toNat ≤ 0x39 then some (c.toNat - 0x30)
      else if 0x61 ≤ (c.toNat ||| 0x20) ∧ (c.toNat ||| 0x20) ≤ 0x7A then
        some ((c.toNat ||| 0x20) - 0x61 + 10)
      else none : Option Nat) = g at hk ⊢
    cases g with
    | none => simp at hk
    | some d =>
      simp only [Option.some_bind] at hk
      by_cases h16 : d ≥ 16
      · rw [if_pos h16] at hk; simp at hk
      · rw [if_neg h16] at hk
        simp only [Option.some.injEq] at hk
        subst hk
        simp only [if_neg h16]
        rw [if_neg (by norm_num; omega), if_neg (by norm_num; omega)]
  · rw [if_neg hd] at hk ⊢
    generalize hg : (if 0x30 ≤ c.toNat ∧ c.toNat ≤ 0x39 then some (c.toNat - 0x30)
      else if 0x61 ≤ (c.toNat ||| 0x20) ∧ (c.toNat ||| 0x20) ≤ 0x7A then
        some ((c.toNat ||| 0x20) - 0x61 + 10)
      else none : Option Nat) = g at hk ⊢
    cases g with
    | none => rfl
    | some d =>
      simp only [Option.some_bind] at hk
      by_cases h16 : d ≥ 16
      · simp only [if_pos h16]
      · rw [if_neg h16] at hk; simp at hk

theorem hexDigitValue_lt (c : UInt8) (h : isHexDigit c = true) : hexDigitValue c < 16 :=
  (fromHexChar_of_isHexDigit c h).2

/-- Go `ParseUint(s, 16, 32)` on four bytes: the length the digits denote when all four are
hexadecimal digits, an error otherwise. -/
theorem parseHex_four (d₀ d₁ d₂ d₃ : UInt8) :
    parseHex [d₀, d₁, d₂, d₃] =
      if isHexDigit d₀ = true ∧ isHexDigit d₁ = true ∧ isHexDigit d₂ = true ∧
          isHexDigit d₃ = true
      then some (frameLength d₀ d₁ d₂ d₃) else none := by
  unfold parseHex
  rw [if_neg (by simp), parseHexLoop_cons _ _ _ (by norm_num)]
  by_cases h0 : isHexDigit d₀ = true
  swap
  · simp [h0]
  have v0 := hexDigitValue_lt d₀ h0
  rw [if_pos h0, parseHexLoop_cons _ _ _ (by omega)]
  by_cases h1 : isHexDigit d₁ = true
  swap
  · simp [h1]
  have v1 := hexDigitValue_lt d₁ h1
  rw [if_pos h1, parseHexLoop_cons _ _ _ (by omega)]
  by_cases h2 : isHexDigit d₂ = true
  swap
  · simp [h2]
  have v2 := hexDigitValue_lt d₂ h2
  rw [if_pos h2, parseHexLoop_cons _ _ _ (by omega)]
  by_cases h3 : isHexDigit d₃ = true
  swap
  · simp [h3]
  rw [if_pos h3, if_pos ⟨h0, h1, h2, h3⟩]
  unfold parseHexLoop frameLength
  congr 1
  ring

theorem take_four (d₀ d₁ d₂ d₃ : UInt8) (rest : Bytes) :
    (d₀ :: d₁ :: d₂ :: d₃ :: rest).take 4 = [d₀, d₁, d₂, d₃] ∧
      (d₀ :: d₁ :: d₂ :: d₃ :: rest).drop 4 = rest := ⟨rfl, rfl⟩

/-- Claim C18. One iteration of the frame loop on a body that starts with four bytes
`d₀ d₁ d₂ d₃`, whatever `sizeBuffer` held before.  When the four are hexadecimal
digits denoting a length above 4 and the body goes on with that length minus 4
bytes, the iteration reads exactly those bytes as the payload and leaves the body
behind them to the next iteration, which runs unless the handling of the payload
fails.  The digits `0000` make a terminator without payload and leave the body behind
the four bytes.  When one of the four bytes is not a hexadecimal digit the
operation fails. -/
theorem C18_frame_decoding (sizeBuffer : Bytes) (d₀ d₁ d₂ d₃ : UInt8) :
    (∀ payload rest : Bytes,
      isHexDigit d₀ = true → isHexDigit d₁ = true → isHexDigit d₂ = true →
      isHexDigit d₃ = true → 4 < frameLength d₀ d₁ d₂ d₃ →
      payload.length = frameLength d₀ d₁ d₂ d₃ - 4 →
      readFrame sizeBuffer (d₀ :: d₁ :: d₂ :: d₃ :: (payload ++ rest)) =
        .ok (some (.data payload, [d₀, d₁, d₂, d₃], rest)) ∧
      ∀ (fuel : Nat) (refs : List (Bytes × Bytes)),
        readAdvertisement (fuel + 1) sizeBuffer (d₀ :: d₁ :: d₂ :: d₃ :: (payload ++ rest)) refs =
          match advertisedLine payload refs with
          | .error e => some (.error e)
          | .ok refs => readAdvertisement fuel [d₀, d₁, d₂, d₃] rest refs) ∧
    (∀ rest : Bytes,
      readFrame sizeBuffer (ascii "0000" ++ rest) = .ok (some (.terminator, ascii "0000", rest)) ∧
      ∀ (fuel : Nat) (refs : List (Bytes × Bytes)),
        readAdvertisement (fuel + 1) sizeBuffer (ascii "0000" ++ rest) refs =
          readAdvertisement fuel (ascii "0000") rest refs) ∧
    (∀ rest : Bytes,
      ¬ (isHexDigit d₀ = true ∧ isHexDigit d₁ = true ∧ isHexDigit d₂ = true ∧
        isHexDigit d₃ = true) →
      readFrame sizeBuffer (d₀ :: d₁ :: d₂ :: d₃ :: rest) = .error .fatal ∧
      ∀ (fuel : Nat) (refs : List (Bytes × Bytes)),
        readAdvertisement (fuel + 1) sizeBuffer (d₀ :: d₁ :: d₂ :: d₃ :: rest) refs =
          some (.error .fatal)) := by
  have hparse : ∀ (a b c d : UInt8) (rest : Bytes),
      readFrame sizeBuffer (a :: b :: c :: d :: rest) =
        match parseHex [a, b, c, d] with
        | none => .error .fatal
        | some size =>
          if size > 4 then
            if rest.take (size - 4) = [] then .error .fatal
            else
              .ok (some (.data (rest.take (size - 4) ++
                List.replicate (size - 4 - (rest.take (size - 4)).length) 0),
                [a, b, c, d], rest.drop (size - 4)))
          else .ok (some (.terminator, [a, b, c, d], rest)) := by
    intro a b c d rest
    unfold readFrame
    simp only [(take_four a b c d rest).1, (take_four a b c d rest).2]
    rw [if_neg (by simp)]
    rfl
  refine ⟨?_, ?_, ?_⟩
  · intro payload rest h0 h1 h2 h3 hL hlen
    have hf : readFrame sizeBuffer (d₀ :: d₁ :: d₂ :: d₃ :: (payload ++ rest)) =
        .ok (some (.data payload, [d₀, d₁, d₂, d₃], rest)) := by
      rw [hparse, parseHex_four, if_pos ⟨h0, h1, h2, h3⟩]
      simp only
      rw [if_pos hL, ← hlen, List.take_left, List.drop_left]
      have hne : payload ≠ [] := by
        intro e
        rw [e] at hlen
        simp only [List.length_nil] at hlen
        omega
      rw [if_neg hne]
      simp
    refine ⟨hf, fun fuel refs => ?_⟩
    rw [readAdvertisement, hf]
  · intro rest
    have hf : readFrame sizeBuffer (ascii "0000" ++ rest) =
        .ok (some (.terminator, ascii "0000", rest)) := by
      have := hparse 0x30 0x30 0x30 0x30 rest
      rw [parseHex_four] at this
      exact this
    refine ⟨hf, fun fuel refs => ?_⟩
    rw [readAdvertisement, hf]
  · intro rest hbad
    have hf : readFrame sizeBuffer (d₀ :: d₁ :: d₂ :: d₃ :: rest) = .error .fatal := by
      rw [hparse, parseHex_four, if_neg hbad]
    refine ⟨hf, fun fuel refs => ?_⟩
    rw [readAdvertisement, hf]

/-- The frame `0006ab` followed by a terminator. -/
theorem C18_frame_decoding_witness :
    readFrame (ascii "0000") (ascii "0006ab0000") =
      .ok (some (.data (ascii "ab"), ascii "0006", ascii "0000")) :=
  ((C18_frame_decoding (ascii "0000") 0x30 0x30 0x30 0x36).1 (ascii "ab") (ascii "0000")
    (by decide) (by decide) (by decide) (by decide) (by decide) (by decide)).1

theorem readFrame_shorter (sizeBuffer body : Bytes) (f : Frame) (sb body' : Bytes)
    (h : readFrame sizeBuffer body = .ok (some (f, sb, body'))) : body'.length < body.length := by
  unfold readFrame at h
  simp only at h
  by_cases hg : body.take 4 = []
  · rw [if_pos hg] at h; simp at h
  · rw [if_neg hg] at h
    have hb : 0 < body.length := by
      cases body with
      | nil => simp at hg
      | cons x xs => simp
    split at h
    · simp at h
    · split at h
      · split at h
        · simp at h
        · simp only [Except.ok.injEq, Option.some.injEq, Prod.mk.injEq] at h
          rw [← h.2.2]
          simp only [List.length_drop]
          omega
      · simp only [Except.ok.injEq, Option.some.injEq, Prod.mk.injEq] at h
        rw [← h.2.2]
        simp only [List.length_drop]
        omega

/-- The frame loop ends: with more iterations allowed than the body has bytes it returns
the refs or fails. -/
theorem readAdvertisement_total :
    ∀ (fuel : Nat) (sizeBuffer body : Bytes) (refs : List (Bytes × Bytes)),
      body.length < fuel → ∃ r, readAdvertisement fuel sizeBuffer body refs = some r := by
  intro fuel
  induction fuel with
  | zero => intro _ body _ h; omega
  | succ fuel ih =>
    intro sizeBuffer body refs hlt
    rw [readAdvertisement]
    cases hf : readFrame sizeBuffer body with
    | error e => exact ⟨_, rfl⟩
    | ok o =>
      cases o with
      | none => exact ⟨_, rfl⟩
      | some t =>
        obtain ⟨f, sb, body'⟩ := t
        have hs := readFrame_shorter sizeBuffer body f sb body' hf
        cases f with
        | terminator => exact ih sb body' refs (by omega)
        | data dataBuffer =>
          simp only
          cases advertisedLine dataBuffer refs with
          | error e => exact ⟨_, rfl⟩
          | ok refs' => exact ih sb body' refs' (by omega)

/-! ## The pack reader -/

theorem take_drop_pending (content : Bytes) (n : Nat) (hn : n ≤ bufSize) :
    (content.take bufSize).drop n ++ content.drop bufSize = content.drop n := by
  conv_rhs => rw [← List.take_append_drop bufSize content]
  by_cases h : n ≤ (content.take bufSize).length
  · rw [List.drop_append_of_le_length h]
  · have hlen : content.length < n := by
      simp only [List.length_take] at h
      omega
    rw [List.drop_of_length_le (by omega), List.drop_of_length_le (l := content.take bufSize ++ _)
      (by simp; omega), List.drop_of_length_le (by omega)]
    rfl

/-- The first `Read` of a fresh reader, for fewer bytes than the buffer holds. -/
theorem read_fresh (content : Bytes) (n : Nat) (h0 : n ≠ 0) (hn : n < bufSize) :
    BufReader.read { buf := [], rest := content } n =
      (content.take n, { buf := (content.take bufSize).drop n, rest := content.drop bufSize }) := by
  unfold BufReader.read BufReader.fill
  simp only [if_neg h0, if_true, if_neg (not_le.mpr hn), List.length_nil, Nat.sub_zero,
    List.nil_append, List.take_take, min_eq_left (le_of_lt hn)]

/-- The pack header: magic, version, entry count. -/
theorem unpackObjects_header (goos : GOOS) (Z : Zlib) (version count entries : Bytes)
    (st : Store) (hv : version.length = 4) (hc : count.length = 4) :
    unpackObjects goos Z (ascii "PACK" ++ version ++ count ++ entries) st =
      match unpackEntries goos Z (bigEndianBytesToUint count)
          { buf := ((ascii "PACK" ++ version ++ count ++ entries).take bufSize).drop 12,
            rest := (ascii "PACK" ++ version ++ count ++ entries).drop bufSize } st [] with
      | (st, .error e) => (st, .error e)
      | (st, .ok savedObjDeltas) => resolveDeltas goos savedObjDeltas st := by
  have ht : (ascii "PACK" ++ version ++ count ++ entries).take 12 =
      ascii "PACK" ++ version ++ count := by
    rw [List.take_append_of_le_length (by simp [ascii, hv, hc]),
      List.take_of_length_le (by simp [ascii, hv, hc])]
  unfold unpackObjects
  simp only [read_fresh _ 12 (by norm_num) (by norm_num [bufSize]), ht]
  have hl : (ascii "PACK" ++ version ++ count).length = 12 := by simp [ascii, hv, hc]
  rw [if_neg (by intro e; rw [e] at hl; simp at hl), hl]
  simp only [Nat.sub_self, List.replicate_zero, List.append_nil]
  have h4 : (ascii "PACK" ++ version ++ count).take 4 = ascii "PACK" := by
    rw [List.append_assoc, List.take_left' (by decide)]
  have h8 : (ascii "PACK" ++ version ++ count).drop 8 = count := by
    rw [List.drop_left' (by simp [ascii, hv])]
  rw [h4, h8]
  simp

/-- An entry that declares more bytes than the reader's buffer holds ends the program:
`Peek` reports `ErrBufferFull`. -/
theorem unpackEntry_large (goos : GOOS) (Z : Zlib) (reader : BufReader) (st : Store)
    (saved : List objDelta) (objType informedSize n : Nat) (rest : Bytes)
    (hh : readEntryHeader (reader.buf ++ reader.rest) = .ok (objType, informedSize, n, rest))
    (hl : bufSize < informedSize) :
    unpackEntry goos Z reader st saved = (st, .error .fatal) := by
  unfold unpackEntry
  rw [hh]
  simp only
  split
  · rfl
  · have h1 : ¬ informedSize < 1024 := by unfold bufSize at hl; omega
    simp only [if_neg h1, BufReader.peek, if_pos hl]

/-- Claim C11 (failing input). A pack whose first entry is a blob with the declared size
5000 (header bytes `b8 b8 02`): whatever follows the header, also the complete and
correct compressed stream of a blob of 5000 bytes, and whatever the inflater would
do with it, `unpackObjects` ends the program at this entry and stores nothing. -/
theorem C11_declared_size_above_buffer (goos : GOOS) (Z : Zlib) (st : Store)
    (count stream : Bytes) (hc : count.length = 4) (h1 : 0 < bigEndianBytesToUint count) :
    unpackObjects goos Z
        (ascii "PACK" ++ [0, 0, 0, 2] ++ count ++ ([0xb8, 0xb8, 0x02] ++ stream)) st =
      (st, .error .fatal) := by
  rw [unpackObjects_header goos Z [0, 0, 0, 2] count _ st rfl hc]
  obtain ⟨k, hk⟩ : ∃ k, bigEndianBytesToUint count = k + 1 := ⟨_, (Nat.succ_pred_eq_of_pos h1).symm⟩
  rw [hk, unpackEntries]
  rw [unpackEntry_large goos Z _ st [] 3 5000 3 stream
    (by
      simp only
      rw [take_drop_pending _ 12 (by norm_num [bufSize]),
        List.drop_left' (by simp [ascii, hc])]
      rfl)
    (by norm_num [bufSize])]

/-- A pack of one entry. -/
theorem C11_declared_size_above_buffer_witness :
    unpackObjects .unix storedZlib
        (ascii "PACK" ++ [0, 0, 0, 2] ++ [0, 0, 0, 1] ++ ([0xb8, 0xb8, 0x02] ++ [0x78, 0x9c]))
        emptyStore = (emptyStore, .error .fatal) :=
  C11_declared_size_above_buffer .unix storedZlib emptyStore [0, 0, 0, 1] [0x78, 0x9c] rfl
    (by decide)

/-! ## Entries first, deltas afterwards -/

/-- In two object directories with files at the same paths `hashObject` ends in the same
way and leaves files at the same paths: it looks at whether a file exists, not at
what the file holds. -/
theorem hashObject_sameFiles (goos : GOOS) (w : Bool) (ty : Bytes) (n : Int) (content : Bytes)
    (st st' : Store) (h : st.sameFiles st') :
    (hashObject goos w ty n content st).1 = (hashObject goos w ty n content st').1 ∧
      (hashObject goos w ty n content st).2.sameFiles (hashObject goos w ty n content st').2 := by
  have hn : ∀ q, st q = none ↔ st' q = none := by
    intro q
    have := h q
    cases hs : st q <;> cases hs' : st' q <;> simp [hs, hs'] at this ⊢
  refine ⟨?_, fun q => ?_⟩
  · rw [hashObject_fst, hashObject_fst]
    simp only [hn]
  · rw [hashObject_snd, hashObject_snd]
    simp only [hn]
    split
    · split <;> rfl
    · exact h q

theorem putObject_sameFiles (goos : GOOS) (ty : Bytes) (n : Int) (content : Bytes)
    (st st' : Store) (h : st.sameFiles st') :
    (putObject goos ty n content st).2 = (putObject goos ty n content st').2 ∧
      (putObject goos ty n content st).1.sameFiles (putObject goos ty n content st').1 := by
  have hs := hashObject_sameFiles goos true ty n content st st' h
  rw [putObject_eq, putObject_eq]
  exact ⟨by rw [hs.1], hs.2⟩

/-- What `storeEntry` saves, and whether it fails, is the same in two object directories
with files at the same paths, and it leaves files at the same paths. -/
theorem storeEntry_saved (goos : GOOS) (objType : Nat) (refHash : Bytes) (informedSize : Nat)
    (produced : Bytes) (st st' : Store) (saved : List objDelta) (h : st.sameFiles st') :
    (storeEntry goos objType refHash informedSize produced st saved).2 =
        (storeEntry goos objType refHash informedSize produced st' saved).2 ∧
      (storeEntry goos objType refHash informedSize produced st saved).1.sameFiles
        (storeEntry goos objType refHash informedSize produced st' saved).1 := by
  unfold storeEntry
  cases makeslice (if informedSize < 1024 then 1024 else informedSize) with
  | error e => exact ⟨rfl, h⟩
  | ok buffer =>
    simp only [putObject_then]
    split_ifs
    all_goals first
      | exact ⟨rfl, h⟩
      | exact ⟨by rw [(putObject_sameFiles goos _ _ _ st st' h).1],
          (putObject_sameFiles goos _ _ _ st st' h).2⟩

/-- The reader and the saved deltas after one entry, and whether the entry fails, are the
same in two object directories with files at the same paths: the entry loop looks
no object up. -/
theorem unpackEntry_saved (goos : GOOS) (Z : Zlib) (reader : BufReader) (st st' : Store)
    (saved : List objDelta) (h : st.sameFiles st') :
    (unpackEntry goos Z reader st saved).2 = (unpackEntry goos Z reader st' saved).2 ∧
      (unpackEntry goos Z reader st saved).1.sameFiles
        (unpackEntry goos Z reader st' saved).1 := by
  unfold unpackEntry
  cases readEntryHeader (reader.buf ++ reader.rest) with
  | error e => exact ⟨rfl, h⟩
  | ok hd =>
    obtain ⟨objType, informedSize, n, rest⟩ := hd
    simp only
    by_cases h6 : objType = OBJ_OFS_DELTA
    · rw [if_pos h6, if_pos h6]
      exact ⟨rfl, h⟩
    · rw [if_neg h6, if_neg h6]
      generalize (if objType = OBJ_REF_DELTA then (reader.skipBytes n).read 20
        else ([], reader.skipBytes n)) = r
      generalize (if objType = OBJ_REF_DELTA then r.1 ++ List.replicate (20 - r.1.length) 0
        else []) = refHash
      generalize (if informedSize < 1024 then 1024 else informedSize) = size
      cases r.2.peek size with
      | error e => exact ⟨rfl, h⟩
      | ok p =>
        obtain ⟨compressedBuffer, reader'⟩ := p
        simp only
        cases Z.readOnce compressedBuffer size with
        | none => exact ⟨rfl, h⟩
        | some pc =>
          obtain ⟨produced, consumed⟩ := pc
          simp only
          have hs := storeEntry_saved goos objType refHash size produced st st' saved h
          revert hs
          cases storeEntry goos objType refHash size produced st saved with
          | mk s1 r1 =>
            cases storeEntry goos objType refHash size produced st' saved with
            | mk s2 r2 =>
              intro hs
              simp only at hs
              obtain ⟨hr, hf⟩ := hs
              subst hr
              cases r1 <;> exact ⟨rfl, hf⟩

theorem unpackEntries_saved (goos : GOOS) (Z : Zlib) :
    ∀ (n : Nat) (reader : BufReader) (st st' : Store) (saved : List objDelta),
      st.sameFiles st' →
      (unpackEntries goos Z n reader st saved).2 = (unpackEntries goos Z n reader st' saved).2 ∧
        (unpackEntries goos Z n reader st saved).1.sameFiles
          (unpackEntries goos Z n reader st' saved).1 := by
  intro n
  induction n with
  | zero => intro _ _ _ _ h; exact ⟨rfl, h⟩
  | succ n ih =>
    intro reader st st' saved h
    have hs := unpackEntry_saved goos Z reader st st' saved h
    rw [unpackEntries, unpackEntries]
    revert hs
    cases unpackEntry goos Z reader st saved with
    | mk s1 r1 =>
      cases unpackEntry goos Z reader st' saved with
      | mk s2 r2 =>
        intro hs
        simp only at hs
        obtain ⟨hr, hf⟩ := hs
        subst hr
        cases r1 with
        | error e => exact ⟨rfl, hf⟩
        | ok v => exact ih v.1 s1 s2 v.2 hf

/-- A file that is in the object directory stays as it is: `hashObject` never overwrites. -/
theorem hashObject_keeps (goos : GOOS) (w : Bool) (ty : Bytes) (n : Int) (content : Bytes)
    (st : Store) (q : List Char) (s : ObjFile) (h : st q = some s) :
    (hashObject goos w ty n content st).2 q = some s := by
  rw [hashObject_snd, if_neg (fun hc => by rw [hc.2.2] at h; cases h)]
  exact h

theorem putObject_keeps (goos : GOOS) (ty : Bytes) (n : Int) (content : Bytes)
    (st : Store) (q : List Char) (s : ObjFile) (h : st q = some s) :
    (putObject goos ty n content st).1 q = some s := by
  rw [putObject_eq]
  exact hashObject_keeps _ _ _ _ _ _ _ _ h

theorem resolveDelta_keeps (goos : GOOS) (st : Store) (d : objDelta) (q : List Char)
    (s : ObjFile) (h : st q = some s) : (resolveDelta goos st d).1 q = some s := by
  unfold resolveDelta
  cases deltaTarget st d with
  | error e => exact h
  | ok v => exact putObject_keeps _ _ _ _ _ _ _ h

theorem resolveDeltas_keeps (goos : GOOS) :
    ∀ (ds : List objDelta) (st : Store) (q : List Char) (s : ObjFile),
      st q = some s → (resolveDeltas goos ds st).1 q = some s := by
  intro ds
  induction ds with
  | nil => intro st q s h; exact h
  | cons d ds ih =>
    intro st q s h
    have h1 := resolveDelta_keeps goos st d q s h
    rw [resolveDeltas]
    revert h1
    cases resolveDelta goos st d with
    | mk st' r =>
      cases r with
      | error e => intro h1; exact h1
      | ok u => intro h1; exact ih st' q s h1

/-- An object that `readObject` returns from one store it returns from every store that
has kept the files of the first. -/
theorem readObject_keeps (st st' : Store) (hash : Bytes) (r : Bytes × Nat × Bytes)
    (hk : ∀ q s, st q = some s → st' q = some s) (h : readObject st hash = .ok r) :
    readObject st' hash = .ok r := by
  unfold readObject at h ⊢
  by_cases hne : hash = []
  · rw [if_pos hne] at h; cases h
  · rw [if_neg hne] at h ⊢
    cases hs : st (objectPath (hex (hash.take 1)) (hex (hash.drop 1))) with
    | none => rw [hs] at h; cases h
    | some stream =>
      rw [hs] at h
      rw [hk _ _ hs]
      exact h

theorem resolveDeltas_append (goos : GOOS) (pre : List objDelta) :
    ∀ (st st2 : Store) (rest : List objDelta), resolveDeltas goos pre st = (st2, .ok ()) →
      resolveDeltas goos (pre ++ rest) st = resolveDeltas goos rest st2 := by
  induction pre with
  | nil =>
    intro st st2 rest h
    simp only [resolveDeltas, Prod.mk.injEq, and_true] at h
    rw [h]
    rfl
  | cons d pre ih =>
    intro st st2 rest h
    rw [List.cons_append, resolveDeltas]
    rw [resolveDeltas] at h
    revert h
    cases resolveDelta goos st d with
    | mk st' r =>
      cases r with
      | error e => intro h; simp at h
      | ok u => intro h; exact ih st' st2 rest h

theorem storeEntry_keeps (goos : GOOS) (objType : Nat) (refHash : Bytes) (informedSize : Nat)
    (produced : Bytes) (st : Store) (saved : List objDelta) (q : List Char) (s : ObjFile)
    (hq : st q = some s) :
    (storeEntry goos objType refHash informedSize produced st saved).1 q = some s := by
  unfold storeEntry
  cases makeslice (if informedSize < 1024 then 1024 else informedSize) with
  | error e => exact hq
  | ok buffer =>
    simp only [putObject_then]
    split_ifs
    all_goals first
      | exact hq
      | exact putObject_keeps _ _ _ _ _ _ _ hq

theorem unpackEntry_keeps (goos : GOOS) (Z : Zlib) (reader : BufReader) (st : Store)
    (saved : List objDelta) (q : List Char) (s : ObjFile) (hq : st q = some s) :
    (unpackEntry goos Z reader st saved).1 q = some s := by
  unfold unpackEntry
  cases readEntryHeader (reader.buf ++ reader.rest) with
  | error e => exact hq
  | ok v =>
    obtain ⟨objType, informedSize, n, rest⟩ := v
    simp only
    by_cases h6 : objType = OBJ_OFS_DELTA
    · rw [if_pos h6]; exact hq
    · rw [if_neg h6]
      generalize (if objType = OBJ_REF_DELTA then (reader.skipBytes n).read 20
        else ([], reader.skipBytes n)) = r
      generalize (if objType = OBJ_REF_DELTA then r.1 ++ List.replicate (20 - r.1.length) 0
        else []) = refHash
      generalize (if informedSize < 1024 then 1024 else informedSize) = size
      cases r.2.peek size with
      | error e => exact hq
      | ok p =>
        obtain ⟨compressedBuffer, rd⟩ := p
        simp only
        cases Z.readOnce compressedBuffer size with
        | none => exact hq
        | some pc =>
          obtain ⟨produced, consumed⟩ := pc
          simp only
          have hs := storeEntry_keeps goos objType refHash size produced st saved q s hq
          revert hs
          cases storeEntry goos objType refHash size produced st saved with
          | mk s1 r1 => cases r1 <;> exact fun hs => hs

/-- The entry loop loses no file of the object directory. -/
theorem unpackEntries_keeps (goos : GOOS) (Z : Zlib) :
    ∀ (n : Nat) (reader : BufReader) (st : Store) (saved : List objDelta) (q : List Char)
      (s : ObjFile), st q = some s → (unpackEntries goos Z n reader st saved).1 q = some s := by
  intro n
  induction n with
  | zero => intro _ st _ q s h; exact h
  | succ n ih =>
    intro reader st saved q s h
    rw [unpackEntries]
    have hk := unpackEntry_keeps goos Z reader st saved q s h
    revert hk
    cases unpackEntry goos Z reader st saved with
    | mk s1 r1 =>
      cases r1 with
      | error e => exact fun hk => hk
      | ok v => exact fun hk => ih v.1 s1 v.2 q s hk

/-- The order of the two loops of `unpackObjects`.  For a pack with its twelve header
bytes, let the entry loop end with the store `st₁`.  The loop has looked no object
up: from every store with files at the same paths it saves the same deltas, or
fails in the same way.  Nothing that was in the store before is lost.  When the loop
fails no delta is resolved.  When it returns the saved deltas, `unpackObjects`
resolves them starting from `st₁`; when a saved delta is reached, every file of
`st₁` is still in the store unchanged, so a base that `readObject` finds in `st₁`,
wherever its entry stood in the pack, is the base the delta is resolved against. -/
theorem unpackObjects_entries_first (goos : GOOS) (Z : Zlib) (version count entries : Bytes)
    (st st₁ : Store) (result : Except Failure (List objDelta)) (hv : version.length = 4)
    (hc : count.length = 4)
    (hloop : unpackEntries goos Z (bigEndianBytesToUint count)
      { buf := ((ascii "PACK" ++ version ++ count ++ entries).take bufSize).drop 12,
        rest := (ascii "PACK" ++ version ++ count ++ entries).drop bufSize } st [] =
      (st₁, result)) :
    (∀ st' : Store, st.sameFiles st' → (unpackEntries goos Z (bigEndianBytesToUint count)
      { buf := ((ascii "PACK" ++ version ++ count ++ entries).take bufSize).drop 12,
        rest := (ascii "PACK" ++ version ++ count ++ entries).drop bufSize } st' []).2 =
      result) ∧
    (∀ q s, st q = some s → st₁ q = some s) ∧
    (∀ e, result = .error e →
      unpackObjects goos Z (ascii "PACK" ++ version ++ count ++ entries) st =
        (st₁, .error e)) ∧
    ∀ saved : List objDelta, result = .ok saved →
      unpackObjects goos Z (ascii "PACK" ++ version ++ count ++ entries) st =
        resolveDeltas goos saved st₁ ∧
      ∀ (pre : List objDelta) (d : objDelta) (post : List objDelta) (st₂ : Store),
        saved = pre ++ d :: post → resolveDeltas goos pre st₁ = (st₂, .ok ()) →
        (∀ q s, st₁ q = some s → st₂ q = some s) ∧
        (∀ r, readObject st₁ d.source = .ok r → readObject st₂ d.source = .ok r) ∧
        resolveDeltas goos saved st₁ =
          match resolveDelta goos st₂ d with
          | (st₃, .error e) => (st₃, .error e)
          | (st₃, .ok ()) => resolveDeltas goos post st₃ := by
  refine ⟨fun st' hsf => ?_, fun q s h => ?_, fun e he => ?_, fun saved hsaved => ⟨?_, ?_⟩⟩
  · rw [← (unpackEntries_saved goos Z _ _ st st' [] hsf).1, hloop]
  · have := unpackEntries_keeps goos Z (bigEndianBytesToUint count)
      { buf := ((ascii "PACK" ++ version ++ count ++ entries).take bufSize).drop 12,
        rest := (ascii "PACK" ++ version ++ count ++ entries).drop bufSize } st [] q s h
    rw [hloop] at this
    exact this
  · rw [unpackObjects_header goos Z version count entries st hv hc, hloop, he]
  · rw [unpackObjects_header goos Z version count entries st hv hc, hloop, hsaved]
  · intro pre d post st₂ hs hpre
    have hk : ∀ q s, st₁ q = some s → st₂ q = some s := by
      intro q s h
      have := resolveDeltas_keeps goos pre st₁ q s h
      rw [hpre] at this
      exact this
    refine ⟨hk, fun r h => readObject_keeps st₁ st₂ d.source r hk h, ?_⟩
    rw [hs, resolveDeltas_append goos pre st₁ st₂ (d :: post) hpre, resolveDeltas]

set_option maxRecDepth 1000000 in
/-- Claim C13 (failing input). The pack `packDeltaFirst` holds the ref-delta that makes
`bcXYa` from the blob `abc` before the entry of that blob, and the object directory
is empty.  On a Unix system the entry loop reads the delta and saves it; at the
entry of the blob, `hashObject` ends the program.  The blob is not stored, an empty
file stays at its path, and the delta is never resolved: `readObject` finds neither
the blob `abc` nor the blob `bcXYa`.  On Windows the blob is stored, the delta is
resolved against it and the object directory ends up holding the blob `bcXYa`. -/
theorem C13_delta_before_base :
    unpackPrefix .unix storedZlib 1
        { buf := (packDeltaFirst.take bufSize).drop 12, rest := packDeltaFirst.drop bufSize }
        emptyStore [] =
      (emptyStore, .ok ({ buf := entryAbc ++
          [0x49, 0xe2, 0xcf, 0x24, 0xae, 0x79, 0xc0, 0xde, 0x1f, 0x60, 0x4e, 0xb6, 0xa5, 0x37,
            0x0a, 0xca, 0xb6, 0x44, 0xe9, 0x69], rest := [] },
        [{ source := hashAbc, content := [3, 5, 0x91, 1, 2, 2, 0x58, 0x59, 0x90, 1],
           spare := List.replicate 1014 0 }])) ∧
    unpackObjects .unix storedZlib packDeltaFirst emptyStore =
      (emptyStore.create ".git/objects/f2/ba8f84ab5c1bce84a7b441cb1959cfc7093b7f".data,
        .error .fatal) ∧
    readObject (unpackObjects .unix storedZlib packDeltaFirst emptyStore).1 hashAbc =
      .error .fatal ∧
    readObject (unpackObjects .unix storedZlib packDeltaFirst emptyStore).1 hashBcXYa =
      .error .fatal ∧
    (unpackObjects .windows storedZlib packDeltaFirst emptyStore).2 = .ok () ∧
    readObject (unpackObjects .windows storedZlib packDeltaFirst emptyStore).1 hashAbc =
      .ok (ascii "blob", 3, ascii "abc") ∧
    readObject (unpackObjects .windows storedZlib packDeltaFirst emptyStore).1 hashBcXYa =
      .ok (ascii "blob", 5, ascii "bcXYa") := by
  refine ⟨?_, ?_, by decide, by decide, by decide, by decide, by decide⟩
  · apply Prod.ext
    · rfl
    · decide
  · apply Prod.ext
    · rfl
    · decide

/-! ## Chains of deltas -/

/-- A delta whose base is not in the object directory is not resolved: the delta loop stops
there and leaves the store as it is. -/
theorem resolveDeltas_missing_base (goos : GOOS) (st : Store) (d : objDelta)
    (ds : List objDelta)
    (h : st (objectPath (hex (d.source.take 1)) (hex (d.source.drop 1))) = none) :
    ∃ e, deltaTarget st d = .error e ∧ resolveDeltas goos (d :: ds) st = (st, .error e) := by
  have hr : ∃ e, readObject st d.source = .error e := by
    unfold readObject
    by_cases hne : d.source = []
    · exact ⟨_, if_pos hne⟩
    · rw [if_neg hne, h]
      exact ⟨_, rfl⟩
  have ht : ∃ e, deltaTarget st d = .error e := by
    obtain ⟨e, he⟩ := hr
    unfold deltaTarget
    cases readDeltaHeader d.content with
    | error e' => exact ⟨_, rfl⟩
    | ok v =>
      obtain ⟨sourceSize, targetSize, i⟩ := v
      simp only
      cases makeslice targetSize with
      | error e' => exact ⟨_, rfl⟩
      | ok tb => simp only [he]; exact ⟨_, rfl⟩
  obtain ⟨e, he⟩ := ht
  refine ⟨e, he, ?_⟩
  rw [resolveDeltas]
  unfold resolveDelta
  rw [he]

/-- Claim C12 (amended). The saved deltas are resolved in the order of the pack, once.  Let
`B` resolve on the store `st` to an object that is not in `st` yet, and let `A` have
the hash of that object as its base and resolve once the object is stored.  With `B`
before `A`, where the handle of a new object file accepts writes, both are resolved
and stored; where it refuses them, the program ends when it is to store the object
of `B`.  With `A` before `B` the base of `A` is not in the store when `A` is reached:
`readObject` ends the program, and neither object is stored.  In general a delta
whose base is not in the store when it is reached is an error and nothing is
resolved against missing data. -/
theorem C12_resolution_in_pack_order (goos : GOOS) (st : Store) (A B : objDelta) (ty : Bytes)
    (n : Nat) (buf tyA : Bytes) (nA : Nat) (bufA : Bytes)
    (hB : deltaTarget st B = .ok (ty, n, buf))
    (hfree : st (objectPath ((hex (sha1 (objectHeader ty (n : Nat) ++ buf))).take 2)
      ((hex (sha1 (objectHeader ty (n : Nat) ++ buf))).drop 2)) = none)
    (hsrc : A.source = sha1 (objectHeader ty (n : Nat) ++ buf))
    (hA : deltaTarget
      (st.write (objectPath ((hex (sha1 (objectHeader ty (n : Nat) ++ buf))).take 2)
        ((hex (sha1 (objectHeader ty (n : Nat) ++ buf))).drop 2))
        (objectHeader ty (n : Nat) ++ buf)) A = .ok (tyA, nA, bufA)) :
    (createOnlyWritable goos = true →
      (hashObject goos true ty (n : Nat) buf st).1 = .ok A.source ∧
      resolveDeltas goos [B, A] st =
        ((hashObject goos true tyA (nA : Nat) bufA (hashObject goos true ty (n : Nat) buf st).2).2,
          .ok ())) ∧
    (createOnlyWritable goos = false →
      resolveDeltas goos [B, A] st =
        (st.create (objectPath ((hex (sha1 (objectHeader ty (n : Nat) ++ buf))).take 2)
          ((hex (sha1 (objectHeader ty (n : Nat) ++ buf))).drop 2)), .error .fatal)) ∧
    resolveDeltas goos [A, B] st = (st, .error .fatal) ∧
    ∀ (st' : Store) (d : objDelta) (ds : List objDelta),
      st' (objectPath (hex (d.source.take 1)) (hex (d.source.drop 1))) = none →
      ∃ e, resolveDeltas goos (d :: ds) st' = (st', .error e) := by
  refine ⟨fun hw => ⟨?_, ?_⟩, fun hw => ?_, ?_, fun st' d ds h => ?_⟩
  · rw [hashObject_fst_writable goos _ _ _ _ _ hw, hsrc]
  · rw [resolveDeltas]
    unfold resolveDelta
    rw [hB]
    simp only
    rw [putObject_written goos _ _ _ _ hfree hw]
    simp only
    rw [resolveDeltas]
    unfold resolveDelta
    rw [hA]
    simp only
    rw [hashObject_written goos _ _ _ _ hfree hw, putObject_eq,
      hashObject_fst_writable goos _ _ _ _ _ hw]
    rfl
  · rw [resolveDeltas]
    unfold resolveDelta
    rw [hB]
    simp only
    rw [putObject_refused goos _ _ _ _ hfree hw]
  · have hne : A.source ≠ [] := by
      rw [hsrc]; exact sha1_ne_nil _
    have hpath : st (objectPath (hex (A.source.take 1)) (hex (A.source.drop 1))) = none := by
      rw [(hex_take_drop _ hne).1, (hex_take_drop _ hne).2, hsrc]
      exact hfree
    have hr : readObject st A.source = .error .fatal := by
      unfold readObject
      rw [if_neg hne, hpath]
    have ht : deltaTarget st A = .error .fatal := by
      unfold deltaTarget at hA ⊢
      cases hh : readDeltaHeader A.content with
      | error e' => rw [hh] at hA; cases hA
      | ok v =>
        obtain ⟨sourceSize, targetSize, i⟩ := v
        rw [hh] at hA
        simp only at hA ⊢
        cases hm : makeslice targetSize with
        | error e' => rw [hm] at hA; cases hA
        | ok tb => simp only [hr]
    rw [resolveDeltas]
    unfold resolveDelta
    rw [ht]
  · obtain ⟨e, _, he⟩ := resolveDeltas_missing_base goos st' d ds h
    exact ⟨e, he⟩

set_option maxRecDepth 1000000 in
/-- The two deltas of the sample packs on the store that holds the blob `abc`, where the
handle of a new object file accepts writes: the first makes `bcXYa` from `abc`, the
second `bcXYa!` from `bcXYa`. -/
theorem C12_resolution_in_pack_order_witness :
    resolveDeltas .windows
        [{ source := sampleHash, content := [3, 5, 0x91, 1, 2, 2, 0x58, 0x59, 0x90, 1],
           spare := [] },
         { source := hashBcXYa, content := [5, 6, 0x90, 5, 1, 0x21], spare := [] }]
        sampleStore =
      ((hashObject .windows true (ascii "blob") 6 (ascii "bcXYa!")
        (hashObject .windows true (ascii "blob") 5 (ascii "bcXYa") sampleStore).2).2, .ok ()) ∧
    resolveDeltas .windows
        [{ source := hashBcXYa, content := [5, 6, 0x90, 5, 1, 0x21], spare := [] },
         { source := sampleHash, content := [3, 5, 0x91, 1, 2, 2, 0x58, 0x59, 0x90, 1],
           spare := [] }]
        sampleStore = (sampleStore, .error .fatal) :=
  have h := C12_resolution_in_pack_order .windows sampleStore
    { source := hashBcXYa, content := [5, 6, 0x90, 5, 1, 0x21], spare := [] }
    { source := sampleHash, content := [3, 5, 0x91, 1, 2, 2, 0x58, 0x59, 0x90, 1], spare := [] }
    (ascii "blob") 5 (ascii "bcXYa") (ascii "blob") 6 (ascii "bcXYa!")
    (by decide) (by decide) (by decide) (by decide)
  ⟨(h.1 rfl).2, h.2.2.1⟩

set_option maxRecDepth 1000000 in
/-- Claim C12 (counterexample). The packs `packChainInOrder` and `packChainReversed` hold
the same three entries: the blob `abc`, the ref-delta `B` that makes `bcXYa` from it,
and the ref-delta `A` whose base is the hash of `bcXYa`.  Where the handle of a new
object file accepts writes: with `B` before `A`, `unpackObjects` returns and the
store holds `bcXYa` and `bcXYa!`; with `A` before `B` it ends the program and the
store holds neither. -/
theorem C12_counterexample :
    (hashObject .windows false (ascii "blob") 5 (ascii "bcXYa") emptyStore).1 = .ok hashBcXYa ∧
    (unpackObjects .windows storedZlib packChainInOrder emptyStore).2 = .ok () ∧
    readObject (unpackObjects .windows storedZlib packChainInOrder emptyStore).1 hashBcXYa =
      .ok (ascii "blob", 5, ascii "bcXYa") ∧
    readObject (unpackObjects .windows storedZlib packChainInOrder emptyStore).1 hashBcXYaBang =
      .ok (ascii "blob", 6, ascii "bcXYa!") ∧
    (unpackObjects .windows storedZlib packChainReversed emptyStore).2 = .error .fatal ∧
    readObject (unpackObjects .windows storedZlib packChainReversed emptyStore).1 hashBcXYa =
      .error .fatal ∧
    readObject (unpackObjects .windows storedZlib packChainReversed emptyStore).1 hashBcXYaBang =
      .error .fatal := by
  decide

/-! ## Checkout of a stored commit -/

theorem decimalLoop_length_le :
    ∀ (fuel n k : Nat) (acc : Bytes), n < 10 ^ (k + 1) →
      (decimalLoop fuel n acc).length ≤ acc.length + (k + 1) := by
  intro fuel
  induction fuel with
  | zero => intro n k acc _; simp [decimalLoop]
  | succ fuel ih =>
    intro n k acc hn
    unfold decimalLoop
    by_cases h0 : n / 10 = 0
    · rw [if_pos h0]
      simp only [List.length_cons]
      omega
    · rw [if_neg h0]
      cases k with
      | zero =>
        simp only [zero_add, pow_one] at hn
        exact absurd (Nat.div_eq_of_lt hn) h0
      | succ k =>
        have h1 : n / 10 < 10 ^ (k + 1) := by
          rw [Nat.div_lt_iff_lt_mul (by norm_num)]
          calc n < 10 ^ (k + 1 + 1) := hn
            _ = 10 ^ (k + 1) * 10 := by ring
        have := ih (n / 10) k (UInt8.ofNat (48 + n % 10) :: acc) h1
        simp only [List.length_cons] at this
        omega

theorem objectHeader_length_le (ty : Bytes) (n : Nat) (hn : n ≤ maxAlloc) :
    (objectHeader ty (n : Nat)).length ≤ ty.length + 22 := by
  rw [objectHeader_natCast]
  have h := decimalLoop_length_le (n + 1) n 19 [] (by unfold maxAlloc at hn; norm_num at hn ⊢; omega)
  simp only [List.length_append, List.length_cons, List.length_nil, decimal] at h ⊢
  omega

/-- A commit whose object file is in the store, however long, is checked out at the tree
its first line names: the first line lies within the first buffer load of
`readObject`. -/
theorem checkoutCommit_of_stored (st : Store) (depth : Nat) (root digits rest : Bytes)
    (hl : digits.length = 40) (hd : ∀ c ∈ digits, isHexDigit c = true)
    (hn : (ascii "tree " ++ digits ++ 0x0A :: rest).length ≤ maxAlloc) :
    checkoutCommit
        (st.write
          (objectPath
            ((hex (sha1 (objectHeader (ascii "commit")
              ((ascii "tree " ++ digits ++ 0x0A :: rest).length : Nat) ++
                (ascii "tree " ++ digits ++ 0x0A :: rest)))).take 2)
            ((hex (sha1 (objectHeader (ascii "commit")
              ((ascii "tree " ++ digits ++ 0x0A :: rest).length : Nat) ++
                (ascii "tree " ++ digits ++ 0x0A :: rest)))).drop 2))
          (objectHeader (ascii "commit")
            ((ascii "tree " ++ digits ++ 0x0A :: rest).length : Nat) ++
              (ascii "tree " ++ digits ++ 0x0A :: rest))) depth
        (sha1 (objectHeader (ascii "commit")
          ((ascii "tree " ++ digits ++ 0x0A :: rest).length : Nat) ++
            (ascii "tree " ++ digits ++ 0x0A :: rest))) root =
      checkoutTree
        (st.write
          (objectPath
            ((hex (sha1 (objectHeader (ascii "commit")
              ((ascii "tree " ++ digits ++ 0x0A :: rest).length : Nat) ++
                (ascii "tree " ++ digits ++ 0x0A :: rest)))).take 2)
            ((hex (sha1 (objectHeader (ascii "commit")
              ((ascii "tree " ++ digits ++ 0x0A :: rest).length : Nat) ++
                (ascii "tree " ++ digits ++ 0x0A :: rest)))).drop 2))
          (objectHeader (ascii "commit")
            ((ascii "tree " ++ digits ++ 0x0A :: rest).length : Nat) ++
              (ascii "tree " ++ digits ++ 0x0A :: rest))) depth (hexBytes digits) root [] := by
  have hH := objectHeader_length_le (ascii "commit")
    (ascii "tree " ++ digits ++ 0x0A :: rest).length hn
  have hty : (ascii "commit").length = 6 := rfl
  rw [hty] at hH
  have hr := readObject_written st (ascii "commit") (ascii "tree " ++ digits ++ 0x0A :: rest)
    (by decide) (by unfold bufSize; omega) hn
  generalize hk : bufSize - (objectHeader (ascii "commit")
    ((ascii "tree " ++ digits ++ 0x0A :: rest).length : Nat)).length = k at hr
  have hk46 : 46 ≤ k := by unfold bufSize at hk; omega
  have htake : (ascii "tree " ++ digits ++ 0x0A :: rest).take k =
      ascii "tree " ++ digits ++ 0x0A :: rest.take (k - 46) := by
    have e : ascii "tree " ++ digits ++ 0x0A :: rest = (ascii "tree " ++ digits ++ [0x0A]) ++ rest := by
      simp
    have l46 : (ascii "tree " ++ digits ++ [0x0A]).length = 46 := by
      simp [ascii, hl]
    rw [e, List.take_append_eq_append_take, List.take_of_length_le (by omega), l46]
    simp
  rw [htake] at hr
  unfold checkoutCommit
  rw [hr]
  simp only [ne_eq, not_true_eq_false, if_false]
  rw [show ascii "tree " ++ digits ++ 0x0A :: rest.take (k - 46) ++
      List.replicate ((ascii "tree " ++ digits ++ 0x0A :: rest).length - k) 0 =
      ascii "tree " ++ digits ++ 0x0A :: (rest.take (k - 46) ++
        List.replicate ((ascii "tree " ++ digits ++ 0x0A :: rest).length - k) 0) by simp]
  rw [(commitTreeHash_firstLine digits _ 20 hl hd).1]

/-! ## The entry loop of `checkoutTree` ends -/

theorem mem_split_first (d : UInt8) (l : Bytes) (h : d ∈ l) :
    ∃ x y, l = x ++ d :: y ∧ d ∉ x := by
  cases hi : indexByte d l with
  | none => exact absurd h (indexByte_none_notMem d l hi)
  | some k =>
    obtain ⟨u, v, e, hu, _⟩ := indexByte_eq_some d l k hi
    exact ⟨u, v, e, hu⟩

/-- Go `ReadString` takes bytes away from the reader, at least one when it finds the
delimiter. -/
theorem readString_pending (b : BufReader) (delim : UInt8) :
    ((b.readString delim).2.2.buf ++ (b.readString delim).2.2.rest).length +
        (if (b.readString delim).2.1 = true then 1 else 0) ≤ (b.buf ++ b.rest).length := by
  by_cases h : delim ∈ b.buf ++ b.rest
  · obtain ⟨x, y, e, hx⟩ := mem_split_first delim _ h
    obtain ⟨r, hr, hy⟩ := readString_found b delim x y hx e
    rw [hr]
    simp only [if_true, hy, e, List.length_append, List.length_cons]
    omega
  · rw [readString_notFound b delim h]
    simp

theorem read_pending (b : BufReader) (n : Nat) :
    ((b.read n).2.buf ++ (b.read n).2.rest).length ≤ (b.buf ++ b.rest).length := by
  unfold BufReader.read
  split_ifs with h0 h1 h2
  · exact le_refl _
  · simp only [h1, List.nil_append, List.length_drop]
    omega
  · simp only [h1, List.nil_append, List.length_append, List.length_drop, BufReader.fill,
      List.length_nil, Nat.sub_zero, List.length_take]
    omega
  · simp only [List.length_append, List.length_drop]
    omega

/-- With more iterations allowed than the reader holds bytes, the entry loop comes to an
end, provided the calls of `checkoutTree` for the directory entries do. -/
theorem checkoutEntries_total (st : Store)
    (rec : Bytes → Bytes → List FsOp → Option (List FsOp × Except Failure Unit))
    (hrec : ∀ h p o, ∃ r, rec h p o = some r) :
    ∀ (fuel : Nat) (reader : BufReader) (path : Bytes) (ops : List FsOp),
      (reader.buf ++ reader.rest).length < fuel →
      ∃ r, checkoutEntries st rec fuel reader path ops = some r := by
  intro fuel
  induction fuel with
  | zero => intro _ _ _ h; omega
  | succ fuel ih =>
    intro reader path ops hlt
    rw [checkoutEntries]
    simp only
    have p1 := readString_pending reader 0x20
    have p2 := readString_pending (reader.readString 0x20).2.2 0
    have p3 := read_pending ((reader.readString 0x20).2.2.readString 0).2.2 20
    by_cases h1 : (reader.readString 0x20).2.1 = true
    swap
    · simp only [Bool.not_eq_true] at h1
      simp [h1]
    rw [if_pos h1] at p1
    simp only [h1, Bool.not_true, Bool.false_eq_true, if_false]
    split_ifs
    · exact ⟨_, rfl⟩
    · exact ⟨_, rfl⟩
    · cases checkoutFile st _ _ with
      | error e => exact ⟨_, rfl⟩
      | ok op => exact ih _ _ _ (by omega)
    · obtain ⟨r, hr⟩ := hrec
        ((((reader.readString 0x20).2.2.readString 0).2.2.read 20).1 ++
          List.replicate (20 - (((reader.readString 0x20).2.2.readString 0).2.2.read 20).1.length) 0)
        (joinPath path ((reader.readString 0x20).2.2.readString 0).1.dropLast) ops
      rw [hr]
      obtain ⟨ops', res⟩ := r
      cases res with
      | error e => exact ⟨_, rfl⟩
      | ok u => exact ih _ _ _ (by omega)
    · exact ih _ _ _ (by omega)

/-! ## Offset deltas and the pack header -/

theorem unpackEntries_prefix (goos : GOOS) (Z : Zlib) :
    ∀ (k m : Nat) (reader : BufReader) (st : Store) (saved : List objDelta)
      (reader' : BufReader) (st' : Store) (saved' : List objDelta),
      unpackPrefix goos Z k reader st saved = (st', .ok (reader', saved')) →
      unpackEntries goos Z (k + m) reader st saved =
        unpackEntries goos Z m reader' st' saved' := by
  intro k
  induction k with
  | zero =>
    intro m reader st saved reader' st' saved' h
    simp only [unpackPrefix, Prod.mk.injEq, Except.ok.injEq] at h
    rw [Nat.zero_add, h.1, h.2.1, h.2.2]
  | succ k ih =>
    intro m reader st saved reader' st' saved' h
    rw [show k + 1 + m = (k + m) + 1 by omega, unpackEntries]
    rw [unpackPrefix] at h
    revert h
    cases unpackEntry goos Z reader st saved with
    | mk s1 r1 =>
      cases r1 with
      | error e => intro h; simp at h
      | ok v => intro h; exact ih m v.1 s1 v.2 reader' st' saved' h

/-- The first entries of a pack lose no file of the object directory. -/
theorem unpackPrefix_keeps (goos : GOOS) (Z : Zlib) :
    ∀ (k : Nat) (reader : BufReader) (st : Store) (saved : List objDelta) (q : List Char)
      (s : ObjFile), st q = some s → (unpackPrefix goos Z k reader st saved).1 q = some s := by
  intro k
  induction k with
  | zero => intro reader st saved q s hq; exact hq
  | succ k ih =>
    intro reader st saved q s hq
    rw [unpackPrefix]
    have hk := unpackEntry_keeps goos Z reader st saved q s hq
    revert hk
    cases unpackEntry goos Z reader st saved with
    | mk s1 r1 =>
      cases r1 with
      | error e => exact fun hk => hk
      | ok v => exact fun hk => ih v.1 s1 v.2 q s hk

/-- What the first `j` entries of a pack have left in the object directory is still there
after the entries that follow them. -/
theorem unpackPrefix_keeps_from (goos : GOOS) (Z : Zlib) :
    ∀ (j m : Nat) (reader : BufReader) (st : Store) (saved : List objDelta) (q : List Char)
      (s : ObjFile), (unpackPrefix goos Z j reader st saved).1 q = some s →
      (unpackPrefix goos Z (j + m) reader st saved).1 q = some s := by
  intro j
  induction j with
  | zero =>
    intro m reader st saved q s hq
    rw [Nat.zero_add]
    exact unpackPrefix_keeps goos Z m reader st saved q s hq
  | succ j ih =>
    intro m reader st saved q s hq
    rw [show j + 1 + m = (j + m) + 1 by omega, unpackPrefix]
    rw [unpackPrefix] at hq
    revert hq
    cases unpackEntry goos Z reader st saved with
    | mk s1 r1 =>
      cases r1 with
      | error e => exact fun hq => hq
      | ok v => exact fun hq => ih m v.1 s1 v.2 q s hq

/-- An entry of type 6 ends the program as soon as its header is read. -/
theorem unpackEntry_ofsDelta (goos : GOOS) (Z : Zlib) (reader : BufReader) (st : Store)
    (saved : List objDelta) (informedSize n : Nat) (rest : Bytes)
    (hh : readEntryHeader (reader.buf ++ reader.rest) = .ok (OBJ_OFS_DELTA, informedSize, n, rest)) :
    unpackEntry goos Z reader st saved = (st, .error .fatal) := by
  unfold unpackEntry
  rw [hh]
  simp

/-- Claim C21. On every system, let the entry loop have read the first `k` entries of a
pack, leaving the store `st'`, and let the header of the next entry decode to type
6.  Then `unpackObjects` ends the program there: the store it leaves is `st'`, the
store as the entries before left it, with nothing added for this entry or a later
one and no delta resolved.  Every file that was in the store at the start is still
there, and so is every file that was in the store after any number `j ≤ k` of the
entries before: what they stored remains stored.  (On a Unix system the loop gets
past a direct entry, and so reaches the entry of type 6, only when the object file
of that direct entry exists already: `hashObject` cannot write a new one.) -/
theorem C21_offset_delta_refused (goos : GOOS) (Z : Zlib) (version count entries : Bytes)
    (st : Store) (k : Nat) (reader' : BufReader) (st' : Store) (saved' : List objDelta)
    (informedSize n : Nat) (rest : Bytes)
    (hv : version.length = 4) (hc : count.length = 4) (hk : k < bigEndianBytesToUint count)
    (hpre : unpackPrefix goos Z k
      { buf := ((ascii "PACK" ++ version ++ count ++ entries).take bufSize).drop 12,
        rest := (ascii "PACK" ++ version ++ count ++ entries).drop bufSize } st [] =
      (st', .ok (reader', saved')))
    (hh : readEntryHeader (reader'.buf ++ reader'.rest) =
      .ok (OBJ_OFS_DELTA, informedSize, n, rest)) :
    unpackObjects goos Z (ascii "PACK" ++ version ++ count ++ entries) st =
      (st', .error .fatal) ∧
    (∀ q s, st q = some s → st' q = some s) ∧
    ∀ j, j ≤ k → ∀ q s,
      (unpackPrefix goos Z j
        { buf := ((ascii "PACK" ++ version ++ count ++ entries).take bufSize).drop 12,
          rest := (ascii "PACK" ++ version ++ count ++ entries).drop bufSize } st []).1 q =
        some s →
      st' q = some s := by
  have hj : ∀ j, j ≤ k → ∀ q s,
      (unpackPrefix goos Z j
        { buf := ((ascii "PACK" ++ version ++ count ++ entries).take bufSize).drop 12,
          rest := (ascii "PACK" ++ version ++ count ++ entries).drop bufSize } st []).1 q =
        some s →
      st' q = some s := by
    intro j hjk q s hq
    have := unpackPrefix_keeps_from goos Z j (k - j) _ st [] q s hq
    rw [show j + (k - j) = k by omega, hpre] at this
    exact this
  refine ⟨?_, fun q s hq => hj 0 (Nat.zero_le _) q s hq, hj⟩
  rw [unpackObjects_header goos Z version count entries st hv hc]
  obtain ⟨m, hm⟩ : ∃ m, bigEndianBytesToUint count = k + (m + 1) :=
    ⟨bigEndianBytesToUint count - k - 1, by omega⟩
  rw [hm, unpackEntries_prefix goos Z k (m + 1) _ st [] reader' st' saved' hpre, unpackEntries,
    unpackEntry_ofsDelta goos Z reader' st' saved' informedSize n rest hh]

set_option maxRecDepth 1000000 in
/-- The pack `packWithOfsDelta`.  On a Unix system, in an object directory that holds the
blob `abc`: the entry of the blob finds its object file and leaves it, then the
entry of type 6 ends the program, and the directory is as it was, the blob `abc`
still stored.  On Windows, in an empty object directory: the entry of the blob
writes its object file, then the entry of type 6 ends the program, and the
directory holds the blob `abc`. -/
theorem C21_offset_delta_refused_witness :
    unpackObjects .unix storedZlib packWithOfsDelta sampleStore = (sampleStore, .error .fatal) ∧
    unpackObjects .windows storedZlib packWithOfsDelta emptyStore =
      (sampleStore, .error .fatal) := by
  have hpre : unpackPrefix .unix storedZlib 1
      { buf := ((ascii "PACK" ++ [0, 0, 0, 2] ++ [0, 0, 0, 2] ++
          (entryAbc ++ [0x63, 0x0e, 0x78, 0x9c])).take bufSize).drop 12,
        rest := (ascii "PACK" ++ [0, 0, 0, 2] ++ [0, 0, 0, 2] ++
          (entryAbc ++ [0x63, 0x0e, 0x78, 0x9c])).drop bufSize } sampleStore [] =
      (sampleStore, .ok ({ buf := [0x63, 0x0e, 0x78, 0x9c], rest := [] }, [])) := by
    apply Prod.ext
    · rfl
    · decide
  have hpre' : unpackPrefix .windows storedZlib 1
      { buf := ((ascii "PACK" ++ [0, 0, 0, 2] ++ [0, 0, 0, 2] ++
          (entryAbc ++ [0x63, 0x0e, 0x78, 0x9c])).take bufSize).drop 12,
        rest := (ascii "PACK" ++ [0, 0, 0, 2] ++ [0, 0, 0, 2] ++
          (entryAbc ++ [0x63, 0x0e, 0x78, 0x9c])).drop bufSize } emptyStore [] =
      (sampleStore, .ok ({ buf := [0x63, 0x0e, 0x78, 0x9c], rest := [] }, [])) := by
    apply Prod.ext
    · rfl
    · decide
  exact ⟨(C21_offset_delta_refused .unix storedZlib [0, 0, 0, 2] [0, 0, 0, 2] _ sampleStore 1
      _ _ _ 3 1 [0x0e, 0x78, 0x9c] rfl rfl (by decide) hpre (by decide)).1,
    (C21_offset_delta_refused .windows storedZlib [0, 0, 0, 2] [0, 0, 0, 2] _ emptyStore 1
      _ _ _ 3 1 [0x0e, 0x78, 0x9c] rfl rfl (by decide) hpre' (by decide)).1⟩

/-- Function `bigEndianBytesToUint` on four bytes is their big-endian value. -/
theorem bigEndianBytesToUint_eq (b : Bytes) :
    bigEndianBytesToUint b =
      (b.getD 0 0).toNat * 2 ^ 24 + (b.getD 1 0).toNat * 2 ^ 16 + (b.getD 2 0).toNat * 2 ^ 8 +
        (b.getD 3 0).toNat := by
  unfold bigEndianBytesToUint
  generalize (b.getD 0 0) = b₀
  generalize (b.getD 1 0) = b₁
  generalize (b.getD 2 0) = b₂
  generalize (b.getD 3 0) = b₃
  have h0 := UInt8.toNat_lt b₀
  have h1 := UInt8.toNat_lt b₁
  have h2 := UInt8.toNat_lt b₂
  have h3 := UInt8.toNat_lt b₃
  have e : b₀.toNat <<< 24 ||| b₁.toNat <<< 16 ||| b₂.toNat <<< 8 ||| b₃.toNat =
      (((0 ||| (b₃.toNat <<< 0)) ||| (b₂.toNat <<< 8)) ||| (b₁.toNat <<< 16)) |||
        (b₀.toNat <<< 24) := by
    simp only [Nat.shiftLeft_zero, Nat.zero_or]
    rw [Nat.lor_comm (b₀.toNat <<< 24 ||| b₁.toNat <<< 16 ||| b₂.toNat <<< 8) b₃.toNat,
      Nat.lor_comm (b₀.toNat <<< 24 ||| b₁.toNat <<< 16) (b₂.toNat <<< 8),
      Nat.lor_comm (b₀.toNat <<< 24) (b₁.toNat <<< 16)]
    simp only [Nat.lor_assoc]
  rw [e, or_bytes4 _ _ _ _ h3 h2 h1]
  rw [Nat.mod_eq_of_lt (by norm_num; omega)]
  ring

/-- The header of a pack of at least twelve bytes: the magic decides whether the entry
loop starts, and the last four bytes bound its iterations. -/
theorem unpackObjects_of_length (goos : GOOS) (Z : Zlib) (packContent : Bytes) (st : Store)
    (hlen : 12 ≤ packContent.length) :
    unpackObjects goos Z packContent st =
      if packContent.take 4 ≠ ascii "PACK" then (st, .error .fatal)
      else
        match unpackEntries goos Z (bigEndianBytesToUint (packContent.drop 8))
            { buf := (packContent.take bufSize).drop 12, rest := packContent.drop bufSize }
            st [] with
        | (st, .error e) => (st, .error e)
        | (st, .ok savedObjDeltas) => resolveDeltas goos savedObjDeltas st := by
  unfold unpackObjects
  simp only [read_fresh _ 12 (by norm_num) (by norm_num [bufSize])]
  have hl : (packContent.take 12).length = 12 := by
    rw [List.length_take]; omega
  have hne : packContent.take 12 ≠ [] := by
    intro e; rw [e] at hl; simp at hl
  rw [if_neg hne, hl]
  simp only [Nat.sub_self, List.replicate_zero, List.append_nil, List.take_take]
  have hbe : bigEndianBytesToUint ((packContent.take 12).drop 8) =
      bigEndianBytesToUint (packContent.drop 8) := by
    rw [bigEndianBytesToUint_eq, bigEndianBytesToUint_eq]
    have hg : ∀ j, j < 4 → ((packContent.take 12).drop 8).getD j 0 =
        (packContent.drop 8).getD j 0 := by
      intro j hj
      simp only [List.getD_eq_getElem?_getD, List.getElem?_drop]
      rw [List.getElem?_take_of_lt (by omega)]
    rw [hg 0 (by norm_num), hg 1 (by norm_num), hg 2 (by norm_num), hg 3 (by norm_num)]
  rw [hbe]
  rfl

/-- Claim C22 (amended). A pack of at least twelve bytes whose first four bytes differ from
`PACK` ends the program before anything is read or stored, whatever follows the
header and whatever the inflater does.  When the first four bytes are `PACK` the
entry loop starts, whatever the version, and runs at most as many iterations as the
big-endian value of bytes 8 to 11; the outcome of `unpackObjects` is then the outcome
of that loop and of the delta loop. -/
theorem C22_pack_header_check (goos : GOOS) (Z : Zlib) (packContent : Bytes) (st : Store)
    (hlen : 12 ≤ packContent.length) :
    (packContent.take 4 ≠ ascii "PACK" →
      unpackObjects goos Z packContent st = (st, .error .fatal)) ∧
    (packContent.take 4 = ascii "PACK" →
      unpackObjects goos Z packContent st =
        match unpackEntries goos Z
            ((packContent.getD 8 0).toNat * 2 ^ 24 + (packContent.getD 9 0).toNat * 2 ^ 16 +
              (packContent.getD 10 0).toNat * 2 ^ 8 + (packContent.getD 11 0).toNat)
            { buf := (packContent.take bufSize).drop 12, rest := packContent.drop bufSize }
            st [] with
        | (st, .error e) => (st, .error e)
        | (st, .ok savedObjDeltas) => resolveDeltas goos savedObjDeltas st) := by
  have h := unpackObjects_of_length goos Z packContent st hlen
  constructor
  · intro hm
    rw [h, if_pos hm]
  · intro hm
    rw [h, if_neg (by simpa using hm), bigEndianBytesToUint_eq]
    simp only [List.getD_eq_getElem?_getD, List.getElem?_drop]

/-- A pack of sixteen bytes with the magic `PUCK`. -/
theorem C22_pack_header_check_witness :
    unpackObjects .unix storedZlib
      (ascii "PUCK" ++ [0, 0, 0, 2, 0, 0, 0, 1, 0x33, 0x78, 0x01, 0x01])
      emptyStore = (emptyStore, .error .fatal) :=
  (C22_pack_header_check .unix storedZlib _ emptyStore (by decide)).1 (by decide)

/-- Claim C22 (counterexample). The twelve bytes `PACK`, version 2, count 1, with no entry
behind them: the first four bytes are `PACK`, and `unpackObjects` ends the program
before it has stored anything, when it finds no header byte for the first entry. -/
theorem C22_counterexample :
    (ascii "PACK" ++ [0, 0, 0, 2] ++ [0, 0, 0, 1] ++ []).take 4 = ascii "PACK" ∧
    12 ≤ (ascii "PACK" ++ [0, 0, 0, 2] ++ [0, 0, 0, 1] ++ ([] : Bytes)).length ∧
    ∀ goos : GOOS,
      unpackObjects goos storedZlib (ascii "PACK" ++ [0, 0, 0, 2] ++ [0, 0, 0, 1] ++ [])
        emptyStore = (emptyStore, .error .fatal) := by
  refine ⟨by decide, by decide, fun goos => ?_⟩
  rw [unpackObjects_header goos storedZlib [0, 0, 0, 2] [0, 0, 0, 1] [] emptyStore rfl rfl]
  rfl

/-! ## The object a delta stores -/

/-- Claim C23. On every system, when the iteration of the delta loop for a saved delta
returns, `readObject` has returned the base with some type string, the header of
the delta holds the size of that base and a target size, the instruction loop has
filled a buffer of that many bytes, and the iteration has called `hashObject` with
the type string of the base, the target size and that buffer.  The call has
returned the SHA-1 of that type string, a space, the target size in decimal, a NUL
and the buffer; a file is at the path of that hash; and a file that was not there
before holds exactly those bytes. -/
theorem C23_delta_keeps_type (goos : GOOS) (st st' : Store) (d : objDelta)
    (h : resolveDelta goos st d = (st', .ok ())) :
    ∃ (ty : Bytes) (sourceSize : Nat) (base : Bytes) (targetSize i₀ : Nat) (target : Bytes),
      readObject st d.source = .ok (ty, sourceSize, base) ∧
      readDeltaHeader d.content = .ok (sourceSize, targetSize, i₀) ∧
      target.length = targetSize ∧
      deltaTarget st d = .ok (ty, targetSize, target) ∧
      hashObject goos true ty (targetSize : Nat) target st =
        (.ok (sha1 (ty ++ [0x20] ++ decimal targetSize ++ [0] ++ target)), st') ∧
      (st' (objectPath
          ((hex (sha1 (ty ++ [0x20] ++ decimal targetSize ++ [0] ++ target))).take 2)
          ((hex (sha1 (ty ++ [0x20] ++ decimal targetSize ++ [0] ++ target))).drop 2))).isSome =
        true ∧
      ∀ q, st' q ≠ st q →
        st' q = some (.deflated (ty ++ [0x20] ++ decimal targetSize ++ [0] ++ target)) := by
  have hdt : ∃ ty targetSize target, deltaTarget st d = .ok (ty, targetSize, target) := by
    unfold resolveDelta at h
    cases ht : deltaTarget st d with
    | error e => rw [ht] at h; simp at h
    | ok v => exact ⟨v.1, v.2.1, v.2.2, rfl⟩
  obtain ⟨ty, n, buf, ht⟩ := hdt
  have hput : putObject goos ty (n : Nat) buf st = (st', .ok ()) := by
    unfold resolveDelta at h
    rw [ht] at h
    exact h
  have hlen := deltaTarget_length st d ty n buf ht
  have hhdr : objectHeader ty (n : Nat) ++ buf = ty ++ [0x20] ++ decimal n ++ [0] ++ buf := by
    rw [objectHeader_natCast]
    simp
  have hho : hashObject goos true ty (n : Nat) buf st =
      (.ok (sha1 (ty ++ [0x20] ++ decimal n ++ [0] ++ buf)), st') := by
    rw [putObject_eq] at hput
    have h1 := hashObject_fst goos true ty (n : Nat) buf st
    have h2 : (hashObject goos true ty (n : Nat) buf st).2 = st' := congrArg Prod.fst hput
    have h3 : (hashObject goos true ty (n : Nat) buf st).1.map (fun _ => ()) = .ok () :=
      congrArg Prod.snd hput
    split at h1
    · rw [h1] at h3
      cases h3
    · exact Prod.ext (by rw [h1, hhdr]) h2
  have hst' : (hashObject goos true ty (n : Nat) buf st).2 = st' := congrArg Prod.snd hho
  have hcopy := ht
  unfold deltaTarget at ht
  cases hh : readDeltaHeader d.content with
  | error e => rw [hh] at ht; cases ht
  | ok hdr =>
    obtain ⟨sourceSize, targetSize, i₀⟩ := hdr
    rw [hh] at ht
    simp only at ht
    cases hm : makeslice targetSize with
    | error e => rw [hm] at ht; cases ht
    | ok tb =>
      rw [hm] at ht
      simp only at ht
      cases hr : readObject st d.source with
      | error e => rw [hr] at ht; cases ht
      | ok r =>
        obtain ⟨sty, readSize, base⟩ := r
        rw [hr] at ht
        simp only at ht
        by_cases hs : sourceSize ≠ readSize
        · rw [if_pos hs] at ht; cases ht
        · rw [if_neg hs] at ht
          simp only [ne_eq, not_not] at hs
          cases hrep : replaySteps d.content d.spare base d.content.length (i₀, 0, tb) with
          | error e => rw [hrep] at ht; cases ht
          | ok w =>
            obtain ⟨j, ti, tb'⟩ := w
            rw [hrep] at ht
            simp only [Except.ok.injEq, Prod.mk.injEq] at ht
            obtain ⟨rfl, rfl, rfl⟩ := ht
            refine ⟨sty, sourceSize, base, targetSize, i₀, tb', ?_, rfl, hlen, hcopy, hho, ?_, ?_⟩
            · rw [hs]
            · rw [← hst', hashObject_snd, ← hhdr]
              split
              · split <;> rfl
              · rename_i hc
                cases hq : st (objectPath
                    ((hex (sha1 (objectHeader sty (targetSize : Nat) ++ tb'))).take 2)
                    ((hex (sha1 (objectHeader sty (targetSize : Nat) ++ tb'))).drop 2)) with
                | none => exact absurd ⟨rfl, rfl, hq⟩ hc
                | some f => rfl
            · intro q hq
              rw [← hst'] at hq ⊢
              rw [hashObject_snd] at hq ⊢
              by_cases hc : true = true ∧
                  q = objectPath
                    ((hex (sha1 (objectHeader sty (targetSize : Nat) ++ tb'))).take 2)
                    ((hex (sha1 (objectHeader sty (targetSize : Nat) ++ tb'))).drop 2) ∧
                  st q = none
              · rw [if_pos hc]
                cases hw : createOnlyWritable goos with
                | true => rw [← hhdr]; simp
                | false =>
                  exfalso
                  have h1 := hashObject_fst goos true sty (targetSize : Nat) tb' st
                  rw [if_pos ⟨rfl, by rw [← hc.2.1]; exact hc.2.2, hw⟩] at h1
                  rw [hho] at h1
                  cases h1
              · rw [if_neg hc] at hq
                exact absurd rfl hq

set_option maxRecDepth 1000000 in
/-- The delta of the sample packs that makes `bcXYa` from the blob `abc`: on a Unix system
in an object directory that holds both blobs, where the iteration finds the object
file of `bcXYa` and leaves it, and on Windows in an object directory that holds the
blob `abc`, where the iteration writes that file. -/
theorem C23_delta_keeps_type_witness :
    (∃ (ty : Bytes) (sourceSize : Nat) (base : Bytes) (targetSize i₀ : Nat) (target : Bytes),
      readObject twoBlobStore deltaBcXYa.source = .ok (ty, sourceSize, base) ∧
      readDeltaHeader deltaBcXYa.content = .ok (sourceSize, targetSize, i₀) ∧
      target.length = targetSize ∧
      deltaTarget twoBlobStore deltaBcXYa = .ok (ty, targetSize, target) ∧
      hashObject .unix true ty (targetSize : Nat) target twoBlobStore =
        (.ok (sha1 (ty ++ [0x20] ++ decimal targetSize ++ [0] ++ target)),
          (resolveDelta .unix twoBlobStore deltaBcXYa).1) ∧
      ((resolveDelta .unix twoBlobStore deltaBcXYa).1 (objectPath
          ((hex (sha1 (ty ++ [0x20] ++ decimal targetSize ++ [0] ++ target))).take 2)
          ((hex (sha1 (ty ++ [0x20] ++ decimal targetSize ++ [0] ++ target))).drop 2))).isSome =
        true ∧
      ∀ q, (resolveDelta .unix twoBlobStore deltaBcXYa).1 q ≠ twoBlobStore q →
        (resolveDelta .unix twoBlobStore deltaBcXYa).1 q =
          some (.deflated (ty ++ [0x20] ++ decimal targetSize ++ [0] ++ target))) ∧
    (∃ (ty : Bytes) (sourceSize : Nat) (base : Bytes) (targetSize i₀ : Nat) (target : Bytes),
      readObject sampleStore deltaBcXYa.source = .ok (ty, sourceSize, base) ∧
      readDeltaHeader deltaBcXYa.content = .ok (sourceSize, targetSize, i₀) ∧
      target.length = targetSize ∧
      deltaTarget sampleStore deltaBcXYa = .ok (ty, targetSize, target) ∧
      hashObject .windows true ty (targetSize : Nat) target sampleStore =
        (.ok (sha1 (ty ++ [0x20] ++ decimal targetSize ++ [0] ++ target)),
          (resolveDelta .windows sampleStore deltaBcXYa).1) ∧
      ((resolveDelta .windows sampleStore deltaBcXYa).1 (objectPath
          ((hex (sha1 (ty ++ [0x20] ++ decimal targetSize ++ [0] ++ target))).take 2)
          ((hex (sha1 (ty ++ [0x20] ++ decimal targetSize ++ [0] ++ target))).drop 2))).isSome =
        true ∧
      ∀ q, (resolveDelta .windows sampleStore deltaBcXYa).1 q ≠ sampleStore q →
        (resolveDelta .windows sampleStore deltaBcXYa).1 q =
          some (.deflated (ty ++ [0x20] ++ decimal targetSize ++ [0] ++ target))) :=
  ⟨C23_delta_keeps_type .unix twoBlobStore _ deltaBcXYa
    (by
      apply Prod.ext
      · rfl
      · decide),
   C23_delta_keeps_type .windows sampleStore _ deltaBcXYa
    (by
      apply Prod.ext
      · rfl
      · decide)⟩

/-! ## Instructions at the end of the stream -/

theorem selByte_clear (content : Bytes) (bitmap bit shift : Nat) (s : Nat × Nat)
    (h : bitmap &&& bit = 0) : selByte content bitmap bit shift s = .ok s := by
  unfold selByte
  rw [if_neg (by simp [h])]

/-- One conditional read of the copy decoder moves the index by one when its bit is set,
and stays within the stream. -/
theorem selByte_index (content : Bytes) (bitmap bit shift : Nat) (s s' : Nat × Nat)
    (h : selByte content bitmap bit shift s = .ok s') :
    s'.2 = s.2 + (if bitmap &&& bit ≠ 0 then 1 else 0) ∧
      (s.2 ≤ content.length → s'.2 ≤ content.length) := by
  unfold selByte at h
  by_cases hb : bitmap &&& bit ≠ 0
  · rw [if_pos hb] at h
    cases hg : content[s.2]? with
    | none => rw [hg] at h; cases h
    | some b =>
      rw [hg] at h
      simp only [Except.ok.injEq] at h
      have hlt : s.2 < content.length := by
        by_contra hc
        rw [List.getElem?_eq_none (by omega)] at hg
        cases hg
      rw [← h, if_pos hb]
      exact ⟨rfl, fun _ => hlt⟩
  · rw [if_neg hb] at h
    simp only [Except.ok.injEq] at h
    rw [← h, if_neg hb]
    exact ⟨rfl, fun hle => hle⟩

/-- Every failure of the decoder is a run-time panic. -/
theorem decodeInstr_error (content spare : Bytes) (i : Nat) (e : Failure)
    (h : decodeInstr content spare i = .error e) : e = .panic := by
  have hs : ∀ (bitmap bit shift : Nat) (s : Nat × Nat) (e' : Failure),
      selByte content bitmap bit shift s = .error e' → e' = .panic := by
    intro bitmap bit shift s e' h'
    unfold selByte at h'
    split at h'
    · split at h'
      · cases h'; rfl
      · cases h'
    · cases h'
  unfold decodeInstr at h
  split at h
  · cases h; rfl
  · split at h
    · dsimp only at h
      split at h
      · rename_i e' h1; cases h; exact hs _ _ _ _ _ h1
      split at h
      · rename_i e' h1; cases h; exact hs _ _ _ _ _ h1
      split at h
      · rename_i e' h1; cases h; exact hs _ _ _ _ _ h1
      split at h
      · rename_i e' h1; cases h; exact hs _ _ _ _ _ h1
      split at h
      · rename_i e' h1; cases h; exact hs _ _ _ _ _ h1
      split at h
      · rename_i e' h1; cases h; exact hs _ _ _ _ _ h1
      split at h
      · rename_i e' h1; cases h; exact hs _ _ _ _ _ h1
      cases h
    · split at h
      · cases h
      · cases h; rfl

/-- A Copy that decodes has all its selected bytes within the stream. -/
theorem decodeInstr_copy_within (content spare : Bytes) (i : Nat) (opcode : UInt8)
    (ins : Instr) (i' : Nat) (hget : content[i]? = some opcode) (hop : 128 ≤ opcode.toNat)
    (h : decodeInstr content spare i = .ok (ins, i')) :
    i' = i + 1 + argsBefore opcode.toNat 7 ∧ i' ≤ content.length := by
  obtain ⟨h7, b0, b1, b2, b3, b4, b5, b6⟩ := opcode_bits opcode.toNat (UInt8.toNat_lt opcode)
  have h7' : opcode.toNat >>> 7 = 1 := h7.2 hop
  have hi : i < content.length := by
    by_contra hc
    rw [List.getElem?_eq_none (by omega)] at hget
    cases hget
  unfold decodeInstr at h
  rw [hget] at h
  simp only [h7', ↓reduceIte] at h
  split at h
  · cases h
  rename_i s1 h1
  split at h
  · cases h
  rename_i s2 h2
  split at h
  · cases h
  rename_i s3 h3
  split at h
  · cases h
  rename_i s4 h4
  split at h
  · cases h
  rename_i t1 g1
  split at h
  · cases h
  rename_i t2 g2
  split at h
  · cases h
  rename_i t3 g3
  simp only [Except.ok.injEq, Prod.mk.injEq] at h
  have a1 := selByte_index _ _ _ _ _ _ h1
  have a2 := selByte_index _ _ _ _ _ _ h2
  have a3 := selByte_index _ _ _ _ _ _ h3
  have a4 := selByte_index _ _ _ _ _ _ h4
  have c1 := selByte_index _ _ _ _ _ _ g1
  have c2 := selByte_index _ _ _ _ _ _ g2
  have c3 := selByte_index _ _ _ _ _ _ g3
  simp only at a1 c1
  have hb : ∀ (p : Prop) [Decidable p] (k : Nat), (p ↔ opcode.toNat.testBit k = true) →
      (if p then 1 else 0) = (if opcode.toNat.testBit k = true then 1 else 0) := by
    intro p _ k hp
    by_cases hk : opcode.toNat.testBit k = true
    · rw [if_pos hk, if_pos (hp.2 hk)]
    · rw [if_neg hk, if_neg (fun hh => hk (hp.1 hh))]
  rw [hb _ 0 b0] at a1
  rw [hb _ 1 b1] at a2
  rw [hb _ 2 b2] at a3
  rw [hb _ 3 b3] at a4
  rw [hb _ 4 b4] at c1
  rw [hb _ 5 b5] at c2
  rw [hb _ 6 b6] at c3
  simp only [argsBefore, Nat.zero_add]
  rw [← h.2]
  refine ⟨by omega, ?_⟩
  exact c3.2 (c2.2 (c1.2 (a4.2 (a3.2 (a2.2 (a1.2 (by omega)))))))

/-- A Copy whose selected offset or length bytes are not all in the stream makes the
decoder panic. -/
theorem decodeInstr_copy_truncated (content spare : Bytes) (i : Nat) (opcode : UInt8)
    (hget : content[i]? = some opcode) (hop : 128 ≤ opcode.toNat)
    (hlen : content.length < i + 1 + argsBefore opcode.toNat 7) :
    decodeInstr content spare i = .error .panic := by
  cases h : decodeInstr content spare i with
  | error e => rw [decodeInstr_error content spare i e h]
  | ok v =>
    obtain ⟨ins, i'⟩ := v
    have := decodeInstr_copy_within content spare i opcode ins i' hget hop h
    omega

/-- An Insert is checked against the capacity of the slice that holds the stream, not
against its length: one that ends within the bytes of the backing array behind the
stream takes its literal from there. -/
theorem decodeInstr_insert (content spare : Bytes) (i : Nat) (opcode : UInt8)
    (hget : content[i]? = some opcode) (hop : opcode.toNat < 128) :
    decodeInstr content spare i =
      if i + 1 + opcode.toNat ≤ content.length + spare.length then
        .ok (.insert (((content ++ spare).drop (i + 1)).take opcode.toNat), i + 1 + opcode.toNat)
      else .error .panic := by
  have h7 := (opcode_bits opcode.toNat (UInt8.toNat_lt opcode)).1
  have h7' : ¬ opcode.toNat >>> 7 = 1 := fun h => by have := h7.1 h; omega
  unfold decodeInstr
  rw [hget]
  simp only [if_neg h7']

set_option maxRecDepth 1000000 in
/-- Claim C25 (failing input). The pack `packTruncatedInsert`: the instruction stream of
its ref-delta ends two bytes into an Insert of five.  The inflate buffer has 1024
bytes and the saved stream is a slice of it, so the decoder takes the literal `XY`
and three zero bytes from behind the stream, no error is raised, and the delta loop
hands the blob `XY` followed by three zero bytes to `hashObject`; where the handle of
a new object file accepts writes, `unpackObjects` returns and has stored that blob.
In `packTruncatedCopy` the stream ends within a Copy, and `unpackObjects` panics
once it has got past the entry of the blob `abc`. -/
theorem C25_truncated_insert_accepted :
    decodeInstr [3, 5, 5, 0x58, 0x59] (List.replicate 1019 0) 2 =
      .ok (.insert [0x58, 0x59, 0, 0, 0], 8) ∧
    deltaTarget sampleStore
        { source := hashAbc, content := [3, 5, 5, 0x58, 0x59], spare := List.replicate 1019 0 } =
      .ok (ascii "blob", 5, [0x58, 0x59, 0, 0, 0]) ∧
    (unpackObjects .windows storedZlib packTruncatedInsert emptyStore).2 = .ok () ∧
    readObject (unpackObjects .windows storedZlib packTruncatedInsert emptyStore).1 hashXYzeros =
      .ok (ascii "blob", 5, [0x58, 0x59, 0, 0, 0]) ∧
    (unpackObjects .windows storedZlib packTruncatedCopy emptyStore).2 = .error .panic ∧
    (unpackObjects .unix storedZlib packTruncatedCopy sampleStore).2 = .error .panic := by
  decide

/-! ## A Copy without length bytes -/

/-- Claim C26. A Copy opcode (high bit set) whose three length bits are clear, at index `i`
of the stream.  Whenever it decodes, the instruction is a Copy of length 0; it
decodes when the offset bytes it selects are in the stream.  Replaying a Copy of
length 0 writes nothing and leaves the cursor where it is: the target buffer and
the cursor come back unchanged when the offset lies within the base, and otherwise
the program panics.  The loop then goes on behind the offset bytes. -/
theorem C26_copy_without_length (content spare base : Bytes) (i : Nat) (opcode : UInt8)
    (hget : content[i]? = some opcode) (hop : 128 ≤ opcode.toNat)
    (hclear : (opcode.toNat >>> 4) &&& 0b0000111 = 0) :
    (∀ ins i', decodeInstr content spare i = .ok (ins, i') →
      ∃ offset, ins = .copy offset 0 ∧ offset < 2 ^ 32) ∧
    (i + 1 + argsBefore opcode.toNat 4 ≤ content.length →
      decodeInstr content spare i =
        .ok (.copy (copyField content i opcode.toNat 0 4) 0,
          i + 1 + argsBefore opcode.toNat 4)) ∧
    (∀ (offset targetIndex : Nat) (targetBuffer : Bytes),
      offset < 2 ^ 32 → targetIndex < 2 ^ 32 → targetIndex ≤ targetBuffer.length →
      execInstr base (.copy offset 0) targetIndex targetBuffer =
        if offset ≤ base.length then .ok (targetIndex, targetBuffer) else .error .panic) ∧
    (∀ (m targetIndex : Nat) (targetBuffer : Bytes),
      i + 1 + argsBefore opcode.toNat 4 ≤ content.length →
      copyField content i opcode.toNat 0 4 ≤ base.length →
      targetIndex < 2 ^ 32 → targetIndex ≤ targetBuffer.length →
      replaySteps content spare base (m + 1) (i, targetIndex, targetBuffer) =
        replaySteps content spare base m
          (i + 1 + argsBefore opcode.toNat 4, targetIndex, targetBuffer)) := by
  obtain ⟨h7, b0, b1, b2, b3, b4, b5, b6⟩ := opcode_bits opcode.toNat (UInt8.toNat_lt opcode)
  have h7' : opcode.toNat >>> 7 = 1 := h7.2 hop
  have hi : i < content.length := by
    by_contra hc
    rw [List.getElem?_eq_none (by omega)] at hget
    cases hget
  have hl1 : ((opcode.toNat >>> 4) &&& 0b0000111) &&& 0b0001 = 0 := by rw [hclear]; rfl
  have hl2 : ((opcode.toNat >>> 4) &&& 0b0000111) &&& 0b0010 = 0 := by rw [hclear]; rfl
  have hl3 : ((opcode.toNat >>> 4) &&& 0b0000111) &&& 0b0100 = 0 := by rw [hclear]; rfl
  have hdec : i + 1 + argsBefore opcode.toNat 4 ≤ content.length →
      decodeInstr content spare i =
        .ok (.copy (copyField content i opcode.toNat 0 4) 0,
          i + 1 + argsBefore opcode.toNat 4) := by
    intro hlen
    have hs : ∀ k, opcode.toNat.testBit k = true →
        (if opcode.toNat.testBit k = true then 1 else 0) = 1 := by
      intro k h; simp [h]
    simp only [argsBefore, copyField, Nat.zero_add, Nat.add_zero] at hlen ⊢
    unfold decodeInstr
    rw [hget]
    simp only [h7', ↓reduceIte]
    rw [selByte_eq _ _ _ _ _ _ (by intro h; have := hs 0 (b0.1 h); omega)]
    simp only [b0]
    rw [selByte_eq _ _ _ _ _ _ (by intro h; have := hs 1 (b1.1 h); omega)]
    simp only [b1]
    rw [selByte_eq _ _ _ _ _ _ (by intro h; have := hs 2 (b2.1 h); omega)]
    simp only [b2]
    rw [selByte_eq _ _ _ _ _ _ (by intro h; have := hs 3 (b3.1 h); omega)]
    simp only [b3]
    rw [selByte_clear _ _ _ _ _ hl1]
    simp only
    rw [selByte_clear _ _ _ _ _ hl2]
    simp only
    rw [selByte_clear _ _ _ _ _ hl3]
    simp only
    rw [or_bytes4 _ _ _ _ (ite_byte_lt _ _) (ite_byte_lt _ _) (ite_byte_lt _ _)]
    simp only [ite_mul, Nat.zero_mul, pow_zero, pow_one, Nat.mul_one, Nat.add_assoc]
  have hexec : ∀ (offset targetIndex : Nat) (targetBuffer : Bytes),
      offset < 2 ^ 32 → targetIndex < 2 ^ 32 → targetIndex ≤ targetBuffer.length →
      execInstr base (.copy offset 0) targetIndex targetBuffer =
        if offset ≤ base.length then .ok (targetIndex, targetBuffer) else .error .panic := by
    intro offset ti tb ho hti hle
    rw [execInstr_eq base (.copy offset 0) ti tb ⟨ho, by norm_num⟩ hti]
    simp only [Instr.length, Nat.add_zero, Instr.inBase, Instr.below32, Instr.output,
      List.take_zero, List.append_nil, List.take_append_drop]
    by_cases hb : offset ≤ base.length
    · rw [if_pos hb, if_pos ⟨hle, hti, hb, ho⟩]
    · rw [if_neg hb, if_neg (fun hh => hb hh.2.2.1)]
  refine ⟨?_, hdec, hexec, ?_⟩
  · intro ins i' h
    have hb := (decodeInstr_ok content spare i ins i' h).2
    unfold decodeInstr at h
    rw [hget] at h
    simp only [h7', ↓reduceIte] at h
    split at h
    · cases h
    split at h
    · cases h
    split at h
    · cases h
    split at h
    · cases h
    rename_i s4 _
    rw [selByte_clear _ _ _ _ _ hl1] at h
    simp only at h
    rw [selByte_clear _ _ _ _ _ hl2] at h
    simp only at h
    rw [selByte_clear _ _ _ _ _ hl3] at h
    simp only [Except.ok.injEq, Prod.mk.injEq] at h
    rw [← h.1] at hb
    exact ⟨s4.1, h.1.symm, hb.1⟩
  · intro m ti tb hlen hoff hti hle
    have hlt : copyField content i opcode.toNat 0 4 < 2 ^ 32 := by
      have := (decodeInstr_ok content spare i _ _ (hdec hlen)).2
      exact this.1
    rw [replaySteps, if_pos hi, hdec hlen]
    simp only
    rw [hexec _ ti tb hlt hti hle, if_pos hoff]

/-- The opcode `0x81` selects one offset byte and no length byte. -/
theorem C26_copy_without_length_witness :
    decodeInstr [3, 5, 0x81, 2] [] 2 = .ok (.copy 2 0, 4) :=
  (C26_copy_without_length [3, 5, 0x81, 2] [] (ascii "abc") 2 0x81 (by decide) (by decide)
    (by decide)).2.1 (by decide)

/-! ## Validation of the advertisement -/

/-- One iteration of the frame loop on a frame with a payload: the payload goes to
`advertisedLine`, and the loop goes on behind the frame unless that fails. -/
theorem readAdvertisement_frame (sizeBuffer : Bytes) (d₀ d₁ d₂ d₃ : UInt8)
    (payload rest : Bytes) (fuel : Nat) (refs : List (Bytes × Bytes))
    (h0 : isHexDigit d₀ = true) (h1 : isHexDigit d₁ = true) (h2 : isHexDigit d₂ = true)
    (h3 : isHexDigit d₃ = true) (hne : payload ≠ [])
    (hlen : frameLength d₀ d₁ d₂ d₃ = payload.length + 4) :
    readAdvertisement (fuel + 1) sizeBuffer (d₀ :: d₁ :: d₂ :: d₃ :: (payload ++ rest)) refs =
      match advertisedLine payload refs with
      | .error e => some (.error e)
      | .ok refs => readAdvertisement fuel [d₀, d₁, d₂, d₃] rest refs := by
  have hpos : 0 < payload.length := List.length_pos.mpr hne
  have hf : readFrame sizeBuffer (d₀ :: d₁ :: d₂ :: d₃ :: (payload ++ rest)) =
      .ok (some (.data payload, [d₀, d₁, d₂, d₃], rest)) := by
    unfold readFrame
    simp only [(take_four d₀ d₁ d₂ d₃ (payload ++ rest)).1,
      (take_four d₀ d₁ d₂ d₃ (payload ++ rest)).2]
    rw [if_neg (by simp)]
    have hsb : [d₀, d₁, d₂, d₃] ++
        (sizeBuffer.drop ([d₀, d₁, d₂, d₃] : Bytes).length).take
          (4 - ([d₀, d₁, d₂, d₃] : Bytes).length) = [d₀, d₁, d₂, d₃] := by
      simp
    rw [hsb, parseHex_four, if_pos ⟨h0, h1, h2, h3⟩]
    simp only
    rw [if_pos (by omega), hlen, Nat.add_sub_cancel, List.take_left, List.drop_left, if_neg hne]
    simp
  rw [readAdvertisement, hf]

/-- Claim C24 (amended). The frame loop checks each payload by itself, whatever the frames
before it: a payload that starts with `#` must be the service line (after one
trailing newline is stripped) or the program ends; a payload that starts with any
other byte and has at least 41 bytes is taken as a ref line, its first 40 bytes the
hash and the bytes from the 42nd up to the first NUL the name; and after a payload
that is accepted the loop goes on behind the frame.  No frame is required to be the
service line. -/
theorem C24_lines_checked_one_by_one (sizeBuffer : Bytes) (d₀ d₁ d₂ d₃ : UInt8)
    (payload rest : Bytes) (fuel : Nat) (refs : List (Bytes × Bytes)) (c : UInt8) (tail : Bytes)
    (h0 : isHexDigit d₀ = true) (h1 : isHexDigit d₁ = true) (h2 : isHexDigit d₂ = true)
    (h3 : isHexDigit d₃ = true) (hne : payload ≠ [])
    (hlen : frameLength d₀ d₁ d₂ d₃ = payload.length + 4)
    (hdata : stripNewline payload = c :: tail) :
    (c = 0x23 → c :: tail = ascii "# service=git-upload-pack" →
      readAdvertisement (fuel + 1) sizeBuffer (d₀ :: d₁ :: d₂ :: d₃ :: (payload ++ rest)) refs =
        readAdvertisement fuel [d₀, d₁, d₂, d₃] rest refs) ∧
    (c = 0x23 → c :: tail ≠ ascii "# service=git-upload-pack" →
      readAdvertisement (fuel + 1) sizeBuffer (d₀ :: d₁ :: d₂ :: d₃ :: (payload ++ rest)) refs =
        some (.error .fatal)) ∧
    (c ≠ 0x23 → 41 ≤ (c :: tail).length →
      readAdvertisement (fuel + 1) sizeBuffer (d₀ :: d₁ :: d₂ :: d₃ :: (payload ++ rest)) refs =
        readAdvertisement fuel [d₀, d₁, d₂, d₃] rest
          ((((c :: tail).drop 41).takeWhile (fun b => b ≠ 0), (c :: tail).take 40) :: refs)) := by
  have hf := readAdvertisement_frame sizeBuffer d₀ d₁ d₂ d₃ payload rest fuel refs h0 h1 h2 h3
    hne hlen
  have hline : advertisedLine payload refs =
      if c = 0x23 then
        if c :: tail ≠ ascii "# service=git-upload-pack" then .error .fatal else .ok refs
      else if (c :: tail).length < 41 then .error .panic
      else .ok ((((c :: tail).drop 41).takeWhile (fun b => b ≠ 0), (c :: tail).take 40) :: refs) := by
    unfold advertisedLine
    rw [if_neg hne]
    unfold stripNewline at hdata
    simp only [hdata]
  rw [hf, hline]
  refine ⟨fun hc hs => ?_, fun hc hs => ?_, fun hc hl => ?_⟩
  · rw [if_pos hc, if_neg (by simpa using hs)]
  · rw [if_pos hc, if_pos hs]
  · rw [if_neg hc, if_neg (by omega)]

/-- The service line as the first frame of a body. -/
theorem C24_lines_checked_one_by_one_witness :
    readAdvertisement (1 + 1) (List.replicate 4 0)
        (0x30 :: 0x30 :: 0x31 :: 0x65 :: (ascii "# service=git-upload-pack\n" ++ ascii "0000")) [] =
      readAdvertisement 1 (ascii "001e") (ascii "0000") [] :=
  (C24_lines_checked_one_by_one (List.replicate 4 0) 0x30 0x30 0x31 0x65
    (ascii "# service=git-upload-pack\n") (ascii "0000") 1 [] 0x23
    (ascii " service=git-upload-pack") (by decide) (by decide) (by decide) (by decide)
    (by decide) (by decide) (by decide)).1 (by decide) (by decide)

/-- Claim C24 (counterexample). A body of two frames, the ref line
`f2ba8f84ab5c1bce84a7b441cb1959cfc7093b7f HEAD` and the terminator: the first frame is
not the service line, and the reading of the advertisement returns the hash for
`HEAD`, with which `fetchGitPack` goes on to request the pack. -/
theorem C24_counterexample :
    advertisedHead (ascii "0032f2ba8f84ab5c1bce84a7b441cb1959cfc7093b7f HEAD\n0000") =
      some (.ok (ascii "f2ba8f84ab5c1bce84a7b441cb1959cfc7093b7f")) := by
  decide
/-! ## Entries of an unassigned type -/

/-- An entry whose type is none of the six the code names goes through the same reads as
a direct entry and changes neither the store nor the saved deltas: it fails where
`Peek` or the inflater fails, and otherwise the reader has moved by the bytes the
inflater consumed. -/
theorem unpackEntry_unassigned (goos : GOOS) (Z : Zlib) (reader : BufReader) (st : Store)
    (saved : List objDelta) (objType informedSize n : Nat) (rest : Bytes)
    (hh : readEntryHeader (reader.buf ++ reader.rest) = .ok (objType, informedSize, n, rest))
    (ht : objType = 0 ∨ objType = 5) :
    unpackEntry goos Z reader st saved =
      match (reader.skipBytes n).peek (if informedSize < 1024 then 1024 else informedSize) with
      | .error e => (st, .error e)
      | .ok (compressedBuffer, reader) =>
        match Z.readOnce compressedBuffer (if informedSize < 1024 then 1024 else informedSize) with
        | none => (st, .error .fatal)
        | some (_, compressedBytesRead) =>
          (st, .ok (reader.discard compressedBytesRead, saved)) := by
  have h6 : objType ≠ OBJ_OFS_DELTA := by unfold OBJ_OFS_DELTA; omega
  have h7 : objType ≠ OBJ_REF_DELTA := by unfold OBJ_REF_DELTA; omega
  unfold unpackEntry
  rw [hh]
  simp only [if_neg h6, if_neg h7]
  generalize hsz : (if informedSize < 1024 then 1024 else informedSize) = size
  cases hp : (reader.skipBytes n).peek size with
  | error e => rfl
  | ok p =>
    obtain ⟨compressedBuffer, reader'⟩ := p
    have hle : size ≤ bufSize := by
      unfold BufReader.peek at hp
      simp only at hp
      by_contra hc
      rw [if_pos (by omega)] at hp
      cases hp
    simp only
    cases Z.readOnce compressedBuffer size with
    | none => rfl
    | some pc =>
      obtain ⟨produced, consumed⟩ := pc
      simp only
      have hs : storeEntry goos objType [] size produced st saved = (st, .ok saved) := by
        unfold storeEntry makeslice
        have hsz' : (if size < 1024 then 1024 else size) ≤ maxAlloc := by
          unfold bufSize at hle
          unfold maxAlloc
          split <;> omega
        rw [if_pos hsz']
        simp only
        rw [if_neg (by unfold OBJ_BLOB; omega), if_neg (by unfold OBJ_TREE; omega),
          if_neg (by unfold OBJ_COMMIT; omega), if_neg (by unfold OBJ_TAG; omega), if_neg h7]
      rw [hs]

/-- Claim C27 (failing input). A pack whose first entry has the header bytes `88 b8 02` (type
0, declared size 5000) or `d8 b8 02` (type 5, declared size 5000): whatever follows
the header and whatever the inflater would do with it, `unpackObjects` ends the
program at this entry. -/
theorem C27_unassigned_type_large (goos : GOOS) (Z : Zlib) (st : Store)
    (count stream : Bytes) (hc : count.length = 4) (h1 : 0 < bigEndianBytesToUint count) :
    unpackObjects goos Z
        (ascii "PACK" ++ [0, 0, 0, 2] ++ count ++ ([0x88, 0xb8, 0x02] ++ stream)) st =
      (st, .error .fatal) ∧
    unpackObjects goos Z
        (ascii "PACK" ++ [0, 0, 0, 2] ++ count ++ ([0xd8, 0xb8, 0x02] ++ stream)) st =
      (st, .error .fatal) := by
  obtain ⟨k, hk⟩ : ∃ k, bigEndianBytesToUint count = k + 1 :=
    ⟨bigEndianBytesToUint count - 1, by omega⟩
  constructor
  · rw [unpackObjects_header goos Z [0, 0, 0, 2] count _ st rfl hc, hk, unpackEntries]
    rw [unpackEntry_large goos Z _ st [] 0 5000 3 stream
      (by
        simp only
        rw [take_drop_pending _ 12 (by norm_num [bufSize]),
          List.drop_left' (by simp [ascii, hc])]
        rfl)
      (by norm_num [bufSize])]
  · rw [unpackObjects_header goos Z [0, 0, 0, 2] count _ st rfl hc, hk, unpackEntries]
    rw [unpackEntry_large goos Z _ st [] 5 5000 3 stream
      (by
        simp only
        rw [take_drop_pending _ 12 (by norm_num [bufSize]),
          List.drop_left' (by simp [ascii, hc])]
        rfl)
      (by norm_num [bufSize])]

/-- A pack of one entry of type 0. -/
theorem C27_unassigned_type_large_witness :
    unpackObjects .unix storedZlib
        (ascii "PACK" ++ [0, 0, 0, 2] ++ [0, 0, 0, 1] ++ ([0x88, 0xb8, 0x02] ++ [0x78, 0x9c]))
        emptyStore = (emptyStore, .error .fatal) :=
  (C27_unassigned_type_large .unix storedZlib emptyStore [0, 0, 0, 1] [0x78, 0x9c] rfl
    (by decide)).1

set_option maxRecDepth 1000000 in
/-- The pack `packUnassignedType`: the entry of type 0 leaves no trace and the loop goes on
with the blob `abc` behind it, which is stored where the handle of a new object file
accepts writes. -/
theorem unpackObjects_unassigned_sample :
    unpackObjects .windows storedZlib packUnassignedType emptyStore =
      ((hashObject .windows true (ascii "blob") 3 (ascii "abc") emptyStore).2, .ok ()) := by
  apply Prod.ext
  · rfl
  · decide

end MyGit
